import Mathlib

/-!
# simpliCty lexer: a shallow embedding of `lexers.c`

Conventions of the embedding.

* A `const char *` argument is the list of the characters stored from the
  pointer on; the terminating NUL of the C string is either the first
  `'\x00'` of the list or, when the list holds none, sits right after its
  last character.  `strlen` and `char_at` read the list that way, so every
  list denotes a buffer the code can receive, and `cstr` gives the string it
  holds.
* A `char` is a `Char`.  The `<ctype.h>` predicates are those of the "C"
  locale, which puts no character above code 127 in any class.
* An `int` has 32 bits and a `size_t` 64, as on the usual 64-bit targets.
  The initialisations `int length = strlen(source)` and
  `int len = strlen(lexeme)` narrow a `size_t` to an `int`: `int_of_size_t`,
  the value modulo `2^32` read as a two's complement number.  The `int`
  index of `tokenize` is never negative and is a natural number; an
  increment that takes it past `INT_MAX` is a signed overflow, which has no
  defined behaviour: `Fault.int_overflow`.  The `size_t` line counter wraps
  modulo `2^64`.  The `size_t` variables `*token_count` and `capacity` stay
  below `2^33` (`tokenize_scan_counts`) and are plain natural numbers.
* `malloc`, `realloc` and `strdup` are taken to succeed.
* A write past the last byte of a stack buffer, or a string read from a
  buffer left without terminator, has no defined behaviour in C: the
  functions return `Except.error Fault.buffer_overflow` there.
* The token array is a heap block of `capacity` slots, of which
  `LexState.tokens` lists those written so far, in slot order: the slots `0`
  to `token_count - 1` during the loop.  `realloc` keeps them.  A store at
  index `token_count` is within the block when `token_count < capacity`;
  otherwise it is a write past the end of the block, which has no defined
  behaviour: `Fault.heap_overflow`.
* The global `line_number` is passed in and returned explicitly, and the
  text written to `stderr` is the list `LexState.diagnostics`.
-/

namespace SimpliCty

/-! ## Data model -/

/-- Modelled from the spec: the enum `TokenType` is declared in `lexers.h`,
which is not among the sources; its constants are the eleven that
`token_type_to_string` of `lexers.c` switches over, the token kinds of the
spec's data model. -/
inductive TokenType where
  | TOKEN_KEYWORD
  | TOKEN_IDENTIFIER
  | TOKEN_NUMBER
  | TOKEN_ARITHMETIC_OPERATOR
  | TOKEN_RELATIONAL_OPERATOR
  | TOKEN_LOGICAL_OPERATOR
  | TOKEN_ASSIGNMENT_OPERATOR
  | TOKEN_DELIMITER
  | TOKEN_UNARY_OPERATOR
  | TOKEN_UNKNOWN
  | TOKEN_EOF
  deriving DecidableEq, Repr

/-- Modelled from the spec: the struct `Token` is declared in `lexers.h`,
which is not among the sources; its three fields are the ones `create_token`
of `lexers.c` assigns (kind, text, line of the spec's data model). -/
structure Token where
  type : TokenType
  value : List Char
  line_num : Nat
  deriving DecidableEq, Repr

/-- What goes wrong in a run of the embedded code. -/
inductive Fault where
  /-- A fixed-size stack buffer (`char buffer[32]`, `char buffer[64]`) was
  written past its end or read as a string without terminator. -/
  | buffer_overflow
  /-- The token array was written at an index that is not below its
  capacity. -/
  | heap_overflow
  /-- The `int` index was incremented past `INT_MAX`. -/
  | int_overflow
  /-- The iteration bound given to `tokenize_loop` was used up before the
  loop condition became false. -/
  | out_of_fuel
  deriving DecidableEq, Repr

/-! ## C library -/

/-- The terminating NUL. -/
def NUL : Char := '\x00'

/-- The expression `source[i]`. -/
def char_at (source : List Char) (i : Nat) : Char := source.getD i NUL

/-- The characters of the C string stored in `s`: those before the first NUL. -/
def cstr (s : List Char) : List Char := s.takeWhile (fun c => c != NUL)

/-- The function `strlen` of `<string.h>`. -/
def strlen (s : List Char) : Nat := (cstr s).length

/-- The function `strdup` of `<string.h>`: a copy of the C string. -/
def strdup (s : List Char) : List Char := cstr s

/-- The function `strchr(set, c) != NULL` of `<string.h>`: `c` occurs in the
C string `set`, its terminator included. -/
def strchr (set : List Char) (c : Char) : Bool := (cstr set).elem c || c == NUL

/-- The function `isdigit` of `<ctype.h>`. -/
def isdigit (c : Char) : Bool := '0'.toNat ≤ c.toNat && c.toNat ≤ '9'.toNat

/-- The function `isalpha` of `<ctype.h>`. -/
def isalpha (c : Char) : Bool :=
  ('A'.toNat ≤ c.toNat && c.toNat ≤ 'Z'.toNat) || ('a'.toNat ≤ c.toNat && c.toNat ≤ 'z'.toNat)

/-- The function `isalnum` of `<ctype.h>`. -/
def isalnum (c : Char) : Bool := isalpha c || isdigit c

/-- The function `isspace` of `<ctype.h>`: space, and the five controls
`\t \n \v \f \r` (codes 9 to 13). -/
def isspace (c : Char) : Bool := c == ' ' || (9 ≤ c.toNat && c.toNat ≤ 13)

/-- The constant `INT_MAX` of `<limits.h>`, for an `int` of 32 bits:
`2^31 - 1`. -/
def INT_MAX : Nat := 2147483647

/-- The constant `SIZE_MAX` of `<stdint.h>`, for a `size_t` of 64 bits:
`2^64 - 1`. -/
def SIZE_MAX : Nat := 18446744073709551615

/-- The conversion of a `size_t` value to `int` in an initialisation such as
`int length = strlen(source)`: the value itself when it is at most
`INT_MAX`, and otherwise, as the compilers for the usual targets define it,
the value modulo `2^32` read as a two's complement number. -/
def int_of_size_t (n : Nat) : Int :=
  if n % 4294967296 ≤ INT_MAX then ((n % 4294967296 : Nat) : Int)
  else ((n % 4294967296 : Nat) : Int) - 4294967296

/-! ## lexers.c -/

/-- The function `create_token`. -/
def create_token (type : TokenType) (value : List Char) (line_num : Nat) : Token :=
  { type := type, value := strdup value, line_num := line_num }

/-- The copy loop
`while (p(source[index])) buffer[buffer_index++] = source[index++];`
into a zero-initialised `char buffer[cap]`, followed by the use of `buffer`
as a C string.  `rest` is `source + index`, `buffer` the characters written
so far (so `buffer_index = buffer.length`).  Returns the string held by the
buffer and the final index. -/
def copy_run (p : Char → Bool) (cap : Nat) :
    List Char → Nat → List Char → Except Fault (List Char × Nat)
  | [], index, buffer =>
    -- `source[index]` is the terminator: the loop ends
    if buffer.length < cap then .ok (buffer, index) else .error .buffer_overflow
  | c :: rest, index, buffer =>
    if p c then
      if buffer.length < cap then copy_run p cap rest (index + 1) (buffer ++ [c])
      else .error .buffer_overflow
    else if buffer.length < cap then .ok (buffer, index)
    else .error .buffer_overflow

/-- The function `generate_number`: the token and the updated `*index`. -/
def generate_number (source : List Char) (index : Nat) (line_number : Nat) :
    Except Fault (Token × Nat) :=
  match copy_run isdigit 32 (source.drop index) index [] with
  | .error e => .error e
  | .ok (buffer, index1) => .ok (create_token .TOKEN_NUMBER buffer line_number, index1)

/-- The function `classify_keyword_or_identifier`; every `break` of the
nested switches leads to the final `return`.  The length is held in an
`int`. -/
def classify_keyword_or_identifier (lexeme : List Char) (line_number : Nat) : Token :=
  let len : Int := int_of_size_t (strlen lexeme)
  let identifier := create_token .TOKEN_IDENTIFIER lexeme line_number
  if char_at lexeme 0 = 'b' then
    if len = 5 then
      if char_at lexeme 1 = 'r' then
        if char_at lexeme 2 = 'e' then
          if char_at lexeme 3 = 'a' then
            if char_at lexeme 4 = 'k' then
              create_token .TOKEN_KEYWORD "BREAK".toList line_number
            else identifier
          else identifier
        else identifier
      else identifier
    else identifier
  else if char_at lexeme 0 = 'i' then
    if len = 3 ∧ char_at lexeme 1 = 'n' ∧ char_at lexeme 2 = 't' then
      create_token .TOKEN_KEYWORD "INT".toList line_number
    else if len = 2 ∧ char_at lexeme 1 = 'f' then
      create_token .TOKEN_KEYWORD "IF".toList line_number
    else identifier
  else if char_at lexeme 0 = 'r' then
    if len = 6 then
      if char_at lexeme 1 = 'e' then
        if char_at lexeme 2 = 't' then
          if char_at lexeme 3 = 'u' then
            if char_at lexeme 4 = 'r' then
              if char_at lexeme 5 = 'n' then
                create_token .TOKEN_KEYWORD "RETURN".toList line_number
              else identifier
            else identifier
          else identifier
        else identifier
      else identifier
    else identifier
  else if char_at lexeme 0 = 'w' then
    if len = 5 then
      if char_at lexeme 1 = 'h' then
        if char_at lexeme 2 = 'i' then
          if char_at lexeme 3 = 'l' then
            if char_at lexeme 4 = 'e' then
              create_token .TOKEN_KEYWORD "WHILE".toList line_number
            else identifier
          else identifier
        else identifier
      else identifier
    else identifier
  else identifier

/-- The function `classify_operator`: the token and the updated `*index`. -/
def classify_operator (source : List Char) (index : Nat) (line_number : Nat) : Token × Nat :=
  let op := char_at source index
  let index := index + 1
  if op = '=' ∧ char_at source index = '=' then
    (create_token .TOKEN_RELATIONAL_OPERATOR "==".toList line_number, index + 1)
  else if op = '<' ∧ char_at source index = '=' then
    (create_token .TOKEN_RELATIONAL_OPERATOR "<=".toList line_number, index + 1)
  else if op = '>' ∧ char_at source index = '=' then
    (create_token .TOKEN_RELATIONAL_OPERATOR ">=".toList line_number, index + 1)
  else if op = '!' ∧ char_at source index = '=' then
    (create_token .TOKEN_RELATIONAL_OPERATOR "!=".toList line_number, index + 1)
  else if op = '&' ∧ char_at source index = '&' then
    (create_token .TOKEN_LOGICAL_OPERATOR "&&".toList line_number, index + 1)
  else if op = '|' ∧ char_at source index = '|' then
    (create_token .TOKEN_LOGICAL_OPERATOR "||".toList line_number, index + 1)
  else if op = '+' then (create_token .TOKEN_ARITHMETIC_OPERATOR "+".toList line_number, index)
  else if op = '-' then (create_token .TOKEN_ARITHMETIC_OPERATOR "-".toList line_number, index)
  else if op = '*' then (create_token .TOKEN_ARITHMETIC_OPERATOR "*".toList line_number, index)
  else if op = '/' then (create_token .TOKEN_ARITHMETIC_OPERATOR "/".toList line_number, index)
  else if op = '=' then (create_token .TOKEN_ASSIGNMENT_OPERATOR "=".toList line_number, index)
  else if op = '!' then (create_token .TOKEN_UNARY_OPERATOR "!".toList line_number, index)
  else if op = '<' then (create_token .TOKEN_RELATIONAL_OPERATOR "<".toList line_number, index)
  else if op = '>' then (create_token .TOKEN_RELATIONAL_OPERATOR ">".toList line_number, index)
  else (create_token .TOKEN_UNKNOWN [op, NUL] line_number, index)

/-- The function `classify_delimiter`. -/
def classify_delimiter (c : Char) (line_number : Nat) : Token :=
  if c = ';' then create_token .TOKEN_DELIMITER ";".toList line_number
  else if c = ',' then create_token .TOKEN_DELIMITER ",".toList line_number
  else if c = '(' then create_token .TOKEN_DELIMITER "(".toList line_number
  else if c = ')' then create_token .TOKEN_DELIMITER ")".toList line_number
  else if c = '\x7b' then create_token .TOKEN_DELIMITER "\x7b".toList line_number
  else if c = '\x7d' then create_token .TOKEN_DELIMITER "\x7d".toList line_number
  else if c = '[' then create_token .TOKEN_DELIMITER "[".toList line_number
  else if c = ']' then create_token .TOKEN_DELIMITER "]".toList line_number
  else create_token .TOKEN_UNKNOWN [c, NUL] line_number

/-- The condition `isalnum(source[index]) || source[index] == '_'` of the
identifier loop of `tokenize`. -/
def identifier_char (d : Char) : Bool := isalnum d || d == '_'

/-- The variables of `tokenize`, the global `line_number` and the standard
error stream.  Of the array `tokens`, a heap block of `capacity` slots, the
list holds the slots written so far, in slot order.  One field is not in the
code and only records what it does: `starts`, for each token written the
index at which its lexeme starts. -/
structure LexState where
  index : Nat
  line_number : Nat
  capacity : Nat
  tokens : List Token
  token_count : Nat
  diagnostics : List (Char × Nat)
  starts : List Nat
  deriving DecidableEq, Repr

/-- The state after the block `// Store token` of `tokenize`, when its store
is within the array: the capacity doubled if the array was full, the token
written to the slot `token_count`, the next one after the slots written so
far, and `*token_count` incremented.  `start` is the index at which the
token's lexeme starts, `index` the index after it. -/
def after_store (st : LexState) (token : Token) (start index : Nat) : LexState :=
  { st with
    index := index
    capacity := if st.token_count = st.capacity then st.capacity * 2 else st.capacity
    tokens := st.tokens ++ [token]
    token_count := st.token_count + 1
    starts := st.starts ++ [start] }

/-- The block `// Store token` of `tokenize`: double the capacity when
`*token_count == capacity`, then `tokens[(*token_count)++] = token`, a write
past the end of the array unless `*token_count` is below the capacity. -/
def store_token (st : LexState) (token : Token) (start index : Nat) : Except Fault LexState :=
  let capacity := if st.token_count = st.capacity then st.capacity * 2 else st.capacity
  if st.token_count < capacity then .ok (after_store st token start index)
  else .error .heap_overflow

/-- The operator characters, the string literal of the first `strchr` call. -/
def operator_chars : List Char := "+-*/=<>!&|".toList

/-- The delimiter characters, the string literal of the second `strchr` call. -/
def delimiter_chars : List Char := ";\x7b\x7d,()[]".toList

/-- The body of the loop `while (index < length)` of `tokenize`, entered
with `index < length`, so that `index` is below `INT_MAX` and the single
`index++` of the whitespace, delimiter and unrecognized-character branches
does not overflow.  The runs copied by `generate_number` and by the
identifier loop and the second increment of `classify_operator` are not
bounded by `length`: the index they leave is checked against `INT_MAX`. -/
def tokenize_step (source : List Char) (st : LexState) : Except Fault LexState :=
  let c := char_at source st.index
  if isspace c then
    .ok { st with
          line_number := if c = '\n' then (st.line_number + 1) % (SIZE_MAX + 1)
            else st.line_number
          index := st.index + 1 }
  else if isdigit c then
    match generate_number source st.index st.line_number with
    | .error e => .error e
    | .ok (token, index) =>
      if INT_MAX < index then .error .int_overflow
      else store_token st token st.index index
  else if isalpha c || c == '_' then
    match copy_run identifier_char 64 (source.drop st.index) st.index [] with
    | .error e => .error e
    | .ok (buffer, index) =>
      if INT_MAX < index then .error .int_overflow
      else store_token st (classify_keyword_or_identifier buffer st.line_number) st.index index
  else if strchr operator_chars c then
    let r := classify_operator source st.index st.line_number
    if INT_MAX < r.2 then .error .int_overflow
    else store_token st r.1 st.index r.2
  else if strchr delimiter_chars c then
    store_token st (classify_delimiter c st.line_number) st.index (st.index + 1)
  else
    .ok { st with
          diagnostics := st.diagnostics ++ [(c, st.line_number)]
          index := st.index + 1 }

/-- The loop `while (index < length)` of `tokenize`, run for at most `fuel`
iterations. -/
def tokenize_loop (source : List Char) (length : Int) : Nat → LexState → Except Fault LexState
  | 0, st => if (st.index : Int) < length then .error .out_of_fuel else .ok st
  | fuel + 1, st =>
    if (st.index : Int) < length then
      match tokenize_step source st with
      | .error e => .error e
      | .ok st1 => tokenize_loop source length fuel st1
    else .ok st

/-- The state in which `tokenize` enters its loop. -/
def initial_state (line_number : Nat) : LexState :=
  { index := 0, line_number := line_number, capacity := 10, tokens := [],
    token_count := 0, diagnostics := [], starts := [] }

/-- The function `tokenize` up to the end of its loop, entered with the
global `line_number` at the given value: the state in which the loop is
left.  `length` is `strlen(source)` narrowed to an `int`; the loop is given
that many iterations, which it never uses up. -/
def tokenize_scan (source : List Char) (line_number : Nat) : Except Fault LexState :=
  let length : Int := int_of_size_t (strlen source)
  tokenize_loop source length length.toNat (initial_state line_number)

/-- The state after the last statement of `tokenize`, when its store is
within the array: the `TOKEN_EOF` marker written to the slot `token_count`,
and `*token_count` left as it is. -/
def after_eof (st : LexState) : LexState :=
  { st with
    tokens := st.tokens ++ [create_token .TOKEN_EOF "EOF".toList st.line_number]
    starts := st.starts ++ [st.index] }

/-- The statement after the loop of `tokenize`:
`tokens[*token_count] = create_token(TOKEN_EOF, "EOF", line_number);`, with
no check of the capacity: a write past the end of the array unless
`*token_count` is below the capacity. -/
def store_eof (st : LexState) : Except Fault LexState :=
  if st.token_count < st.capacity then .ok (after_eof st) else .error .heap_overflow

/-- The function `tokenize`, entered with the global `line_number` at the
given value.  The state returned holds the array with the `TOKEN_EOF` marker
stored at index `token_count`, the value left in `*token_count`, the final
`line_number` and the diagnostics written to `stderr`. -/
def tokenize (source : List Char) (line_number : Nat) : Except Fault LexState :=
  match tokenize_scan source line_number with
  | .error e => .error e
  | .ok st => store_eof st

/-! ## Definitions used to state the properties -/

/-- The keywords, in their source spelling. -/
def keywords : List (List Char) :=
  ["break".toList, "int".toList, "if".toList, "return".toList, "while".toList]

/-- A character that belongs to a lexeme: a digit, a letter, an underscore,
an operator character or a delimiter character. -/
def lexeme_char (c : Char) : Bool :=
  isdigit c || isalpha c || c == '_' || operator_chars.elem c || delimiter_chars.elem c

/-- An unrecognized character, in the words of the spec: not whitespace, not
a digit, not a letter or underscore, not in the operator set and not in the
delimiter set. -/
def unrecognized (c : Char) : Bool :=
  !isspace c && !isdigit c && !(isalpha c || c == '_') && !operator_chars.elem c
    && !delimiter_chars.elem c

/-- The run of `tokenize` on `source` stays within its buffers: it writes no
lexeme buffer and not the token array past the end, and does not take the
index past `INT_MAX`. -/
def in_bounds (source : List Char) (line_number : Nat) : Bool :=
  match tokenize source line_number with
  | .error .buffer_overflow => false
  | .error .heap_overflow => false
  | .error .int_overflow => false
  | _ => true

/-- The run of `tokenize` on `source` does not write the token array past
its end. -/
def array_in_bounds (source : List Char) (line_number : Nat) : Bool :=
  match tokenize source line_number with
  | .error .heap_overflow => false
  | _ => true

/-- Every digit run of the input is shorter than 32 characters and every
identifier run shorter than 64.  A digit run is a maximal run of digits that
does not continue a run of letters, digits and underscores (such digits
belong to an identifier); an identifier run is a run of letters, digits and
underscores from a letter or underscore on that does not continue a run of
letters and underscores (the digits before it, if any, are a digit run or
belong to the identifier before them). -/
def runs_fit (source : List Char) : Prop :=
  ∀ i, i < strlen source →
    (isdigit (char_at source i) = true →
      (i = 0 ∨ identifier_char (char_at source (i - 1)) = false) →
      ((source.drop i).takeWhile isdigit).length < 32) ∧
    ((isalpha (char_at source i) || char_at source i == '_') = true →
      (i = 0 ∨ (isalpha (char_at source (i - 1)) || char_at source (i - 1) == '_') = false) →
      ((source.drop i).takeWhile identifier_char).length < 64)

instance (source : List Char) : Decidable (runs_fit source) := by
  unfold runs_fit
  infer_instance

/-- The number of newline characters before index `i` of the buffer. -/
def newlines_before (source : List Char) (i : Nat) : Nat := (source.take i).count '\n'

/-- The value of the line counter when the scan is at index `i` of the
buffer, having been entered with the counter at `line_number`: one higher,
modulo `2^64`, for each newline character before `i`. -/
def line_at (source : List Char) (line_number : Nat) : Nat → Nat
  | 0 => line_number
  | i + 1 =>
    if char_at source i = '\n' then (line_at source line_number i + 1) % (SIZE_MAX + 1)
    else line_at source line_number i

/-- The diagnostics the spec asks for, for the characters before index `n`: in
source order, one for each unrecognized character, carrying that character
and the value of the line counter there. -/
def expected_diagnostics (source : List Char) (line_number n : Nat) : List (Char × Nat) :=
  ((List.range n).filter (fun i => unrecognized (char_at source i))).map
    (fun i => (char_at source i, line_at source line_number i))

/-- The capacity of the token array after `n` stores of the loop of
`tokenize`: 10, doubled by each store that finds the array full. -/
def capacity_after : Nat → Nat
  | 0 => 10
  | n + 1 => if n = capacity_after n then capacity_after n * 2 else capacity_after n

/-- The text of a token as it is spelled in the source: for a Keyword token
the lowercase spelling of its uppercase text, for every other token its text. -/
def source_spelling (t : Token) : List Char :=
  if t.type = .TOKEN_KEYWORD then t.value.map Char.toLower else t.value

/-- The invariant of the loop of `tokenize`, started with the line counter at
`ln` on the buffer `source`, on the scan: the index, the line counter, the
diagnostics, and for each token written its line and the index at which its
lexeme starts. -/
structure ScanInv (source : List Char) (ln : Nat) (st : LexState) : Prop where
  index_le : st.index ≤ strlen source
  line_eq : st.line_number = line_at source ln st.index
  token_line : List.Forall₂
    (fun t s => t.line_num = line_at source ln s ∧ s < strlen source ∧
      lexeme_char (char_at source s) = true ∧ source_spelling t <+: source.drop s)
    st.tokens st.starts
  diag_eq : st.diagnostics = expected_diagnostics source ln st.index
  starts_lt : ∀ s ∈ st.starts, s < st.index
  starts_sorted : st.starts.Pairwise (fun a b => a < b)

/-- The invariant of the loop of `tokenize` on the token array: the slots
written are those below `token_count`, none holds an EOF token, and the
capacity is the one reached after `token_count` stores. -/
structure ArrayInv (st : LexState) : Prop where
  count_eq : st.token_count = st.tokens.length
  no_eof : ∀ t ∈ st.tokens, t.type ≠ .TOKEN_EOF
  capacity_eq : st.capacity = capacity_after st.token_count

/-- The token `token` is the one of the lexeme of `k` characters that starts
at index `i` of the buffer, stamped with the line `ln`.  The lexeme stops
where the scan goes on: before a character that is no letter, digit or
underscore, or after one, or between the digits of a number and a character
that is no digit. -/
structure LexemeToken (source : List Char) (i ln : Nat) (token : Token) (k : Nat) : Prop where
  len_pos : 1 ≤ k
  within : i + k ≤ strlen source
  spelling : source_spelling token = (source.drop i).take k
  line : token.line_num = ln
  not_eof : token.type ≠ .TOKEN_EOF
  unknown : token.type = .TOKEN_UNKNOWN → token.value = ['&'] ∨ token.value = ['|']
  chars : ∀ j, j < k → lexeme_char (char_at source (i + j)) = true
  stop : identifier_char (char_at source (i + k)) = false ∨
    identifier_char (char_at source (i + k - 1)) = false ∨
    (isdigit (char_at source (i + k - 1)) = true ∧ isdigit (char_at source (i + k)) = false)

/-- The invariant of the loop of `tokenize` on the tokens written so far:
none has an empty text, an Unknown one is a lone `&` or `|`, and the source
spellings of the tokens, put together, are the lexeme characters consumed so
far. -/
structure TokenInv (source : List Char) (st : LexState) : Prop where
  value_ne : ∀ t ∈ st.tokens, t.value ≠ []
  unknown : ∀ t ∈ st.tokens, t.type = .TOKEN_UNKNOWN → t.value = ['&'] ∨ t.value = ['|']
  spellings : (st.tokens.map source_spelling).flatten = (source.take st.index).filter lexeme_char

/-- The invariant of the loop of `tokenize` on the lines of the tokens
written so far, in a run in which the line counter does not wrap: they are
in non-decreasing order and at most the line counter. -/
structure LineInv (st : LexState) : Prop where
  lines_le : ∀ t ∈ st.tokens, t.line_num ≤ st.line_number
  lines_sorted : st.tokens.Pairwise (fun a b => a.line_num ≤ b.line_num)

/-- The index `i` is one at which the scan of `source` can stand: at the
start, before or after a character that is no letter, digit or underscore,
or between the digits of a number and a character that is no digit. -/
def Boundary (source : List Char) (i : Nat) : Prop :=
  i = 0 ∨ identifier_char (char_at source i) = false ∨
  identifier_char (char_at source (i - 1)) = false ∨
  (isdigit (char_at source (i - 1)) = true ∧ isdigit (char_at source i) = false)

/-- The iterations of the loop of `tokenize` on `source` lead from the first
state to the second. -/
inductive Run (source : List Char) : LexState → LexState → Prop
  | refl (st : LexState) : Run source st st
  | step (st st1 r : LexState) : st.index < strlen source →
      tokenize_step source st = .ok st1 → Run source st1 r → Run source st r

/-- The token with its line number increased by `d`. -/
def shift_line (d : Nat) (t : Token) : Token := { t with line_num := t.line_num + d }

/-- The token with its line number replaced by its image under `f`. -/
def map_line (f : Nat → Nat) (t : Token) : Token := { t with line_num := f t.line_num }

/-- The state `stA` of a run on one buffer corresponds to the state `stB` of
a run on another: its index is `off` further, its line counter is the image
under `f` of the other, and its tokens are the tokens `T0` followed by those
of `stB` with their lines mapped by `f`. -/
structure Sim (off : Nat) (f : Nat → Nat) (T0 : List Token) (stA stB : LexState) : Prop where
  index : stA.index = off + stB.index
  line : stA.line_number = f stB.line_number
  tokens : stA.tokens = T0 ++ stB.tokens.map (map_line f)

/-- The buffer `A` from index `off + j` on looks like the buffer `B` from
index `j` on, as far as one iteration can tell: same character, same run of
lexeme characters. -/
def Agree (A B : List Char) (off j : Nat) : Prop :=
  char_at A (off + j) = char_at B j ∧
  (A.drop (off + j)).takeWhile lexeme_char = (B.drop j).takeWhile lexeme_char

/-- An identifier: a letter or underscore followed by letters, digits and
underscores. -/
def is_identifier (l : List Char) : Bool :=
  match l with
  | [] => false
  | c :: _ => (isalpha c || c == '_') && l.all identifier_char

/-- Fifty distinct identifiers, `v0` to `v49`. -/
def fifty_identifiers : List (List Char) :=
  [
   "v0".toList, "v1".toList, "v2".toList, "v3".toList, "v4".toList, "v5".toList, "v6".toList,
   "v7".toList, "v8".toList, "v9".toList, "v10".toList, "v11".toList, "v12".toList,
   "v13".toList, "v14".toList, "v15".toList, "v16".toList, "v17".toList, "v18".toList,
   "v19".toList, "v20".toList, "v21".toList, "v22".toList, "v23".toList, "v24".toList,
   "v25".toList, "v26".toList, "v27".toList, "v28".toList, "v29".toList, "v30".toList,
   "v31".toList, "v32".toList, "v33".toList, "v34".toList, "v35".toList, "v36".toList,
   "v37".toList, "v38".toList, "v39".toList, "v40".toList, "v41".toList, "v42".toList,
   "v43".toList, "v44".toList, "v45".toList, "v46".toList, "v47".toList, "v48".toList,
   "v49".toList]

/-! ## C strings -/

theorem cstr_nil : cstr [] = [] := rfl

theorem cstr_cons_nul (t : List Char) : cstr (NUL :: t) = [] := by
  simp [cstr]

theorem cstr_cons_of_ne (c : Char) (t : List Char) (h : c ≠ NUL) :
    cstr (c :: t) = c :: cstr t := by
  simp [cstr, List.takeWhile_cons, h]

theorem strlen_le_length (s : List Char) : strlen s ≤ s.length := by
  unfold strlen cstr
  exact (List.takeWhile_sublist _).length_le

theorem char_at_strlen (s : List Char) : char_at s (strlen s) = NUL := by
  induction s with
  | nil => rfl
  | cons c t ih =>
    by_cases h : c = NUL
    · subst h
      simp [strlen, cstr_cons_nul, char_at]
    · simpa [strlen, cstr_cons_of_ne c t h, char_at] using ih

theorem char_at_ne_nul (s : List Char) (i : Nat) (h : i < strlen s) : char_at s i ≠ NUL := by
  induction s generalizing i with
  | nil => simp [strlen, cstr_nil] at h
  | cons c t ih =>
    by_cases hc : c = NUL
    · subst hc
      simp [strlen, cstr_cons_nul] at h
    · cases i with
      | zero => simpa [char_at] using hc
      | succ j =>
        have hj : j < strlen t := by
          simpa [strlen, cstr_cons_of_ne c t hc] using h
        simpa [char_at] using ih j hj

theorem lt_strlen_of_char_at_ne_nul (s : List Char) (i : Nat) (hi : i ≤ strlen s)
    (h : char_at s i ≠ NUL) : i < strlen s := by
  rcases Nat.lt_or_eq_of_le hi with h1 | h1
  · exact h1
  · exact absurd (h1 ▸ char_at_strlen s) h

theorem cstr_eq_take (s : List Char) : cstr s = s.take (strlen s) := by
  induction s with
  | nil => rfl
  | cons c t ih =>
    by_cases hc : c = NUL
    · subst hc
      simp [strlen, cstr_cons_nul]
    · have h1 : strlen (c :: t) = strlen t + 1 := by simp [strlen, cstr_cons_of_ne c t hc]
      rw [h1, List.take_succ_cons, ← ih, cstr_cons_of_ne c t hc]

theorem cstr_eq_self (s : List Char) (h : ∀ c ∈ s, c ≠ NUL) : cstr s = s := by
  unfold cstr
  rw [List.takeWhile_eq_self_iff]
  intro c hc
  simpa using h c hc

theorem drop_eq_char_at_cons (s : List Char) (i : Nat) (h : i < strlen s) :
    s.drop i = char_at s i :: s.drop (i + 1) := by
  have hl : i < s.length := Nat.lt_of_lt_of_le h (strlen_le_length s)
  rw [List.drop_eq_getElem_cons hl]
  simp [char_at, List.getD, List.getElem?_eq_getElem hl]

/-- A run of characters satisfying `p`, which the terminator does not, ends
at the terminator at the latest. -/
theorem run_within (p : Char → Bool) (hp : p NUL = false) (s : List Char) (i : Nat)
    (hi : i ≤ strlen s) : i + ((s.drop i).takeWhile p).length ≤ strlen s := by
  induction s generalizing i with
  | nil => simp [strlen, cstr_nil] at hi ⊢; exact hi
  | cons c t ih =>
    by_cases hc : c = NUL
    · subst hc
      have h0 : i = 0 := by simpa [strlen, cstr_cons_nul] using hi
      subst h0
      simp [List.takeWhile_cons, hp]
    · have h1 : strlen (c :: t) = strlen t + 1 := by simp [strlen, cstr_cons_of_ne c t hc]
      cases i with
      | zero =>
        have := ih 0 (Nat.zero_le _)
        simp only [List.drop_zero, Nat.zero_add] at this ⊢
        rw [List.takeWhile_cons]
        split
        · simp only [List.length_cons]; omega
        · simp
      | succ j =>
        have := ih j (by omega)
        simp only [List.drop_succ_cons]
        omega

theorem copy_run_eq (p : Char → Bool) (cap : Nat) (rest : List Char) (index : Nat)
    (buffer : List Char) :
    copy_run p cap rest index buffer =
      if buffer.length + (rest.takeWhile p).length < cap then
        .ok (buffer ++ rest.takeWhile p, index + (rest.takeWhile p).length)
      else .error .buffer_overflow := by
  induction rest generalizing index buffer with
  | nil => simp [copy_run]
  | cons c t ih =>
    unfold copy_run
    by_cases hc : p c = true
    · simp only [hc, if_true, List.takeWhile_cons, List.length_cons]
      by_cases hb : buffer.length < cap
      · simp only [hb, if_true]
        rw [ih]
        simp only [List.length_append, List.length_singleton, List.append_assoc,
          List.singleton_append]
        have e1 : buffer.length + 1 + (List.takeWhile p t).length
            = buffer.length + ((List.takeWhile p t).length + 1) := by omega
        have e2 : index + 1 + (List.takeWhile p t).length
            = index + ((List.takeWhile p t).length + 1) := by omega
        rw [e1, e2]
      · have : ¬ (buffer.length + ((List.takeWhile p t).length + 1) < cap) := by omega
        simp [hb, this]
    · simp [hc, List.takeWhile_cons]

theorem cstr_eq_map_range (s : List Char) :
    cstr s = (List.range (strlen s)).map (char_at s) := by
  apply List.ext_getElem
  · simp [strlen]
  · intro i h1 h2
    have hi : i < strlen s := h1
    have hl : i < s.length := Nat.lt_of_lt_of_le hi (strlen_le_length s)
    simp [cstr_eq_take, char_at, List.getD, List.getElem?_eq_getElem hl]

theorem cstr_idem (s : List Char) : cstr (cstr s) = cstr s := by
  unfold cstr
  exact List.takeWhile_idem

theorem strdup_toList_keyword :
    strdup "BREAK".toList = "BREAK".toList ∧ strdup "INT".toList = "INT".toList ∧
    strdup "IF".toList = "IF".toList ∧ strdup "RETURN".toList = "RETURN".toList ∧
    strdup "WHILE".toList = "WHILE".toList := by decide

/-- The character of a run where it stops does not satisfy the condition of
its loop. -/
theorem run_stop (p : Char → Bool) (hp : p NUL = false) (s : List Char) (i : Nat) :
    p (char_at s (i + ((s.drop i).takeWhile p).length)) = false := by
  induction s generalizing i with
  | nil => simpa [char_at] using hp
  | cons c t ih =>
    cases i with
    | zero =>
      simp only [List.drop_zero, Nat.zero_add]
      by_cases hc : p c = true
      · rw [List.takeWhile_cons_of_pos hc]
        have := ih 0
        simp only [List.drop_zero, Nat.zero_add] at this
        simpa [char_at] using this
      · rw [List.takeWhile_cons_of_neg hc]
        simpa [char_at] using hc
    | succ j =>
      have := ih j
      simp only [List.drop_succ_cons]
      have e : j + 1 + (List.takeWhile p (List.drop j t)).length
          = (j + (List.takeWhile p (List.drop j t)).length) + 1 := by omega
      rw [e]
      simpa [char_at] using this

/-! ## Integers -/

theorem int_of_size_t_of_le (n : Nat) (h : n ≤ INT_MAX) : int_of_size_t n = (n : Int) := by
  unfold int_of_size_t
  unfold INT_MAX at h ⊢
  have h1 : n % 4294967296 = n := Nat.mod_eq_of_lt (by omega)
  rw [h1, if_pos h]

theorem int_of_size_t_le (n : Nat) : int_of_size_t n ≤ (n : Int) := by
  unfold int_of_size_t
  have h1 : n % 4294967296 ≤ n := Nat.mod_le _ _
  split <;> omega

theorem int_of_size_t_le_max (n : Nat) : int_of_size_t n ≤ (INT_MAX : Int) := by
  unfold int_of_size_t
  unfold INT_MAX
  have h1 : n % 4294967296 < 4294967296 := Nat.mod_lt _ (by omega)
  split <;> omega

theorem int_of_size_t_eq_iff (n k : Nat) (hk : k ≤ INT_MAX) :
    int_of_size_t n = (k : Int) ↔ n % 4294967296 = k := by
  unfold int_of_size_t
  unfold INT_MAX at hk ⊢
  have h1 : n % 4294967296 < 4294967296 := Nat.mod_lt _ (by omega)
  split <;> omega

/-! ## The classifiers -/

theorem cstr_of_chars (l : List Char) (n : Nat) (hlen : strlen l = n) :
    cstr l = (List.range n).map (char_at l) := by
  rw [cstr_eq_map_range, hlen]

theorem chars_of_cstr (l k : List Char) (h : cstr l = k) :
    strlen l = k.length ∧ (List.range k.length).map (char_at l) = k := by
  have hlen : strlen l = k.length := by simp [strlen, h]
  exact ⟨hlen, by rw [← hlen, ← cstr_eq_map_range, h]⟩

theorem int_of_size_t_small :
    int_of_size_t 2 = 2 ∧ int_of_size_t 3 = 3 ∧ int_of_size_t 5 = 5 ∧ int_of_size_t 6 = 6 := by
  decide

theorem classify_break (lexeme : List Char) (ln : Nat) (h : cstr lexeme = "break".toList) :
    classify_keyword_or_identifier lexeme ln = ⟨.TOKEN_KEYWORD, "BREAK".toList, ln⟩ := by
  obtain ⟨hlen, hm⟩ := chars_of_cstr _ _ h
  simp [List.range_succ] at hlen hm
  obtain ⟨h0, h1, h2, h3, h4⟩ := hm
  simp [classify_keyword_or_identifier, hlen, h0, h1, h2, h3, h4, create_token,
    int_of_size_t_small]
  decide

theorem classify_int (lexeme : List Char) (ln : Nat) (h : cstr lexeme = "int".toList) :
    classify_keyword_or_identifier lexeme ln = ⟨.TOKEN_KEYWORD, "INT".toList, ln⟩ := by
  obtain ⟨hlen, hm⟩ := chars_of_cstr _ _ h
  simp [List.range_succ] at hlen hm
  obtain ⟨h0, h1, h2⟩ := hm
  simp [classify_keyword_or_identifier, hlen, h0, h1, h2, create_token, int_of_size_t_small]
  decide

theorem classify_if (lexeme : List Char) (ln : Nat) (h : cstr lexeme = "if".toList) :
    classify_keyword_or_identifier lexeme ln = ⟨.TOKEN_KEYWORD, "IF".toList, ln⟩ := by
  obtain ⟨hlen, hm⟩ := chars_of_cstr _ _ h
  simp [List.range_succ] at hlen hm
  obtain ⟨h0, h1⟩ := hm
  simp [classify_keyword_or_identifier, hlen, h0, h1, create_token, int_of_size_t_small]
  decide

theorem classify_return (lexeme : List Char) (ln : Nat) (h : cstr lexeme = "return".toList) :
    classify_keyword_or_identifier lexeme ln = ⟨.TOKEN_KEYWORD, "RETURN".toList, ln⟩ := by
  obtain ⟨hlen, hm⟩ := chars_of_cstr _ _ h
  simp [List.range_succ] at hlen hm
  obtain ⟨h0, h1, h2, h3, h4, h5⟩ := hm
  simp [classify_keyword_or_identifier, hlen, h0, h1, h2, h3, h4, h5, create_token,
    int_of_size_t_small]
  decide

theorem classify_while (lexeme : List Char) (ln : Nat) (h : cstr lexeme = "while".toList) :
    classify_keyword_or_identifier lexeme ln = ⟨.TOKEN_KEYWORD, "WHILE".toList, ln⟩ := by
  obtain ⟨hlen, hm⟩ := chars_of_cstr _ _ h
  simp [List.range_succ] at hlen hm
  obtain ⟨h0, h1, h2, h3, h4⟩ := hm
  simp [classify_keyword_or_identifier, hlen, h0, h1, h2, h3, h4, create_token,
    int_of_size_t_small]
  decide

/-- A lexeme within the range of `int` that is no keyword is classified as
an identifier, with the lexeme as text. -/
theorem classify_identifier (lexeme : List Char) (ln : Nat) (hlen : strlen lexeme ≤ INT_MAX)
    (h : cstr lexeme ∉ keywords) :
    classify_keyword_or_identifier lexeme ln = ⟨.TOKEN_IDENTIFIER, cstr lexeme, ln⟩ := by
  unfold classify_keyword_or_identifier
  rw [int_of_size_t_of_le _ hlen]
  simp only [create_token, strdup, Nat.cast_eq_ofNat]
  repeat' split
  all_goals try (exact rfl)
  all_goals exfalso
  all_goals apply h
  all_goals first
    | (rw [cstr_of_chars lexeme 5 (by omega)]; simp [List.range_succ, *, keywords])
    | (rw [cstr_of_chars lexeme 6 (by omega)]; simp [List.range_succ, *, keywords])
    | (rename_i hx; rw [cstr_of_chars lexeme 3 (by have := hx.1; omega)]
       simp [List.range_succ, hx.2.1, hx.2.2, *, keywords])
    | (rename_i hx; rw [cstr_of_chars lexeme 2 (by have := hx.1; omega)]
       simp [List.range_succ, hx.2, *, keywords])

/-- Whatever the lexeme, the token of `classify_keyword_or_identifier` is a
Keyword or an Identifier stamped with the given line. -/
theorem classify_keyword_or_identifier_line (lexeme : List Char) (ln : Nat) :
    (classify_keyword_or_identifier lexeme ln).line_num = ln ∧
    ((classify_keyword_or_identifier lexeme ln).type = .TOKEN_KEYWORD ∨
     (classify_keyword_or_identifier lexeme ln).type = .TOKEN_IDENTIFIER) := by
  unfold classify_keyword_or_identifier
  simp only [create_token]
  repeat' split
  all_goals simp

/-! ## Character classes -/

theorem char_eq_of_toNat (c d : Char) (h : c.toNat = d.toNat) : c = d := by
  rw [← Char.ofNat_toNat c, ← Char.ofNat_toNat d, h]

theorem isspace_iff (c : Char) :
    isspace c = true ↔ c.toNat = 32 ∨ (9 ≤ c.toNat ∧ c.toNat ≤ 13) := by
  unfold isspace
  have h : c = ' ' ↔ c.toNat = 32 := by
    constructor
    · intro h; subst h; rfl
    · intro h; exact char_eq_of_toNat _ _ h
  simp [h]

theorem isdigit_iff (c : Char) : isdigit c = true ↔ 48 ≤ c.toNat ∧ c.toNat ≤ 57 := by
  unfold isdigit
  have h0 : '0'.toNat = 48 := rfl
  have h9 : '9'.toNat = 57 := rfl
  simp [h0, h9]

theorem isalpha_iff (c : Char) :
    isalpha c = true ↔ (65 ≤ c.toNat ∧ c.toNat ≤ 90) ∨ (97 ≤ c.toNat ∧ c.toNat ≤ 122) := by
  unfold isalpha
  have h1 : 'A'.toNat = 65 := rfl
  have h2 : 'Z'.toNat = 90 := rfl
  have h3 : 'a'.toNat = 97 := rfl
  have h4 : 'z'.toNat = 122 := rfl
  simp [h1, h2, h3, h4]

theorem underscore_iff (c : Char) : (c == '_') = true ↔ c.toNat = 95 := by
  constructor
  · intro h; have : c = '_' := by simpa using h
    subst this; rfl
  · intro h; have := char_eq_of_toNat c '_' h; simp [this]

theorem operator_chars_iff (c : Char) :
    operator_chars.elem c = true ↔ c.toNat ∈ [43, 45, 42, 47, 61, 60, 62, 33, 38, 124] := by
  constructor
  · intro h
    have : c ∈ operator_chars := by simpa using h
    simp only [operator_chars, String.toList, List.mem_cons, List.mem_singleton, List.not_mem_nil, or_false] at this
    rcases this with h | h | h | h | h | h | h | h | h | h <;> subst h <;> decide
  · intro h
    simp only [List.mem_cons, List.mem_singleton, List.not_mem_nil, or_false] at h
    have : c ∈ operator_chars := by
      rcases h with h | h | h | h | h | h | h | h | h | h
      · rw [char_eq_of_toNat c '+' h]; decide
      · rw [char_eq_of_toNat c '-' h]; decide
      · rw [char_eq_of_toNat c '*' h]; decide
      · rw [char_eq_of_toNat c '/' h]; decide
      · rw [char_eq_of_toNat c '=' h]; decide
      · rw [char_eq_of_toNat c '<' h]; decide
      · rw [char_eq_of_toNat c '>' h]; decide
      · rw [char_eq_of_toNat c '!' h]; decide
      · rw [char_eq_of_toNat c '&' h]; decide
      · rw [char_eq_of_toNat c '|' h]; decide
    simpa using this

theorem delimiter_chars_iff (c : Char) :
    delimiter_chars.elem c = true ↔ c.toNat ∈ [59, 123, 125, 44, 40, 41, 91, 93] := by
  constructor
  · intro h
    have : c ∈ delimiter_chars := by simpa using h
    simp only [delimiter_chars, String.toList, List.mem_cons, List.mem_singleton, List.not_mem_nil, or_false] at this
    rcases this with h | h | h | h | h | h | h | h <;> subst h <;> decide
  · intro h
    simp only [List.mem_cons, List.mem_singleton, List.not_mem_nil, or_false] at h
    have : c ∈ delimiter_chars := by
      rcases h with h | h | h | h | h | h | h | h
      · rw [char_eq_of_toNat c ';' h]; decide
      · rw [char_eq_of_toNat c '\x7b' h]; decide
      · rw [char_eq_of_toNat c '\x7d' h]; decide
      · rw [char_eq_of_toNat c ',' h]; decide
      · rw [char_eq_of_toNat c '(' h]; decide
      · rw [char_eq_of_toNat c ')' h]; decide
      · rw [char_eq_of_toNat c '[' h]; decide
      · rw [char_eq_of_toNat c ']' h]; decide
    simpa using this

theorem lexeme_char_iff (c : Char) : lexeme_char c = true ↔
    (48 ≤ c.toNat ∧ c.toNat ≤ 57) ∨ ((65 ≤ c.toNat ∧ c.toNat ≤ 90) ∨ (97 ≤ c.toNat ∧ c.toNat ≤ 122))
    ∨ c.toNat = 95 ∨ c.toNat ∈ [43, 45, 42, 47, 61, 60, 62, 33, 38, 124]
    ∨ c.toNat ∈ [59, 123, 125, 44, 40, 41, 91, 93] := by
  unfold lexeme_char
  simp only [Bool.or_eq_true, isdigit_iff, isalpha_iff, underscore_iff, operator_chars_iff,
    delimiter_chars_iff]
  tauto

theorem lexeme_char_not_space (c : Char) (h : lexeme_char c = true) : isspace c = false := by
  rw [lexeme_char_iff] at h
  rw [Bool.eq_false_iff]
  intro hs
  rw [isspace_iff] at hs
  simp only [List.mem_cons, List.mem_singleton, List.not_mem_nil, or_false] at h
  omega

theorem not_space_of_newline (c : Char) (h : isspace c = false) : c ≠ '\n' := by
  intro hc
  subst hc
  exact absurd h (by decide)

theorem lexeme_char_ne_nul (c : Char) (h : lexeme_char c = true) : c ≠ NUL := by
  intro hc
  subst hc
  exact absurd h (by decide)

theorem lexeme_char_recognized (c : Char) (h : lexeme_char c = true) : unrecognized c = false := by
  unfold lexeme_char at h
  unfold unrecognized
  simp only [Bool.or_eq_true] at h
  rcases h with (((h | h) | h) | h) | h <;> simp [h]
  · have : c ∈ operator_chars := by simpa using h
    simp [this]
  · have : c ∈ delimiter_chars := by simpa using h
    simp [this]

theorem unrecognized_not_space (c : Char) (h : unrecognized c = true) : isspace c = false := by
  unfold unrecognized at h
  simp only [Bool.and_eq_true, Bool.not_eq_true'] at h
  exact h.1.1.1.1

theorem space_recognized (c : Char) (h : isspace c = true) : unrecognized c = false := by
  simp [unrecognized, h]

theorem isdigit_lexeme_char (c : Char) (h : isdigit c = true) : lexeme_char c = true := by
  simp [lexeme_char, h]

theorem identifier_char_lexeme_char (c : Char) (h : identifier_char c = true) :
    lexeme_char c = true := by
  unfold identifier_char isalnum at h
  simp only [Bool.or_eq_true] at h
  rcases h with (h | h) | h <;> simp [lexeme_char, h]

theorem isdigit_NUL : isdigit NUL = false := by decide

theorem identifier_char_NUL : identifier_char NUL = false := by decide

theorem strchr_operator_chars (c : Char) (h : c ≠ NUL) :
    strchr operator_chars c = operator_chars.elem c := by
  have : cstr operator_chars = operator_chars := by decide
  simp [strchr, this, h]

theorem strchr_delimiter_chars (c : Char) (h : c ≠ NUL) :
    strchr delimiter_chars c = delimiter_chars.elem c := by
  have : cstr delimiter_chars = delimiter_chars := by decide
  simp [strchr, this, h]

/-- The characters of a run all satisfy the condition of its loop. -/
theorem run_chars (p : Char → Bool) (s : List Char) (i j : Nat)
    (hj : j < ((s.drop i).takeWhile p).length) : p (char_at s (i + j)) = true := by
  obtain ⟨t, ht⟩ := List.takeWhile_prefix p (l := s.drop i)
  have hmem : ((s.drop i).takeWhile p)[j] ∈ (s.drop i).takeWhile p := List.getElem_mem _
  have hp := List.mem_takeWhile_imp hmem
  have hlen : j < (s.drop i).length := by
    rw [← ht, List.length_append]; omega
  have h1 : (s.drop i)[j] = ((s.drop i).takeWhile p)[j] := by
    have h5 : j < ((s.drop i).takeWhile p ++ t).length := by rw [ht]; exact hlen
    have := @List.getElem_append_left Char j ((s.drop i).takeWhile p) t hj h5
    simp only [ht] at this
    exact this
  have h2 : i + j < s.length := by
    rw [List.length_drop] at hlen; omega
  have h3 : char_at s (i + j) = (s.drop i)[j] := by
    simp [char_at, List.getD, List.getElem?_eq_getElem h2]
  rw [h3, h1]
  exact hp

theorem cstr_run (p : Char → Bool) (hp : p NUL = false) (l : List Char) :
    cstr (l.takeWhile p) = l.takeWhile p := by
  apply cstr_eq_self
  intro c hc h
  have := List.mem_takeWhile_imp hc
  rw [h, hp] at this
  exact absurd this (by simp)

theorem generate_number_eq (source : List Char) (index ln : Nat) :
    generate_number source index ln =
      if ((source.drop index).takeWhile isdigit).length < 32 then
        .ok (⟨.TOKEN_NUMBER, (source.drop index).takeWhile isdigit, ln⟩,
          index + ((source.drop index).takeWhile isdigit).length)
      else .error .buffer_overflow := by
  unfold generate_number
  rw [copy_run_eq]
  simp only [List.length_nil, Nat.zero_add, List.nil_append]
  by_cases h : ((source.drop index).takeWhile isdigit).length < 32
  · simp [h, create_token, strdup, cstr_run isdigit isdigit_NUL]
  · simp [h]

theorem run_pos (p : Char → Bool) (s : List Char) (i : Nat) (hi : i < strlen s)
    (hp : p (char_at s i) = true) : 1 ≤ ((s.drop i).takeWhile p).length := by
  rw [drop_eq_char_at_cons s i hi, List.takeWhile_cons_of_pos hp]
  simp

theorem classify_operator_facts (source : List Char) (index ln : Nat) :
    (classify_operator source index ln).1.line_num = ln ∧
    (classify_operator source index ln).1.type ≠ .TOKEN_EOF ∧
    ((classify_operator source index ln).2 = index + 1 ∨
      ((classify_operator source index ln).2 = index + 2 ∧
        operator_chars.elem (char_at source (index + 1)) = true)) := by
  unfold classify_operator
  simp only [create_token]
  generalize char_at source index = c
  generalize char_at source (index + 1) = n
  by_cases h1 : n = '=' <;> by_cases h2 : n = '&' <;> by_cases h3 : n = '|' <;>
    by_cases c1 : c = '=' <;> by_cases c2 : c = '<' <;> by_cases c3 : c = '>' <;>
    by_cases c4 : c = '!' <;> by_cases c5 : c = '&' <;> by_cases c6 : c = '|' <;>
    simp_all [operator_chars] <;> (repeat' split) <;> simp

theorem classify_delimiter_facts (c : Char) (ln : Nat) :
    (classify_delimiter c ln).line_num = ln ∧ (classify_delimiter c ln).type ≠ .TOKEN_EOF := by
  unfold classify_delimiter
  simp only [create_token]
  repeat' split
  all_goals simp

/-! ## Lines and diagnostics -/

theorem operator_lexeme_char (c : Char) (h : operator_chars.elem c = true) :
    lexeme_char c = true := by
  unfold lexeme_char
  rw [h]
  simp

theorem delimiter_lexeme_char (c : Char) (h : delimiter_chars.elem c = true) :
    lexeme_char c = true := by
  unfold lexeme_char
  rw [h]
  simp

theorem newlines_before_succ (source : List Char) (i : Nat) :
    newlines_before source (i + 1) =
      newlines_before source i + (if char_at source i = '\n' then 1 else 0) := by
  unfold newlines_before
  by_cases hl : i < source.length
  · rw [List.take_succ, List.count_append, List.getElem?_eq_getElem hl]
    have : char_at source i = source[i] := by
      simp [char_at, List.getD, List.getElem?_eq_getElem hl]
    rw [this]
    by_cases h : source[i] = '\n'
    · simp [h]
    · simp [h, List.count_singleton]
  · have h1 : char_at source i = NUL := by
      simp [char_at, List.getD, List.getElem?_eq_none (Nat.le_of_not_lt hl)]
    rw [List.take_of_length_le (by omega), List.take_of_length_le (by omega), h1,
      if_neg (by decide)]
    rfl

theorem newlines_before_mono (source : List Char) (i k : Nat) :
    newlines_before source i ≤ newlines_before source (i + k) := by
  induction k with
  | zero => exact Nat.le_refl _
  | succ m ih =>
    rw [← Nat.add_assoc, newlines_before_succ]
    omega

theorem newlines_before_strlen (source : List Char) :
    newlines_before source (strlen source) = (cstr source).count '\n' := by
  rw [newlines_before, ← cstr_eq_take]

theorem newlines_before_le (source : List Char) (i : Nat) (hi : i ≤ strlen source) :
    newlines_before source i ≤ (cstr source).count '\n' := by
  rw [← newlines_before_strlen]
  have := newlines_before_mono source i (strlen source - i)
  rwa [Nat.add_sub_cancel' hi] at this

theorem count_le_strlen (source : List Char) : (cstr source).count '\n' ≤ strlen source :=
  List.count_le_length _ _

theorem line_at_succ (source : List Char) (ln i : Nat) :
    line_at source ln (i + 1) =
      if char_at source i = '\n' then (line_at source ln i + 1) % (SIZE_MAX + 1)
      else line_at source ln i := rfl

theorem line_at_add (source : List Char) (ln i k : Nat)
    (h : ∀ j, j < k → char_at source (i + j) ≠ '\n') :
    line_at source ln (i + k) = line_at source ln i := by
  induction k with
  | zero => rfl
  | succ m ih =>
    rw [← Nat.add_assoc, line_at_succ, if_neg (h m (by omega))]
    exact ih (fun j hj => h j (by omega))

/-- As long as the line counter does not wrap, its value at an index is the
value at entry plus the number of newline characters before the index. -/
theorem line_at_eq_add (source : List Char) (ln i : Nat)
    (h : ln + newlines_before source i ≤ SIZE_MAX) :
    line_at source ln i = ln + newlines_before source i := by
  induction i with
  | zero => simp [line_at, newlines_before]
  | succ m ih =>
    have h1 := newlines_before_succ source m
    rw [line_at_succ, h1]
    rw [h1] at h
    rw [ih (by omega)]
    by_cases hc : char_at source m = '\n'
    · rw [if_pos hc, if_pos hc]
      rw [if_pos hc] at h
      exact Nat.mod_eq_of_lt (by omega)
    · rw [if_neg hc, if_neg hc]
      rfl

theorem expected_diagnostics_succ (source : List Char) (ln n : Nat) :
    expected_diagnostics source ln (n + 1) =
      expected_diagnostics source ln n ++
        (if unrecognized (char_at source n) = true
          then [(char_at source n, line_at source ln n)] else []) := by
  unfold expected_diagnostics
  rw [List.range_succ, List.filter_append, List.map_append]
  by_cases h : unrecognized (char_at source n) = true
  · simp [h, List.filter_cons]
  · simp [h, List.filter_cons]

theorem expected_diagnostics_add (source : List Char) (ln i k : Nat)
    (h : ∀ j, j < k → unrecognized (char_at source (i + j)) = false) :
    expected_diagnostics source ln (i + k) = expected_diagnostics source ln i := by
  induction k with
  | zero => rfl
  | succ m ih =>
    rw [← Nat.add_assoc, expected_diagnostics_succ, h m (by omega)]
    simp only [Bool.false_eq_true, if_false, List.append_nil]
    exact ih (fun j hj => h j (by omega))

/-! ## The capacity of the token array -/

theorem capacity_after_ge (n : Nat) : n ≤ capacity_after n ∧ 10 ≤ capacity_after n := by
  induction n with
  | zero => simp [capacity_after]
  | succ m ih =>
    unfold capacity_after
    split <;> omega

theorem capacity_after_shape (n : Nat) :
    ∃ k, capacity_after n = 10 * 2 ^ k ∧ (k = 0 ∨ 10 * 2 ^ (k - 1) < n) := by
  induction n with
  | zero => exact ⟨0, by simp [capacity_after], Or.inl rfl⟩
  | succ m ih =>
    obtain ⟨k, hk, hk2⟩ := ih
    unfold capacity_after
    by_cases hm : m = capacity_after m
    · rw [if_pos hm]
      refine ⟨k + 1, ?_, Or.inr ?_⟩
      · rw [hk, pow_succ]
        omega
      · rw [Nat.add_sub_cancel, ← hk, ← hm]
        omega
    · rw [if_neg hm]
      refine ⟨k, hk, ?_⟩
      rcases hk2 with hk2 | hk2
      · exact Or.inl hk2
      · exact Or.inr (by omega)

/-- The array is full after `n` stores exactly when `n` is 10, 20, 40, ...,
a capacity the doublings reach. -/
theorem capacity_after_eq_iff (n : Nat) : capacity_after n = n ↔ ∃ k, n = 10 * 2 ^ k := by
  obtain ⟨j, hj, hj2⟩ := capacity_after_shape n
  constructor
  · intro h
    exact ⟨j, by rw [← h, hj]⟩
  · rintro ⟨k, hk⟩
    have hge := (capacity_after_ge n).1
    rw [hj, hk] at hge
    have h1 : 2 ^ k ≤ 2 ^ j := by omega
    have h2 : k ≤ j := (Nat.pow_le_pow_iff_right (by omega)).mp h1
    rcases hj2 with hj2 | hj2
    · have : k = 0 := by omega
      subst this
      rw [hj, hk, hj2]
    · rw [hk] at hj2
      have h3 : 2 ^ (j - 1) < 2 ^ k := by omega
      have h4 : j - 1 < k := (Nat.pow_lt_pow_iff_right (by omega)).mp h3
      have : j = k := by omega
      rw [hj, hk, this]

theorem store_token_of_inv (st : LexState) (token : Token) (start index : Nat)
    (h : ArrayInv st) :
    store_token st token start index = .ok (after_store st token start index) := by
  have h1 := capacity_after_ge st.token_count
  rw [← h.capacity_eq] at h1
  unfold store_token
  simp only []
  rw [if_pos]
  split <;> omega

theorem store_token_ok (st st1 : LexState) (token : Token) (start index : Nat)
    (h : store_token st token start index = .ok st1) :
    st1 = after_store st token start index := by
  unfold store_token at h
  simp only [] at h
  by_cases hc : st.token_count <
      (if st.token_count = st.capacity then st.capacity * 2 else st.capacity)
  · rw [if_pos hc] at h
    injection h with h
    exact h.symm
  · rw [if_neg hc] at h
    cases h

theorem store_token_ne_fuel (st : LexState) (token : Token) (start index : Nat) :
    store_token st token start index ≠ .error .out_of_fuel := by
  unfold store_token
  simp only []
  by_cases hc : st.token_count <
      (if st.token_count = st.capacity then st.capacity * 2 else st.capacity)
  · rw [if_pos hc]
    intro h
    cases h
  · rw [if_neg hc]
    intro h
    cases h

theorem arrayInv_initial (ln : Nat) : ArrayInv (initial_state ln) := by
  constructor <;> simp [initial_state, capacity_after]

theorem arrayInv_store (st : LexState) (token : Token) (start index : Nat) (h : ArrayInv st)
    (ht : token.type ≠ .TOKEN_EOF) : ArrayInv (after_store st token start index) := by
  constructor
  · show st.token_count + 1 = (st.tokens ++ [token]).length
    rw [List.length_append, h.count_eq]
    rfl
  · intro t hmem
    have : t ∈ st.tokens ++ [token] := hmem
    rw [List.mem_append, List.mem_singleton] at this
    rcases this with h1 | h1
    · exact h.no_eof t h1
    · rw [h1]; exact ht
  · show (if st.token_count = st.capacity then st.capacity * 2 else st.capacity) =
      capacity_after (st.token_count + 1)
    rw [h.capacity_eq]
    rfl

/-! ## The loop body, class by class -/

theorem isdigit_not_alpha (c : Char) (h : isdigit c = true) :
    (isalpha c || c == '_') = false := by
  rw [isdigit_iff] at h
  rw [Bool.eq_false_iff]
  intro h1
  rw [Bool.or_eq_true, isalpha_iff, underscore_iff] at h1
  omega

theorem operator_not_other (c : Char) (h : operator_chars.elem c = true) :
    isspace c = false ∧ isdigit c = false ∧ (isalpha c || c == '_') = false := by
  refine ⟨lexeme_char_not_space c (operator_lexeme_char c h), ?_, ?_⟩
  all_goals
    rw [operator_chars_iff] at h
    simp only [List.mem_cons, List.mem_singleton, List.not_mem_nil, or_false] at h
    rw [Bool.eq_false_iff]
    intro h1
  · rw [isdigit_iff] at h1
    omega
  · rw [Bool.or_eq_true, isalpha_iff, underscore_iff] at h1
    omega

theorem delimiter_not_other (c : Char) (h : delimiter_chars.elem c = true) :
    isspace c = false ∧ isdigit c = false ∧ (isalpha c || c == '_') = false ∧
    operator_chars.elem c = false := by
  refine ⟨lexeme_char_not_space c (delimiter_lexeme_char c h), ?_, ?_, ?_⟩
  all_goals
    rw [delimiter_chars_iff] at h
    simp only [List.mem_cons, List.mem_singleton, List.not_mem_nil, or_false] at h
    rw [Bool.eq_false_iff]
    intro h1
  · rw [isdigit_iff] at h1
    omega
  · rw [Bool.or_eq_true, isalpha_iff, underscore_iff] at h1
    omega
  · rw [operator_chars_iff] at h1
    simp only [List.mem_cons, List.mem_singleton, List.not_mem_nil, or_false] at h1
    omega

theorem operator_not_identifier_char (c : Char) (h : operator_chars.elem c = true) :
    identifier_char c = false := by
  obtain ⟨_, h2, h3⟩ := operator_not_other c h
  simp only [Bool.or_eq_false_iff] at h3
  simp [identifier_char, isalnum, h2, h3.1, h3.2]

theorem delimiter_not_identifier_char (c : Char) (h : delimiter_chars.elem c = true) :
    identifier_char c = false := by
  obtain ⟨_, h2, h3, _⟩ := delimiter_not_other c h
  simp only [Bool.or_eq_false_iff] at h3
  simp [identifier_char, isalnum, h2, h3.1, h3.2]

theorem identifier_char_of_start (c : Char) (h : (isalpha c || c == '_') = true) :
    identifier_char c = true := by
  simp only [Bool.or_eq_true] at h
  rcases h with h | h <;> simp [identifier_char, isalnum, h]

theorem isdigit_identifier_char (c : Char) (h : isdigit c = true) :
    identifier_char c = true := by
  simp [identifier_char, isalnum, h]

theorem tokenize_step_space (source : List Char) (st : LexState)
    (h : isspace (char_at source st.index) = true) :
    tokenize_step source st = .ok { st with
      line_number :=
        if char_at source st.index = '\n' then (st.line_number + 1) % (SIZE_MAX + 1)
        else st.line_number
      index := st.index + 1 } := by
  unfold tokenize_step
  simp only [h, if_true]

/-- An iteration at a digit: the number lexeme is the whole run of digits if
it is shorter than 32 characters, and overflows the buffer otherwise. -/
theorem tokenize_step_digit (source : List Char) (st : LexState)
    (h : isdigit (char_at source st.index) = true) :
    tokenize_step source st =
      if ((source.drop st.index).takeWhile isdigit).length < 32 then
        if INT_MAX < st.index + ((source.drop st.index).takeWhile isdigit).length then
          .error .int_overflow
        else store_token st
          ⟨.TOKEN_NUMBER, (source.drop st.index).takeWhile isdigit, st.line_number⟩ st.index
          (st.index + ((source.drop st.index).takeWhile isdigit).length)
      else .error .buffer_overflow := by
  unfold tokenize_step
  simp only [lexeme_char_not_space _ (isdigit_lexeme_char _ h), h, Bool.false_eq_true, if_false,
    if_true]
  rw [generate_number_eq]
  by_cases hf : ((source.drop st.index).takeWhile isdigit).length < 32
  · simp only [hf, if_true]
  · simp only [hf, if_false]

/-- An iteration at a letter or underscore: the lexeme handed to
`classify_keyword_or_identifier` is the whole run of letters, digits and
underscores if it is shorter than 64 characters; otherwise the buffer
overflows. -/
theorem tokenize_step_identifier (source : List Char) (st : LexState)
    (h : (isalpha (char_at source st.index) || char_at source st.index == '_') = true) :
    tokenize_step source st =
      if ((source.drop st.index).takeWhile identifier_char).length < 64 then
        if INT_MAX < st.index + ((source.drop st.index).takeWhile identifier_char).length then
          .error .int_overflow
        else store_token st
          (classify_keyword_or_identifier ((source.drop st.index).takeWhile identifier_char)
            st.line_number) st.index
          (st.index + ((source.drop st.index).takeWhile identifier_char).length)
      else .error .buffer_overflow := by
  have hic := identifier_char_of_start _ h
  have hd : isdigit (char_at source st.index) = false := by
    rw [Bool.eq_false_iff]
    intro hd
    rw [isdigit_not_alpha _ hd] at h
    exact absurd h (by simp)
  unfold tokenize_step
  simp only [lexeme_char_not_space _ (identifier_char_lexeme_char _ hic), hd, h,
    Bool.false_eq_true, if_false, if_true]
  rw [copy_run_eq]
  simp only [List.length_nil, Nat.zero_add, List.nil_append]
  by_cases hf : ((source.drop st.index).takeWhile identifier_char).length < 64
  · simp only [hf, if_true]
  · simp only [hf, if_false]

/-- An iteration at an operator character stores the token of
`classify_operator` and takes over its index. -/
theorem tokenize_step_operator (source : List Char) (st : LexState)
    (h : operator_chars.elem (char_at source st.index) = true) :
    tokenize_step source st =
      if INT_MAX < (classify_operator source st.index st.line_number).2 then
        .error .int_overflow
      else store_token st (classify_operator source st.index st.line_number).1 st.index
        (classify_operator source st.index st.line_number).2 := by
  obtain ⟨h1, h2, h3⟩ := operator_not_other _ h
  have h4 : strchr operator_chars (char_at source st.index) = true := by
    rw [strchr_operator_chars _ (lexeme_char_ne_nul _ (operator_lexeme_char _ h))]
    exact h
  unfold tokenize_step
  simp only [h1, h2, h3, h4, Bool.false_eq_true, if_false, if_true]

/-- An iteration at a delimiter character stores the token of
`classify_delimiter` and moves one character on. -/
theorem tokenize_step_delimiter (source : List Char) (st : LexState)
    (h : delimiter_chars.elem (char_at source st.index) = true) :
    tokenize_step source st =
      store_token st (classify_delimiter (char_at source st.index) st.line_number)
        st.index (st.index + 1) := by
  obtain ⟨h1, h2, h3, h4⟩ := delimiter_not_other _ h
  have hn := lexeme_char_ne_nul _ (delimiter_lexeme_char _ h)
  have h5 : strchr operator_chars (char_at source st.index) = false := by
    rw [strchr_operator_chars _ hn]
    exact h4
  have h6 : strchr delimiter_chars (char_at source st.index) = true := by
    rw [strchr_delimiter_chars _ hn]
    exact h
  unfold tokenize_step
  simp only [h1, h2, h3, h5, h6, Bool.false_eq_true, if_false, if_true]

/-- An iteration at an unrecognized character reports it with the line
counter, moves one character on and stores no token. -/
theorem tokenize_step_unrecognized (source : List Char) (st : LexState)
    (hlt : st.index < strlen source) (h : unrecognized (char_at source st.index) = true) :
    tokenize_step source st = .ok { st with
      diagnostics := st.diagnostics ++ [(char_at source st.index, st.line_number)]
      index := st.index + 1 } := by
  have hn := char_at_ne_nul source st.index hlt
  unfold unrecognized at h
  simp only [Bool.and_eq_true, Bool.not_eq_true'] at h
  obtain ⟨⟨⟨⟨h1, h2⟩, h3⟩, h4⟩, h5⟩ := h
  unfold tokenize_step
  simp only [h1, h2, h3, strchr_operator_chars _ hn, strchr_delimiter_chars _ hn, h4, h5,
    Bool.false_eq_true, if_false]

/-! ## The token of a lexeme -/

theorem takeWhile_eq_take (p : Char → Bool) (l : List Char) :
    l.takeWhile p = l.take (l.takeWhile p).length :=
  List.prefix_iff_eq_take.mp (List.takeWhile_prefix p)

theorem classify_delimiter_of_mem (c : Char) (n : Nat) (h : delimiter_chars.elem c = true) :
    classify_delimiter c n = ⟨.TOKEN_DELIMITER, [c], n⟩ := by
  have h1 : c ∈ delimiter_chars := by simpa using h
  simp only [delimiter_chars, String.toList, List.mem_cons, List.mem_singleton,
    List.not_mem_nil, or_false] at h1
  rcases h1 with h | h | h | h | h | h | h | h <;> subst h <;>
    simp [classify_delimiter, create_token, strdup, cstr, NUL, List.takeWhile_cons]

/-- The token of `classify_operator` at an operator character `c` followed
by `n`: its text is `c` alone and the index moves by 1, or its text is `c n`,
the index moves by 2 and `n` is an operator character as well. -/
theorem classify_operator_value (source : List Char) (index ln : Nat)
    (hc : operator_chars.elem (char_at source index) = true) :
    (classify_operator source index ln).1.line_num = ln ∧
    (classify_operator source index ln).1.type ≠ .TOKEN_KEYWORD ∧
    (classify_operator source index ln).1.type ≠ .TOKEN_EOF ∧
    ((classify_operator source index ln).1.type = .TOKEN_UNKNOWN →
      (classify_operator source index ln).1.value = ['&'] ∨
      (classify_operator source index ln).1.value = ['|']) ∧
    (((classify_operator source index ln).2 = index + 1 ∧
        (classify_operator source index ln).1.value = [char_at source index]) ∨
      ((classify_operator source index ln).2 = index + 2 ∧
        (classify_operator source index ln).1.value
          = [char_at source index, char_at source (index + 1)] ∧
        operator_chars.elem (char_at source (index + 1)) = true)) := by
  have hc1 : char_at source index ∈ operator_chars := by simpa using hc
  simp only [operator_chars, String.toList, List.mem_cons, List.mem_singleton,
    List.not_mem_nil, or_false] at hc1
  clear hc
  unfold classify_operator
  simp only [create_token]
  generalize char_at source index = c at hc1 ⊢
  generalize char_at source (index + 1) = n
  rcases hc1 with rfl | rfl | rfl | rfl | rfl | rfl | rfl | rfl | rfl | rfl <;>
    by_cases h1 : n = '=' <;> by_cases h2 : n = '&' <;> by_cases h3 : n = '|' <;>
    simp_all [create_token, strdup, cstr, NUL, List.takeWhile_cons, operator_chars]

theorem lexeme_char_cases (c : Char) (h : lexeme_char c = true) :
    isdigit c = true ∨ (isalpha c || c == '_') = true ∨ operator_chars.elem c = true ∨
    delimiter_chars.elem c = true := by
  unfold lexeme_char at h
  simp only [Bool.or_eq_true] at h ⊢
  tauto

theorem spelling_of_classify (run : List Char) (ln : Nat) (h : cstr run = run)
    (hlen : run.length ≤ INT_MAX) :
    source_spelling (classify_keyword_or_identifier run ln) = run := by
  have hl : strlen run ≤ INT_MAX := by
    rw [strlen, h]
    exact hlen
  by_cases hk : cstr run ∈ keywords
  · simp only [keywords, List.mem_cons, List.mem_singleton, List.not_mem_nil, or_false] at hk
    rcases hk with hk | hk | hk | hk | hk
    · rw [classify_break _ _ hk, ← h, hk]; simp only [source_spelling, if_true]; decide
    · rw [classify_int _ _ hk, ← h, hk]; simp only [source_spelling, if_true]; decide
    · rw [classify_if _ _ hk, ← h, hk]; simp only [source_spelling, if_true]; decide
    · rw [classify_return _ _ hk, ← h, hk]; simp only [source_spelling, if_true]; decide
    · rw [classify_while _ _ hk, ← h, hk]; simp only [source_spelling, if_true]; decide
  · rw [classify_identifier _ _ hl hk, h]
    simp [source_spelling]

theorem take_one_drop (source : List Char) (i : Nat) (h : i < strlen source) :
    (source.drop i).take 1 = [char_at source i] := by
  rw [drop_eq_char_at_cons source i h]
  rfl

theorem take_two_drop (source : List Char) (i : Nat) (h : i + 1 < strlen source) :
    (source.drop i).take 2 = [char_at source i, char_at source (i + 1)] := by
  rw [drop_eq_char_at_cons source i (by omega), drop_eq_char_at_cons source (i + 1) h]
  rfl

theorem lexeme_char_eq (c : Char) : lexeme_char c = (!isspace c && !unrecognized c) := by
  cases hs : isspace c
  · unfold unrecognized lexeme_char
    rw [hs]
    cases isdigit c <;> cases isalpha c <;> cases (c == '_') <;>
      cases operator_chars.elem c <;> cases delimiter_chars.elem c <;> rfl
  · cases hl : lexeme_char c
    · rfl
    · rw [lexeme_char_not_space c hl] at hs
      cases hs

theorem space_not_lexeme_char (c : Char) (h : isspace c = true) : lexeme_char c = false := by
  rw [lexeme_char_eq, h]
  rfl

theorem unrecognized_not_lexeme_char (c : Char) (h : unrecognized c = true) :
    lexeme_char c = false := by
  rw [lexeme_char_eq, h]
  simp

theorem take_succ_char_at (source : List Char) (i : Nat) (h : i < strlen source) :
    source.take (i + 1) = source.take i ++ [char_at source i] := by
  have hl : i < source.length := Nat.lt_of_lt_of_le h (strlen_le_length source)
  rw [List.take_succ, List.getElem?_eq_getElem hl]
  simp [char_at, List.getD, List.getElem?_eq_getElem hl]

theorem mem_take_drop (source : List Char) (i k : Nat) (x : Char)
    (hx : x ∈ (source.drop i).take k) : ∃ j, j < k ∧ x = char_at source (i + j) := by
  obtain ⟨j, hj, rfl⟩ := List.getElem_of_mem hx
  have h1 : j < k := by
    rw [List.length_take] at hj; omega
  have h2 : i + j < source.length := by
    rw [List.length_take, List.length_drop] at hj; omega
  refine ⟨j, h1, ?_⟩
  simp [char_at, List.getD, List.getElem?_eq_getElem h2]

theorem filter_lexeme_chunk (source : List Char) (i k : Nat)
    (h : ∀ j, j < k → lexeme_char (char_at source (i + j)) = true) :
    (source.take (i + k)).filter lexeme_char =
      (source.take i).filter lexeme_char ++ (source.drop i).take k := by
  rw [List.take_add, List.filter_append]
  congr 1
  rw [List.filter_eq_self]
  intro x hx
  obtain ⟨j, hj, rfl⟩ := mem_take_drop source i k x hx
  exact h j hj

theorem char_classes (c : Char) :
    isspace c = true ∨ unrecognized c = true ∨ lexeme_char c = true := by
  have := lexeme_char_eq c
  cases hs : isspace c
  · cases hu : unrecognized c
    · right; right
      rw [this, hs, hu]
      rfl
    · right; left; rfl
  · left; rfl

/-! ## One iteration of the loop -/

/-- An iteration at a lexeme character either overflows a lexeme buffer, on
a digit run of 32 or more characters or an identifier run of 64 or more, or
has the token of the lexeme that starts at the index: it then takes the
index past `INT_MAX`, or stores the token and moves the index past the
lexeme. -/
theorem tokenize_step_lexeme (source : List Char) (st : LexState)
    (hlt : st.index < strlen source)
    (hl : lexeme_char (char_at source st.index) = true) :
    (tokenize_step source st = .error .buffer_overflow ∧
      ((isdigit (char_at source st.index) = true ∧
          32 ≤ ((source.drop st.index).takeWhile isdigit).length) ∨
        ((isalpha (char_at source st.index) || char_at source st.index == '_') = true ∧
          64 ≤ ((source.drop st.index).takeWhile identifier_char).length))) ∨
    ∃ token k, LexemeToken source st.index st.line_number token k ∧
      ((INT_MAX < st.index + k ∧ tokenize_step source st = .error .int_overflow) ∨
        tokenize_step source st = store_token st token st.index (st.index + k)) := by
  rcases lexeme_char_cases _ hl with hd | ha | ho | hdl
  · rw [tokenize_step_digit source st hd]
    by_cases hfit : ((source.drop st.index).takeWhile isdigit).length < 32
    · right
      have hpos := run_pos isdigit source st.index hlt hd
      refine ⟨⟨.TOKEN_NUMBER, (source.drop st.index).takeWhile isdigit, st.line_number⟩,
        ((source.drop st.index).takeWhile isdigit).length, ?_, ?_⟩
      · constructor
        · exact hpos
        · exact run_within isdigit isdigit_NUL source st.index (Nat.le_of_lt hlt)
        · simp only [source_spelling]
          rw [if_neg (by simp)]
          exact takeWhile_eq_take _ _
        · rfl
        · simp
        · simp
        · intro j hj
          exact isdigit_lexeme_char _ (run_chars isdigit source st.index j hj)
        · right; right
          refine ⟨?_, run_stop isdigit isdigit_NUL source st.index⟩
          have := run_chars isdigit source st.index
            (((source.drop st.index).takeWhile isdigit).length - 1) (by omega)
          rw [Nat.add_sub_assoc hpos]
          exact this
      · rw [if_pos hfit]
        by_cases hint : INT_MAX < st.index + ((source.drop st.index).takeWhile isdigit).length
        · exact Or.inl ⟨hint, by rw [if_pos hint]⟩
        · exact Or.inr (by rw [if_neg hint])
    · left
      exact ⟨by rw [if_neg hfit], Or.inl ⟨hd, by omega⟩⟩
  · rw [tokenize_step_identifier source st ha]
    have hic := identifier_char_of_start _ ha
    by_cases hfit : ((source.drop st.index).takeWhile identifier_char).length < 64
    · right
      refine ⟨classify_keyword_or_identifier
          ((source.drop st.index).takeWhile identifier_char) st.line_number,
        ((source.drop st.index).takeWhile identifier_char).length, ?_, ?_⟩
      · have hty := (classify_keyword_or_identifier_line
          ((source.drop st.index).takeWhile identifier_char) st.line_number).2
        constructor
        · exact run_pos identifier_char source st.index hlt hic
        · exact run_within identifier_char identifier_char_NUL source st.index
            (Nat.le_of_lt hlt)
        · rw [spelling_of_classify _ _ (cstr_run identifier_char identifier_char_NUL _)
            (by unfold INT_MAX; omega)]
          exact takeWhile_eq_take _ _
        · exact (classify_keyword_or_identifier_line _ _).1
        · rcases hty with h | h <;> simp [h]
        · intro hu
          rcases hty with h | h <;> rw [h] at hu <;> cases hu
        · intro j hj
          exact identifier_char_lexeme_char _ (run_chars identifier_char source st.index j hj)
        · left
          exact run_stop identifier_char identifier_char_NUL source st.index
      · rw [if_pos hfit]
        by_cases hint :
            INT_MAX < st.index + ((source.drop st.index).takeWhile identifier_char).length
        · exact Or.inl ⟨hint, by rw [if_pos hint]⟩
        · exact Or.inr (by rw [if_neg hint])
    · left
      exact ⟨by rw [if_neg hfit], Or.inr ⟨ha, by omega⟩⟩
  · right
    rw [tokenize_step_operator source st ho]
    obtain ⟨h1, h2, h3, h4, h5⟩ := classify_operator_value source st.index st.line_number ho
    rcases h5 with ⟨h5, h6⟩ | ⟨h5, h6, h7⟩
    · refine ⟨(classify_operator source st.index st.line_number).1, 1, ?_, ?_⟩
      · constructor
        · exact Nat.le_refl _
        · exact hlt
        · rw [source_spelling, if_neg h2, h6, take_one_drop source _ hlt]
        · exact h1
        · exact h3
        · exact h4
        · intro j hj
          have : j = 0 := by omega
          subst this
          exact operator_lexeme_char _ ho
        · right; left
          exact operator_not_identifier_char _ ho
      · rw [h5]
        by_cases hint : INT_MAX < st.index + 1
        · exact Or.inl ⟨hint, by rw [if_pos hint]⟩
        · exact Or.inr (by rw [if_neg hint])
    · have h8 : st.index + 1 < strlen source :=
        lt_strlen_of_char_at_ne_nul source _ hlt
          (lexeme_char_ne_nul _ (operator_lexeme_char _ h7))
      refine ⟨(classify_operator source st.index st.line_number).1, 2, ?_, ?_⟩
      · constructor
        · omega
        · exact h8
        · rw [source_spelling, if_neg h2, h6, take_two_drop source _ h8]
        · exact h1
        · exact h3
        · exact h4
        · intro j hj
          have : j = 0 ∨ j = 1 := by omega
          rcases this with rfl | rfl
          · exact operator_lexeme_char _ ho
          · exact operator_lexeme_char _ h7
        · right; left
          exact operator_not_identifier_char _ h7
      · rw [h5]
        by_cases hint : INT_MAX < st.index + 2
        · exact Or.inl ⟨hint, by rw [if_pos hint]⟩
        · exact Or.inr (by rw [if_neg hint])
  · right
    rw [tokenize_step_delimiter source st hdl]
    refine ⟨classify_delimiter (char_at source st.index) st.line_number, 1, ?_, Or.inr rfl⟩
    rw [classify_delimiter_of_mem _ _ hdl]
    constructor
    · exact Nat.le_refl _
    · exact hlt
    · simp only [source_spelling]
      rw [if_neg (by simp), take_one_drop source _ hlt]
    · rfl
    · simp
    · simp
    · intro j hj
      have : j = 0 := by omega
      subst this
      exact delimiter_lexeme_char _ hdl
    · right; left
      exact delimiter_not_identifier_char _ hdl

/-- The text of the token of a lexeme is not empty. -/
theorem LexemeToken.value_ne_nil {source : List Char} {i ln k : Nat} {token : Token}
    (h : LexemeToken source i ln token k) : token.value ≠ [] := by
  intro hv
  have h1 := congrArg List.length h.spelling
  have h2 : i + k ≤ source.length := Nat.le_trans h.within (strlen_le_length source)
  have h3 : (source_spelling token).length = 0 := by
    unfold source_spelling
    split <;> simp [hv]
  rw [h3, List.length_take, List.length_drop] at h1
  have := h.len_pos
  omega

/-- What an iteration of the loop of `tokenize` that completes has done, by
the class of the character at the index: whitespace is skipped, an
unrecognized character is reported and skipped, and at a lexeme character
the token of the lexeme is stored and the index moved past the lexeme. -/
theorem tokenize_step_ok (source : List Char) (st st1 : LexState)
    (hlt : st.index < strlen source) (h : tokenize_step source st = .ok st1) :
    (isspace (char_at source st.index) = true ∧
      st1 = { st with
        line_number :=
          if char_at source st.index = '\n' then (st.line_number + 1) % (SIZE_MAX + 1)
          else st.line_number
        index := st.index + 1 }) ∨
    (unrecognized (char_at source st.index) = true ∧
      st1 = { st with
        diagnostics := st.diagnostics ++ [(char_at source st.index, st.line_number)]
        index := st.index + 1 }) ∨
    (lexeme_char (char_at source st.index) = true ∧
      ∃ token k, LexemeToken source st.index st.line_number token k ∧
        st1 = after_store st token st.index (st.index + k)) := by
  rcases char_classes (char_at source st.index) with hs | hu | hl
  · left
    rw [tokenize_step_space source st hs] at h
    injection h with h
    exact ⟨hs, h.symm⟩
  · right; left
    rw [tokenize_step_unrecognized source st hlt hu] at h
    injection h with h
    exact ⟨hu, h.symm⟩
  · right; right
    refine ⟨hl, ?_⟩
    rcases tokenize_step_lexeme source st hlt hl with ⟨he, _⟩ | ⟨token, k, htok, he⟩
    · rw [he] at h
      cases h
    · rcases he with ⟨_, he⟩ | he
      · rw [he] at h
        cases h
      · rw [he] at h
        exact ⟨token, k, htok, store_token_ok _ _ _ _ _ h⟩

/-- An iteration that completes moves the index forward, at most to the
terminator. -/
theorem tokenize_step_index_lt (source : List Char) (st st1 : LexState)
    (hlt : st.index < strlen source) (hs : tokenize_step source st = .ok st1) :
    st.index < st1.index ∧ st1.index ≤ strlen source := by
  rcases tokenize_step_ok source st st1 hlt hs with ⟨_, h⟩ | ⟨_, h⟩ | ⟨_, token, k, htok, h⟩
  · subst h
    exact ⟨Nat.lt_succ_self _, hlt⟩
  · subst h
    exact ⟨Nat.lt_succ_self _, hlt⟩
  · subst h
    have := htok.len_pos
    exact ⟨by show st.index < st.index + k; omega, htok.within⟩

theorem tokenize_step_ne_fuel (source : List Char) (st : LexState)
    (hlt : st.index < strlen source) : tokenize_step source st ≠ .error .out_of_fuel := by
  rcases char_classes (char_at source st.index) with hs | hu | hl
  · rw [tokenize_step_space source st hs]
    intro h
    cases h
  · rw [tokenize_step_unrecognized source st hlt hu]
    intro h
    cases h
  · rcases tokenize_step_lexeme source st hlt hl with ⟨he, _⟩ | ⟨token, k, _, he⟩
    · rw [he]
      intro h
      cases h
    · rcases he with ⟨_, he⟩ | he
      · rw [he]
        intro h
        cases h
      · rw [he]
        exact store_token_ne_fuel _ _ _ _

/-- An iteration is defined when the token array is as the loop keeps it,
the buffer is within the range of `int`, and the digit run or identifier run
at the index, if one starts there, fits its buffer. -/
theorem tokenize_step_defined (source : List Char) (st : LexState)
    (hlt : st.index < strlen source) (harr : ArrayInv st) (hint : strlen source ≤ INT_MAX)
    (hd : isdigit (char_at source st.index) = true →
      ((source.drop st.index).takeWhile isdigit).length < 32)
    (hi : (isalpha (char_at source st.index) || char_at source st.index == '_') = true →
      ((source.drop st.index).takeWhile identifier_char).length < 64) :
    ∃ st1, tokenize_step source st = .ok st1 := by
  rcases char_classes (char_at source st.index) with hs | hu | hl
  · exact ⟨_, tokenize_step_space source st hs⟩
  · exact ⟨_, tokenize_step_unrecognized source st hlt hu⟩
  · rcases tokenize_step_lexeme source st hlt hl with ⟨_, he⟩ | ⟨token, k, htok, he⟩
    · rcases he with ⟨h1, h2⟩ | ⟨h1, h2⟩
      · have := hd h1
        omega
      · have := hi h1
        omega
    · rcases he with ⟨he, _⟩ | he
      · have := htok.within
        omega
      · exact ⟨_, by rw [he, store_token_of_inv _ _ _ _ harr]⟩

/-! ## The invariants of the loop -/

theorem scanInv_initial (source : List Char) (ln : Nat) :
    ScanInv source ln (initial_state ln) := by
  constructor <;> simp [initial_state, line_at, expected_diagnostics]

theorem scanInv_step (source : List Char) (ln : Nat) (st st1 : LexState)
    (hinv : ScanInv source ln st) (hlt : st.index < strlen source)
    (hstep : tokenize_step source st = .ok st1) : ScanInv source ln st1 := by
  rcases tokenize_step_ok source st st1 hlt hstep with
    ⟨hs, h⟩ | ⟨hu, h⟩ | ⟨hl, token, k, htok, h⟩
  · subst h
    constructor
    · exact hlt
    · show _ = line_at source ln (st.index + 1)
      rw [line_at_succ, ← hinv.line_eq]
    · exact hinv.token_line
    · show st.diagnostics = expected_diagnostics source ln (st.index + 1)
      rw [expected_diagnostics_succ, space_recognized _ hs, hinv.diag_eq]
      simp
    · exact fun s hs1 => Nat.lt_succ_of_lt (hinv.starts_lt s hs1)
    · exact hinv.starts_sorted
  · subst h
    constructor
    · exact hlt
    · show st.line_number = line_at source ln (st.index + 1)
      rw [line_at_succ, if_neg (not_space_of_newline _ (unrecognized_not_space _ hu)),
        hinv.line_eq]
    · exact hinv.token_line
    · show st.diagnostics ++ _ = expected_diagnostics source ln (st.index + 1)
      rw [expected_diagnostics_succ, hu, hinv.diag_eq, hinv.line_eq]
      simp
    · exact fun s hs1 => Nat.lt_succ_of_lt (hinv.starts_lt s hs1)
    · exact hinv.starts_sorted
  · subst h
    have hk1 := htok.len_pos
    constructor
    · exact htok.within
    · show st.line_number = line_at source ln (st.index + k)
      rw [line_at_add source ln st.index k
        (fun j hj => not_space_of_newline _ (lexeme_char_not_space _ (htok.chars j hj)))]
      exact hinv.line_eq
    · show List.Forall₂ _ (st.tokens ++ [token]) (st.starts ++ [st.index])
      apply List.rel_append hinv.token_line
      refine List.Forall₂.cons ⟨?_, hlt, hl, ?_⟩ List.Forall₂.nil
      · rw [htok.line, hinv.line_eq]
      · rw [htok.spelling]
        exact List.take_prefix _ _
    · show st.diagnostics = expected_diagnostics source ln (st.index + k)
      rw [expected_diagnostics_add source ln st.index k
        (fun j hj => lexeme_char_recognized _ (htok.chars j hj))]
      exact hinv.diag_eq
    · intro s hs1
      have hs2 : s ∈ st.starts ++ [st.index] := hs1
      rw [List.mem_append, List.mem_singleton] at hs2
      show s < st.index + k
      rcases hs2 with h1 | h1
      · have := hinv.starts_lt s h1
        omega
      · omega
    · show (st.starts ++ [st.index]).Pairwise (fun a b => a < b)
      rw [List.pairwise_append]
      refine ⟨hinv.starts_sorted, List.pairwise_singleton _ _, ?_⟩
      intro a ha b hb
      rw [List.mem_singleton] at hb
      rw [hb]
      exact hinv.starts_lt a ha

theorem arrayInv_step (source : List Char) (st st1 : LexState) (hinv : ArrayInv st)
    (hlt : st.index < strlen source) (hstep : tokenize_step source st = .ok st1) :
    ArrayInv st1 := by
  rcases tokenize_step_ok source st st1 hlt hstep with
    ⟨_, h⟩ | ⟨_, h⟩ | ⟨_, token, k, htok, h⟩
  · subst h
    exact ⟨hinv.count_eq, hinv.no_eof, hinv.capacity_eq⟩
  · subst h
    exact ⟨hinv.count_eq, hinv.no_eof, hinv.capacity_eq⟩
  · subst h
    exact arrayInv_store st token _ _ hinv htok.not_eof

theorem tokenInv_initial (source : List Char) (ln : Nat) :
    TokenInv source (initial_state ln) := by
  constructor <;> simp [initial_state]

theorem tokenInv_step (source : List Char) (st st1 : LexState)
    (hinv : TokenInv source st) (hlt : st.index < strlen source)
    (hstep : tokenize_step source st = .ok st1) : TokenInv source st1 := by
  rcases tokenize_step_ok source st st1 hlt hstep with
    ⟨hs, h⟩ | ⟨hu, h⟩ | ⟨hl, token, k, htok, h⟩
  · subst h
    refine ⟨hinv.value_ne, hinv.unknown, ?_⟩
    show _ = (source.take (st.index + 1)).filter lexeme_char
    rw [take_succ_char_at source _ hlt, List.filter_append, hinv.spellings]
    simp [List.filter_cons, space_not_lexeme_char _ hs]
  · subst h
    refine ⟨hinv.value_ne, hinv.unknown, ?_⟩
    show _ = (source.take (st.index + 1)).filter lexeme_char
    rw [take_succ_char_at source _ hlt, List.filter_append, hinv.spellings]
    simp [List.filter_cons, unrecognized_not_lexeme_char _ hu]
  · subst h
    have hmem : ∀ t, t ∈ st.tokens ++ [token] → t ∈ st.tokens ∨ t = token := by
      intro t ht
      rw [List.mem_append, List.mem_singleton] at ht
      exact ht
    constructor
    · intro t ht
      rcases hmem t ht with h1 | h1
      · exact hinv.value_ne t h1
      · rw [h1]; exact htok.value_ne_nil
    · intro t ht
      rcases hmem t ht with h1 | h1
      · exact hinv.unknown t h1
      · rw [h1]; exact htok.unknown
    · show ((st.tokens ++ [token]).map source_spelling).flatten =
        (source.take (st.index + k)).filter lexeme_char
      rw [filter_lexeme_chunk source _ _ htok.chars, List.map_append, List.flatten_append,
        hinv.spellings]
      simp [htok.spelling]

theorem lineInv_initial (ln : Nat) : LineInv (initial_state ln) := by
  constructor <;> simp [initial_state]

/-- In a run in which the line counter does not wrap, an iteration keeps the
lines of the tokens in order and at most the line counter. -/
theorem lineInv_step (source : List Char) (ln : Nat) (st st1 : LexState)
    (hwrap : ln + (cstr source).count '\n' ≤ SIZE_MAX)
    (hscan : ScanInv source ln st) (hinv : LineInv st) (hlt : st.index < strlen source)
    (hstep : tokenize_step source st = .ok st1) : LineInv st1 := by
  rcases tokenize_step_ok source st st1 hlt hstep with
    ⟨hs, h⟩ | ⟨hu, h⟩ | ⟨hl, token, k, htok, h⟩
  · subst h
    refine ⟨?_, hinv.lines_sorted⟩
    intro t ht
    have h1 := hinv.lines_le t ht
    show t.line_num ≤ (if char_at source st.index = '\n'
      then (st.line_number + 1) % (SIZE_MAX + 1) else st.line_number)
    by_cases hc : char_at source st.index = '\n'
    · rw [if_pos hc]
      have h2 := newlines_before_le source (st.index + 1) hlt
      have h3 := newlines_before_succ source st.index
      rw [if_pos hc] at h3
      have h4 := line_at_eq_add source ln st.index (by omega)
      rw [← hscan.line_eq] at h4
      rw [Nat.mod_eq_of_lt (by omega)]
      omega
    · rw [if_neg hc]
      exact h1
  · subst h
    exact ⟨hinv.lines_le, hinv.lines_sorted⟩
  · subst h
    have hmem : ∀ t, t ∈ st.tokens ++ [token] → t ∈ st.tokens ∨ t = token := by
      intro t ht
      rw [List.mem_append, List.mem_singleton] at ht
      exact ht
    constructor
    · intro t ht
      show t.line_num ≤ st.line_number
      rcases hmem t ht with h1 | h1
      · exact hinv.lines_le t h1
      · rw [h1, htok.line]
    · show (st.tokens ++ [token]).Pairwise (fun a b => a.line_num ≤ b.line_num)
      rw [List.pairwise_append]
      refine ⟨hinv.lines_sorted, List.pairwise_singleton _ _, ?_⟩
      intro a ha b hb
      rw [List.mem_singleton] at hb
      rw [hb, htok.line]
      exact hinv.lines_le a ha

theorem boundary_step (source : List Char) (st st1 : LexState)
    (hlt : st.index < strlen source) (hstep : tokenize_step source st = .ok st1) :
    Boundary source st1.index := by
  rcases tokenize_step_ok source st st1 hlt hstep with
    ⟨hs, h⟩ | ⟨hu, h⟩ | ⟨hl, token, k, htok, h⟩
  · subst h
    right; right; left
    show identifier_char (char_at source (st.index + 1 - 1)) = false
    rw [Nat.add_sub_cancel]
    cases hi : identifier_char (char_at source st.index)
    · rfl
    · rw [lexeme_char_not_space _ (identifier_char_lexeme_char _ hi)] at hs
      cases hs
  · subst h
    right; right; left
    show identifier_char (char_at source (st.index + 1 - 1)) = false
    rw [Nat.add_sub_cancel]
    cases hi : identifier_char (char_at source st.index)
    · rfl
    · rw [lexeme_char_recognized _ (identifier_char_lexeme_char _ hi)] at hu
      cases hu
  · subst h
    exact Or.inr htok.stop

/-- At an index where the scan can stand, a digit starts a digit run and a
letter or underscore an identifier run, so that on an input whose runs fit
the run at the index fits its buffer. -/
theorem runs_fit_at (source : List Char) (i : Nat) (hfit : runs_fit source)
    (hlt : i < strlen source) (hb : Boundary source i) :
    (isdigit (char_at source i) = true → ((source.drop i).takeWhile isdigit).length < 32) ∧
    ((isalpha (char_at source i) || char_at source i == '_') = true →
      ((source.drop i).takeWhile identifier_char).length < 64) := by
  obtain ⟨h1, h2⟩ := hfit i hlt
  constructor
  · intro hd
    apply h1 hd
    rcases hb with hb | hb | hb | hb
    · exact Or.inl hb
    · rw [isdigit_identifier_char _ hd] at hb
      cases hb
    · exact Or.inr hb
    · rw [hd] at hb
      cases hb.2
  · intro ha
    apply h2 ha
    rcases hb with hb | hb | hb | hb
    · exact Or.inl hb
    · rw [identifier_char_of_start _ ha] at hb
      cases hb
    · right
      cases hx : (isalpha (char_at source (i - 1)) || char_at source (i - 1) == '_')
      · rfl
      · rw [identifier_char_of_start _ hx] at hb
        cases hb
    · right
      exact isdigit_not_alpha _ hb.1

/-! ## The loop of tokenize -/

/-- What every iteration keeps holds when the loop is left, and the loop is
left with the index at or past `length`. -/
theorem tokenize_loop_invariant (source : List Char) (length : Int)
    (hlen : length ≤ (strlen source : Int)) (Inv : LexState → Prop)
    (hstep : ∀ st st1, Inv st → st.index < strlen source →
      tokenize_step source st = .ok st1 → Inv st1) :
    ∀ (fuel : Nat) (st r : LexState), Inv st →
      tokenize_loop source length fuel st = .ok r →
      Inv r ∧ length ≤ (r.index : Int) := by
  intro fuel
  induction fuel with
  | zero =>
    intro st r hinv h
    unfold tokenize_loop at h
    by_cases hlt : (st.index : Int) < length
    · simp [hlt] at h
    · simp only [hlt, if_false] at h
      injection h with h
      subst h
      exact ⟨hinv, by omega⟩
  | succ n ih =>
    intro st r hinv h
    unfold tokenize_loop at h
    by_cases hlt : (st.index : Int) < length
    · simp only [hlt, if_true] at h
      cases hs : tokenize_step source st with
      | error e => simp [hs] at h
      | ok st1 =>
        simp only [hs] at h
        exact ih st1 r (hstep st st1 hinv (by omega) hs) h
    · simp only [hlt, if_false] at h
      injection h with h
      subst h
      exact ⟨hinv, by omega⟩

/-- The loop of `tokenize` ends within `length - index` iterations: it never
runs out of the iterations it is given. -/
theorem tokenize_loop_ne_fuel (source : List Char) (length : Int)
    (hlen : length ≤ (strlen source : Int)) :
    ∀ (fuel : Nat) (st : LexState), (length - (st.index : Int)).toNat ≤ fuel →
      tokenize_loop source length fuel st ≠ .error .out_of_fuel := by
  intro fuel
  induction fuel with
  | zero =>
    intro st hf
    have : ¬ (st.index : Int) < length := by omega
    simp [tokenize_loop, this]
  | succ n ih =>
    intro st hf
    unfold tokenize_loop
    by_cases hlt : (st.index : Int) < length
    · simp only [hlt, if_true]
      have hlt2 : st.index < strlen source := by omega
      cases hs : tokenize_step source st with
      | error e =>
        simp only []
        intro h
        injection h with h
        rw [h] at hs
        exact tokenize_step_ne_fuel source st hlt2 hs
      | ok st1 =>
        simp only []
        have := (tokenize_step_index_lt source st st1 hlt2 hs).1
        exact ih st1 (by omega)
    · simp [hlt]

/-- The loop of `tokenize` returns when every iteration from a state that
satisfies an invariant of the loop is defined. -/
theorem tokenize_loop_total (source : List Char) (length : Int)
    (hlen : length ≤ (strlen source : Int)) (Inv : LexState → Prop)
    (hstep : ∀ st st1, Inv st → st.index < strlen source →
      tokenize_step source st = .ok st1 → Inv st1)
    (hdef : ∀ st, Inv st → st.index < strlen source → ∃ st1, tokenize_step source st = .ok st1) :
    ∀ (fuel : Nat) (st : LexState), Inv st → (length - (st.index : Int)).toNat ≤ fuel →
      ∃ r, tokenize_loop source length fuel st = .ok r := by
  intro fuel
  induction fuel with
  | zero =>
    intro st _ hf
    have : ¬ (st.index : Int) < length := by omega
    exact ⟨st, by simp [tokenize_loop, this]⟩
  | succ n ih =>
    intro st hinv hf
    unfold tokenize_loop
    by_cases hlt : (st.index : Int) < length
    · simp only [hlt, if_true]
      have hlt2 : st.index < strlen source := by omega
      obtain ⟨st1, hs⟩ := hdef st hinv hlt2
      rw [hs]
      have := (tokenize_step_index_lt source st st1 hlt2 hs).1
      exact ih st1 (hstep st st1 hinv hlt2 hs) (by omega)
    · exact ⟨st, by simp [hlt]⟩

/-! ## What tokenize returns -/

/-- The state in which `tokenize` leaves its loop satisfies the invariants
of the loop, and the index has reached `length`. -/
theorem tokenize_scan_inv (source : List Char) (ln : Nat) (st : LexState)
    (h : tokenize_scan source ln = .ok st) :
    ScanInv source ln st ∧ ArrayInv st ∧ TokenInv source st ∧
    int_of_size_t (strlen source) ≤ (st.index : Int) := by
  obtain ⟨⟨h1, h2, h3⟩, h4⟩ := tokenize_loop_invariant source _ (int_of_size_t_le _)
    (fun s => ScanInv source ln s ∧ ArrayInv s ∧ TokenInv source s)
    (fun a b ha hlt hs => ⟨scanInv_step source ln a b ha.1 hlt hs,
      arrayInv_step source a b ha.2.1 hlt hs, tokenInv_step source a b ha.2.2 hlt hs⟩)
    _ _ _ ⟨scanInv_initial source ln, arrayInv_initial ln, tokenInv_initial source ln⟩ h
  exact ⟨h1, h2, h3, h4⟩

/-- On a buffer within the range of `int` the loop is left with the index
at the terminator. -/
theorem tokenize_scan_index (source : List Char) (ln : Nat) (st : LexState)
    (hlen : strlen source ≤ INT_MAX) (h : tokenize_scan source ln = .ok st) :
    st.index = strlen source := by
  obtain ⟨h1, _, _, h4⟩ := tokenize_scan_inv source ln st h
  rw [int_of_size_t_of_le _ hlen] at h4
  have := h1.index_le
  omega

/-- In a run in which the line counter does not wrap, the lines of the
tokens the loop has written are in non-decreasing order and at most the line
counter, which is the value at entry plus the newlines before the index. -/
theorem tokenize_scan_lines (source : List Char) (ln : Nat) (st : LexState)
    (hwrap : ln + (cstr source).count '\n' ≤ SIZE_MAX)
    (h : tokenize_scan source ln = .ok st) :
    LineInv st ∧ st.line_number = ln + newlines_before source st.index := by
  obtain ⟨⟨h1, h2⟩, _⟩ := tokenize_loop_invariant source _ (int_of_size_t_le _)
    (fun s => ScanInv source ln s ∧ LineInv s)
    (fun a b ha hlt hs => ⟨scanInv_step source ln a b ha.1 hlt hs,
      lineInv_step source ln a b hwrap ha.1 ha.2 hlt hs⟩)
    _ _ _ ⟨scanInv_initial source ln, lineInv_initial ln⟩ h
  refine ⟨h2, ?_⟩
  rw [h1.line_eq]
  have := newlines_before_le source st.index h1.index_le
  exact line_at_eq_add source ln st.index (by omega)

/-- The numbers of tokens and of slots stay far below the range of
`size_t`: the count is at most the index, which is at most `INT_MAX`, and
the capacity less than twice the count, or 10. -/
theorem tokenize_scan_counts (source : List Char) (ln : Nat) (st : LexState)
    (h : tokenize_scan source ln = .ok st) :
    st.token_count ≤ st.index ∧ st.token_count ≤ st.capacity ∧
    st.capacity ≤ 2 * st.token_count + 10 := by
  obtain ⟨h1, h2, _, _⟩ := tokenize_scan_inv source ln st h
  have hlen : st.starts.length = st.tokens.length := h1.token_line.length_eq.symm
  have hle : ∀ (l : List Nat) (b : Nat), l.Pairwise (fun a b => a < b) → (∀ s ∈ l, s < b) →
      l.length ≤ b := by
    intro l
    induction l using List.reverseRecOn with
    | nil => intro b _ _; exact Nat.zero_le _
    | append_singleton l a ih =>
      intro b hp hb
      rw [List.pairwise_append] at hp
      have h3 := ih a hp.1 (fun s hs => hp.2.2 s hs a (List.mem_singleton_self a))
      have h4 := hb a (by simp)
      rw [List.length_append, List.length_singleton]
      omega
  have hc := hle st.starts st.index h1.starts_sorted h1.starts_lt
  obtain ⟨k, hk, hk2⟩ := capacity_after_shape st.token_count
  have hge := (capacity_after_ge st.token_count).1
  rw [← h2.capacity_eq] at hk hge
  refine ⟨by rw [h2.count_eq, ← hlen]; exact hc, hge, ?_⟩
  rcases hk2 with hk2 | hk2
  · rw [hk, hk2]
    omega
  · have hk1 : 1 ≤ k := by
      by_contra hc2
      have h0 : k = 0 := by omega
      rw [h0] at hk hk2
      simp at hk hk2
      omega
    have hp : 2 ^ k = 2 * 2 ^ (k - 1) := by
      conv_lhs => rw [show k = (k - 1) + 1 from by omega]
      rw [pow_succ]
      omega
    rw [hk, hp]
    generalize 2 ^ (k - 1) = p at hk2
    omega

/-- A state returned by `tokenize` is the state in which the loop is left,
with the count below the capacity, after the store of the end marker. -/
theorem tokenize_ok (source : List Char) (ln : Nat) (r : LexState)
    (h : tokenize source ln = .ok r) :
    ∃ st, tokenize_scan source ln = .ok st ∧ st.token_count < st.capacity ∧ r = after_eof st := by
  unfold tokenize at h
  cases hl : tokenize_scan source ln with
  | error e => simp [hl] at h
  | ok st =>
    simp only [hl] at h
    unfold store_eof at h
    by_cases hc : st.token_count < st.capacity
    · rw [if_pos hc] at h
      injection h with h
      exact ⟨st, rfl, hc, h.symm⟩
    · rw [if_neg hc] at h
      cases h

theorem tokenize_of_scan (source : List Char) (ln : Nat) (st : LexState)
    (h : tokenize_scan source ln = .ok st) (hc : st.token_count < st.capacity) :
    tokenize source ln = .ok (after_eof st) := by
  unfold tokenize
  rw [h]
  simp only [store_eof, if_pos hc]

theorem tokenize_overflow_of_scan (source : List Char) (ln : Nat) (st : LexState)
    (h : tokenize_scan source ln = .ok st) (hc : ¬ st.token_count < st.capacity) :
    tokenize source ln = .error .heap_overflow := by
  unfold tokenize
  rw [h]
  simp only [store_eof, if_neg hc]

theorem tokenize_scan_ne_fuel (source : List Char) (ln : Nat) :
    tokenize_scan source ln ≠ .error .out_of_fuel := by
  unfold tokenize_scan
  apply tokenize_loop_ne_fuel source _ (int_of_size_t_le _)
  simp [initial_state]

/-- The function `tokenize` does not run out of iterations: its loop ends
within the `length` iterations it is given, on every input. -/
theorem tokenize_ne_fuel (source : List Char) (ln : Nat) :
    tokenize source ln ≠ .error .out_of_fuel := by
  unfold tokenize
  cases hl : tokenize_scan source ln with
  | error e =>
    simp only []
    intro h
    injection h with h
    rw [h] at hl
    exact tokenize_scan_ne_fuel source ln hl
  | ok st =>
    simp only [store_eof]
    split <;> intro h <;> cases h

/-- A run that stays within its buffers returns. -/
theorem tokenize_of_in_bounds (source : List Char) (ln : Nat)
    (h : in_bounds source ln = true) : ∃ r, tokenize source ln = .ok r := by
  unfold in_bounds at h
  cases hr : tokenize source ln with
  | ok r => exact ⟨r, rfl⟩
  | error e =>
    rw [hr] at h
    cases e with
    | buffer_overflow => cases h
    | heap_overflow => cases h
    | int_overflow => cases h
    | out_of_fuel => exact absurd hr (tokenize_ne_fuel source ln)

/-- On a buffer within the range of `int` whose digit runs and identifier
runs fit their buffers, the loop of `tokenize` completes. -/
theorem tokenize_scan_total (source : List Char) (ln : Nat) (hlen : strlen source ≤ INT_MAX)
    (hfit : runs_fit source) : ∃ st, tokenize_scan source ln = .ok st := by
  unfold tokenize_scan
  apply tokenize_loop_total source _ (int_of_size_t_le _)
    (fun s => ArrayInv s ∧ Boundary source s.index)
    (fun a b ha hlt hs => ⟨arrayInv_step source a b ha.1 hlt hs, boundary_step source a b hlt hs⟩)
  · intro st hinv hlt
    obtain ⟨h1, h2⟩ := runs_fit_at source st.index hfit hlt hinv.2
    exact tokenize_step_defined source st hlt hinv.1 hlen h1 h2
  · exact ⟨arrayInv_initial ln, Or.inl rfl⟩
  · simp [initial_state]

/-- On a buffer within the range of `int` whose digit runs and identifier
runs fit their buffers, `tokenize` returns unless it writes the end marker
past the end of the token array. -/
theorem tokenize_of_runs_fit (source : List Char) (ln : Nat) (hlen : strlen source ≤ INT_MAX)
    (hfit : runs_fit source) (harr : array_in_bounds source ln = true) :
    ∃ r, tokenize source ln = .ok r := by
  obtain ⟨st, hst⟩ := tokenize_scan_total source ln hlen hfit
  by_cases hc : st.token_count < st.capacity
  · exact ⟨_, tokenize_of_scan source ln st hst hc⟩
  · have := tokenize_overflow_of_scan source ln st hst hc
    unfold array_in_bounds at harr
    rw [this] at harr
    cases harr

theorem strdup_EOF : strdup "EOF".toList = "EOF".toList := by decide

theorem forall₂_right {α β : Type} (R : α → β → Prop) (P : β → Prop)
    (h : ∀ a b, R a b → P b) : ∀ (l1 : List α) (l2 : List β), List.Forall₂ R l1 l2 →
    ∀ b ∈ l2, P b := by
  intro l1 l2 hf
  induction hf with
  | nil => intro b hb; simp at hb
  | cons hab _ ih =>
    intro b hb
    rw [List.mem_cons] at hb
    rcases hb with rfl | hb
    · exact h _ _ hab
    · exact ih b hb

/-! ## Sequences of iterations -/

theorem Run.trans {source : List Char} {a b c : LexState} (h1 : Run source a b)
    (h2 : Run source b c) : Run source a c := by
  induction h1 with
  | refl _ => exact h2
  | step st st1 r hlt hs _ ih => exact Run.step st st1 c hlt hs (ih h2)

theorem Run.single {source : List Char} {a b : LexState} (hlt : a.index < strlen source)
    (hs : tokenize_step source a = .ok b) : Run source a b :=
  Run.step a b b hlt hs (Run.refl b)

theorem Run.index_le {source : List Char} {a b : LexState} (h : Run source a b) :
    a.index ≤ b.index := by
  induction h with
  | refl _ => exact Nat.le_refl _
  | step st st1 r hlt hs _ ih =>
    have := (tokenize_step_index_lt source st st1 hlt hs).1
    omega

theorem Run.arrayInv {source : List Char} {a b : LexState} (h : Run source a b)
    (ha : ArrayInv a) : ArrayInv b := by
  induction h with
  | refl _ => exact ha
  | step st st1 r hlt hs _ ih => exact ih (arrayInv_step source st st1 ha hlt hs)

/-- On a buffer within the range of `int`, `length` is its length. -/
theorem tokenize_scan_eq (source : List Char) (ln : Nat) (hlen : strlen source ≤ INT_MAX) :
    tokenize_scan source ln =
      tokenize_loop source (strlen source : Int) (strlen source) (initial_state ln) := by
  unfold tokenize_scan
  simp only [int_of_size_t_of_le _ hlen, Int.toNat_ofNat]

/-- A run of the loop that returns is a sequence of iterations ending at or
after the terminator. -/
theorem run_of_loop (source : List Char) :
    ∀ (fuel : Nat) (st r : LexState),
      tokenize_loop source (strlen source : Int) fuel st = .ok r →
      Run source st r ∧ strlen source ≤ r.index := by
  intro fuel
  induction fuel with
  | zero =>
    intro st r h
    unfold tokenize_loop at h
    by_cases hlt : (st.index : Int) < (strlen source : Int)
    · simp [hlt] at h
    · simp only [hlt, if_false] at h
      injection h with h
      subst h
      exact ⟨Run.refl _, by omega⟩
  | succ n ih =>
    intro st r h
    unfold tokenize_loop at h
    by_cases hlt : (st.index : Int) < (strlen source : Int)
    · simp only [hlt, if_true] at h
      cases hs : tokenize_step source st with
      | error e => simp [hs] at h
      | ok st1 =>
        simp only [hs] at h
        obtain ⟨h1, h2⟩ := ih st1 r h
        exact ⟨Run.step st st1 r (by omega) hs h1, h2⟩
    · simp only [hlt, if_false] at h
      injection h with h
      subst h
      exact ⟨Run.refl _, by omega⟩

/-- A sequence of iterations that ends at or after the terminator is what the
loop returns, whenever it is given at least `strlen source - index`
iterations. -/
theorem loop_of_run (source : List Char) (st r : LexState) (h : Run source st r)
    (hr : strlen source ≤ r.index) :
    ∀ fuel, strlen source - st.index ≤ fuel →
      tokenize_loop source (strlen source : Int) fuel st = .ok r := by
  induction h with
  | refl st =>
    intro fuel _
    have : ¬ (st.index : Int) < (strlen source : Int) := by omega
    cases fuel <;> simp [tokenize_loop, this]
  | step st st1 r hlt hs _ ih =>
    intro fuel hf
    have hp := tokenize_step_index_lt source st st1 hlt hs
    have hlt2 : (st.index : Int) < (strlen source : Int) := by omega
    cases fuel with
    | zero => omega
    | succ n =>
      unfold tokenize_loop
      simp only [hlt2, if_true, hs]
      exact ih hr n (by omega)

/-- On a buffer within the range of `int`, the loop of `tokenize` is left
in exactly the states reached by a sequence of iterations from the initial
state to the terminator. -/
theorem tokenize_scan_iff_run (source : List Char) (ln : Nat) (st : LexState)
    (hlen : strlen source ≤ INT_MAX) :
    tokenize_scan source ln = .ok st ↔
      Run source (initial_state ln) st ∧ st.index = strlen source := by
  constructor
  · intro h
    have hidx := tokenize_scan_index source ln st hlen h
    rw [tokenize_scan_eq source ln hlen] at h
    exact ⟨(run_of_loop source _ _ _ h).1, hidx⟩
  · rintro ⟨h1, h2⟩
    rw [tokenize_scan_eq source ln hlen]
    exact loop_of_run source _ _ h1 (by omega) (strlen source) (by simp [initial_state])

/-! ## Iterations that complete, class by class -/

theorem step_digit_ok (source : List Char) (st st1 : LexState)
    (h : isdigit (char_at source st.index) = true) (hs : tokenize_step source st = .ok st1) :
    ((source.drop st.index).takeWhile isdigit).length < 32 ∧
    st1 = after_store st
      ⟨.TOKEN_NUMBER, (source.drop st.index).takeWhile isdigit, st.line_number⟩ st.index
      (st.index + ((source.drop st.index).takeWhile isdigit).length) := by
  rw [tokenize_step_digit source st h] at hs
  by_cases hfit : ((source.drop st.index).takeWhile isdigit).length < 32
  · rw [if_pos hfit] at hs
    by_cases hint : INT_MAX < st.index + ((source.drop st.index).takeWhile isdigit).length
    · rw [if_pos hint] at hs
      cases hs
    · rw [if_neg hint] at hs
      exact ⟨hfit, store_token_ok _ _ _ _ _ hs⟩
  · rw [if_neg hfit] at hs
    cases hs

theorem step_digit_defined (source : List Char) (st : LexState)
    (h : isdigit (char_at source st.index) = true)
    (hfit : ((source.drop st.index).takeWhile isdigit).length < 32)
    (hint : st.index + ((source.drop st.index).takeWhile isdigit).length ≤ INT_MAX)
    (harr : ArrayInv st) :
    tokenize_step source st = .ok (after_store st
      ⟨.TOKEN_NUMBER, (source.drop st.index).takeWhile isdigit, st.line_number⟩ st.index
      (st.index + ((source.drop st.index).takeWhile isdigit).length)) := by
  rw [tokenize_step_digit source st h, if_pos hfit, if_neg (by omega),
    store_token_of_inv _ _ _ _ harr]

theorem step_identifier_ok (source : List Char) (st st1 : LexState)
    (h : (isalpha (char_at source st.index) || char_at source st.index == '_') = true)
    (hs : tokenize_step source st = .ok st1) :
    ((source.drop st.index).takeWhile identifier_char).length < 64 ∧
    st1 = after_store st
      (classify_keyword_or_identifier ((source.drop st.index).takeWhile identifier_char)
        st.line_number) st.index
      (st.index + ((source.drop st.index).takeWhile identifier_char).length) := by
  rw [tokenize_step_identifier source st h] at hs
  by_cases hfit : ((source.drop st.index).takeWhile identifier_char).length < 64
  · rw [if_pos hfit] at hs
    by_cases hint :
        INT_MAX < st.index + ((source.drop st.index).takeWhile identifier_char).length
    · rw [if_pos hint] at hs
      cases hs
    · rw [if_neg hint] at hs
      exact ⟨hfit, store_token_ok _ _ _ _ _ hs⟩
  · rw [if_neg hfit] at hs
    cases hs

theorem step_identifier_defined (source : List Char) (st : LexState)
    (h : (isalpha (char_at source st.index) || char_at source st.index == '_') = true)
    (hfit : ((source.drop st.index).takeWhile identifier_char).length < 64)
    (hint : st.index + ((source.drop st.index).takeWhile identifier_char).length ≤ INT_MAX)
    (harr : ArrayInv st) :
    tokenize_step source st = .ok (after_store st
      (classify_keyword_or_identifier ((source.drop st.index).takeWhile identifier_char)
        st.line_number) st.index
      (st.index + ((source.drop st.index).takeWhile identifier_char).length)) := by
  rw [tokenize_step_identifier source st h, if_pos hfit, if_neg (by omega),
    store_token_of_inv _ _ _ _ harr]

theorem step_operator_ok (source : List Char) (st st1 : LexState)
    (h : operator_chars.elem (char_at source st.index) = true)
    (hs : tokenize_step source st = .ok st1) :
    st1 = after_store st (classify_operator source st.index st.line_number).1 st.index
      (classify_operator source st.index st.line_number).2 := by
  rw [tokenize_step_operator source st h] at hs
  by_cases hint : INT_MAX < (classify_operator source st.index st.line_number).2
  · rw [if_pos hint] at hs
    cases hs
  · rw [if_neg hint] at hs
    exact store_token_ok _ _ _ _ _ hs

theorem step_operator_defined (source : List Char) (st : LexState)
    (h : operator_chars.elem (char_at source st.index) = true)
    (hint : (classify_operator source st.index st.line_number).2 ≤ INT_MAX)
    (harr : ArrayInv st) :
    tokenize_step source st = .ok (after_store st
      (classify_operator source st.index st.line_number).1 st.index
      (classify_operator source st.index st.line_number).2) := by
  rw [tokenize_step_operator source st h, if_neg (by omega), store_token_of_inv _ _ _ _ harr]

theorem step_delimiter_ok (source : List Char) (st st1 : LexState)
    (h : delimiter_chars.elem (char_at source st.index) = true)
    (hs : tokenize_step source st = .ok st1) :
    st1 = after_store st (classify_delimiter (char_at source st.index) st.line_number)
      st.index (st.index + 1) := by
  rw [tokenize_step_delimiter source st h] at hs
  exact store_token_ok _ _ _ _ _ hs

theorem step_delimiter_defined (source : List Char) (st : LexState)
    (h : delimiter_chars.elem (char_at source st.index) = true) (harr : ArrayInv st) :
    tokenize_step source st = .ok (after_store st
      (classify_delimiter (char_at source st.index) st.line_number) st.index (st.index + 1)) := by
  rw [tokenize_step_delimiter source st h, store_token_of_inv _ _ _ _ harr]

/-! ## Runs on buffers that agree -/

theorem takeWhile_of_imp (p q : Char → Bool) (hpq : ∀ c, p c = true → q c = true)
    (l : List Char) : l.takeWhile p = (l.takeWhile q).takeWhile p := by
  induction l with
  | nil => rfl
  | cons c t ih =>
    by_cases hp : p c = true
    · rw [List.takeWhile_cons_of_pos (hpq c hp), List.takeWhile_cons_of_pos hp,
        List.takeWhile_cons_of_pos hp, ih]
    · rw [List.takeWhile_cons_of_neg hp]
      by_cases hq : q c = true
      · rw [List.takeWhile_cons_of_pos hq, List.takeWhile_cons_of_neg hp]
      · rw [List.takeWhile_cons_of_neg hq]
        rfl

theorem run_agree (p : Char → Bool) (hp : ∀ c, p c = true → lexeme_char c = true)
    (l1 l2 : List Char) (h : l1.takeWhile lexeme_char = l2.takeWhile lexeme_char) :
    l1.takeWhile p = l2.takeWhile p := by
  rw [takeWhile_of_imp p lexeme_char hp l1, takeWhile_of_imp p lexeme_char hp l2, h]

theorem map_line_mk (f : Nat → Nat) (a : TokenType) (b : List Char) (c : Nat) :
    map_line f ⟨a, b, c⟩ = ⟨a, b, f c⟩ := rfl

theorem classify_keyword_or_identifier_map (l : List Char) (ln : Nat) (f : Nat → Nat) :
    classify_keyword_or_identifier l (f ln) = map_line f (classify_keyword_or_identifier l ln) := by
  unfold classify_keyword_or_identifier
  simp only [create_token, apply_ite (map_line f), map_line_mk]

/-- The token of `classify_operator` depends on the buffer only through the
character at the index and through whether the next one is `=`, `&` or `|`. -/
theorem classify_operator_agree (A B : List Char) (a b ln : Nat) (f : Nat → Nat)
    (hc : char_at A a = char_at B b)
    (h1 : char_at A (a + 1) = '=' ↔ char_at B (b + 1) = '=')
    (h2 : char_at A (a + 1) = '&' ↔ char_at B (b + 1) = '&')
    (h3 : char_at A (a + 1) = '|' ↔ char_at B (b + 1) = '|') :
    (classify_operator A a (f ln)).1 = map_line f (classify_operator B b ln).1 ∧
    (classify_operator A a (f ln)).2 + b = (classify_operator B b ln).2 + a := by
  unfold classify_operator
  simp only [create_token, hc]
  generalize char_at B b = c
  generalize char_at A (a + 1) = nA at h1 h2 h3 ⊢
  generalize char_at B (b + 1) = nB at h1 h2 h3 ⊢
  by_cases e1 : nB = '=' <;> by_cases e2 : nB = '&' <;> by_cases e3 : nB = '|' <;>
    by_cases c1 : c = '=' <;> by_cases c2 : c = '<' <;> by_cases c3 : c = '>' <;>
    by_cases c4 : c = '!' <;> by_cases c5 : c = '&' <;> by_cases c6 : c = '|' <;>
    simp_all [map_line] <;> (repeat' split) <;> (try simp) <;> (try omega)

theorem second_of_run (s : List Char) (i : Nat) (hi : i < s.length)
    (hc : lexeme_char (char_at s i) = true) :
    ((s.drop i).takeWhile lexeme_char).getD 1 NUL =
      if lexeme_char (char_at s (i + 1)) = true then char_at s (i + 1) else NUL := by
  have h0 : char_at s i = s[i] := by
    simp [char_at, List.getD, List.getElem?_eq_getElem hi]
  rw [List.drop_eq_getElem_cons hi, List.takeWhile_cons_of_pos (by rw [← h0]; exact hc)]
  by_cases h1 : i + 1 < s.length
  · have h2 : char_at s (i + 1) = s[i + 1] := by
      simp [char_at, List.getD, List.getElem?_eq_getElem h1]
    rw [List.drop_eq_getElem_cons h1, h2]
    by_cases h3 : lexeme_char s[i + 1] = true
    · rw [List.takeWhile_cons_of_pos h3, if_pos h3]
      rfl
    · rw [List.takeWhile_cons_of_neg h3, if_neg h3]
      rfl
  · have h2 : char_at s (i + 1) = NUL := by
      simp [char_at, List.getD, List.getElem?_eq_none (Nat.le_of_not_lt h1)]
    rw [List.drop_eq_nil_of_le (Nat.le_of_not_lt h1), h2]
    simp [List.getD]

theorem lookahead_iff (s : List Char) (i : Nat) (hi : i < s.length)
    (hc : lexeme_char (char_at s i) = true) (x : Char) (hx : lexeme_char x = true) :
    char_at s (i + 1) = x ↔ ((s.drop i).takeWhile lexeme_char).getD 1 NUL = x := by
  rw [second_of_run s i hi hc]
  constructor
  · intro h
    rw [h, if_pos hx]
  · intro h
    by_cases h1 : lexeme_char (char_at s (i + 1)) = true
    · rw [if_pos h1] at h
      exact h
    · rw [if_neg h1] at h
      rw [← h] at hx
      exact absurd hx (by decide)

theorem lookahead_agree (A B : List Char) (a b : Nat) (ha : a < strlen A) (hb : b < strlen B)
    (hc : char_at A a = char_at B b) (hl : lexeme_char (char_at B b) = true)
    (hrun : (A.drop a).takeWhile lexeme_char = (B.drop b).takeWhile lexeme_char)
    (x : Char) (hx : lexeme_char x = true) :
    char_at A (a + 1) = x ↔ char_at B (b + 1) = x := by
  rw [lookahead_iff A a (Nat.lt_of_lt_of_le ha (strlen_le_length A)) (by rw [hc]; exact hl) x hx,
    lookahead_iff B b (Nat.lt_of_lt_of_le hb (strlen_le_length B)) hl x hx, hrun]

theorem sim_store (off : Nat) (f : Nat → Nat) (T0 : List Token) (stA stB : LexState)
    (tokA tokB : Token) (sA sB kA kB : Nat) (hsim : Sim off f T0 stA stB)
    (htok : tokA = map_line f tokB) (hk : kA = off + kB) :
    Sim off f T0 (after_store stA tokA sA kA) (after_store stB tokB sB kB) := by
  constructor
  · exact hk
  · exact hsim.line
  · show stA.tokens ++ [tokA] = T0 ++ (stB.tokens ++ [tokB]).map (map_line f)
    rw [hsim.tokens, htok]
    simp

/-- One iteration on the buffer `A` does what the iteration on `B` does, in
corresponding states at places where the buffers agree, when `A` is within
the range of `int` and the token array of the run on `A` is as the loop
keeps it. -/
theorem step_sim (A B : List Char) (off : Nat) (f : Nat → Nat) (T0 : List Token)
    (hf : ∀ x, f ((x + 1) % (SIZE_MAX + 1)) = (f x + 1) % (SIZE_MAX + 1))
    (hlen : off + strlen B ≤ strlen A) (hint : strlen A ≤ INT_MAX)
    (stA stB stB1 : LexState)
    (hsim : Sim off f T0 stA stB) (hB : stB.index < strlen B) (harr : ArrayInv stA)
    (hag : Agree A B off stB.index) (hs : tokenize_step B stB = .ok stB1) :
    ∃ stA1, tokenize_step A stA = .ok stA1 ∧ Sim off f T0 stA1 stB1 := by
  have hidx := hsim.index
  have hline := hsim.line
  have hA : stA.index < strlen A := by omega
  obtain ⟨hc0, hrun0⟩ := hag
  rw [← hidx] at hc0 hrun0
  rcases char_classes (char_at B stB.index) with hsp | hu | hl
  · rw [tokenize_step_space B stB hsp] at hs
    injection hs with hs
    subst hs
    refine ⟨_, tokenize_step_space A stA (by rw [hc0]; exact hsp), ?_⟩
    constructor
    · show stA.index + 1 = off + (stB.index + 1)
      omega
    · show (if char_at A stA.index = '\n' then (stA.line_number + 1) % (SIZE_MAX + 1)
          else stA.line_number) =
        f (if char_at B stB.index = '\n' then (stB.line_number + 1) % (SIZE_MAX + 1)
          else stB.line_number)
      rw [hc0, hline]
      split
      · rw [hf]
      · rfl
    · exact hsim.tokens
  · rw [tokenize_step_unrecognized B stB hB hu] at hs
    injection hs with hs
    subst hs
    refine ⟨_, tokenize_step_unrecognized A stA hA (by rw [hc0]; exact hu), ?_⟩
    constructor
    · show stA.index + 1 = off + (stB.index + 1)
      omega
    · exact hline
    · exact hsim.tokens
  · rcases lexeme_char_cases _ hl with hd | ha | ho | hdl
    · obtain ⟨hfit, hst⟩ := step_digit_ok B stB stB1 hd hs
      subst hst
      have hr := run_agree isdigit isdigit_lexeme_char _ _ hrun0
      have hw := run_within isdigit isdigit_NUL B stB.index (Nat.le_of_lt hB)
      refine ⟨_, step_digit_defined A stA (by rw [hc0]; exact hd) (by rw [hr]; exact hfit)
        (by rw [hr]; omega) harr, ?_⟩
      rw [hr]
      refine sim_store off f T0 stA stB _ _ _ _ _ _ hsim ?_ (by omega)
      simp [map_line, hline]
    · obtain ⟨hfit, hst⟩ := step_identifier_ok B stB stB1 ha hs
      subst hst
      have hr := run_agree identifier_char identifier_char_lexeme_char _ _ hrun0
      have hw := run_within identifier_char identifier_char_NUL B stB.index (Nat.le_of_lt hB)
      refine ⟨_, step_identifier_defined A stA (by rw [hc0]; exact ha)
        (by rw [hr]; exact hfit) (by rw [hr]; omega) harr, ?_⟩
      rw [hr]
      refine sim_store off f T0 stA stB _ _ _ _ _ _ hsim ?_ (by omega)
      rw [hline, classify_keyword_or_identifier_map]
    · have hst := step_operator_ok B stB stB1 ho hs
      subst hst
      have hla := lookahead_agree A B stA.index stB.index hA hB hc0 hl hrun0
      obtain ⟨h1, h2⟩ := classify_operator_agree A B stA.index stB.index stB.line_number f hc0
        (hla '=' (by decide)) (hla '&' (by decide)) (hla '|' (by decide))
      rw [← hline] at h1 h2
      obtain ⟨_, _, _, _, h5⟩ := classify_operator_value B stB.index stB.line_number ho
      have hbound : (classify_operator B stB.index stB.line_number).2 ≤ strlen B := by
        rcases h5 with ⟨h5, _⟩ | ⟨h5, _, h7⟩
        · rw [h5]
          omega
        · have h8 : stB.index + 1 < strlen B :=
            lt_strlen_of_char_at_ne_nul B _ hB
              (lexeme_char_ne_nul _ (operator_lexeme_char _ h7))
          rw [h5]
          omega
      refine ⟨_, step_operator_defined A stA (by rw [hc0]; exact ho) (by omega) harr, ?_⟩
      exact sim_store off f T0 stA stB _ _ _ _ _ _ hsim h1 (by omega)
    · have hst := step_delimiter_ok B stB stB1 hdl hs
      subst hst
      refine ⟨_, step_delimiter_defined A stA (by rw [hc0]; exact hdl) harr, ?_⟩
      refine sim_store off f T0 stA stB _ _ _ _ _ _ hsim ?_ (by omega)
      rw [hc0, classify_delimiter_of_mem _ _ hdl, classify_delimiter_of_mem _ _ hdl, hline]
      rfl

/-- A sequence of iterations on the buffer `B` is matched by a sequence of
iterations on `A`, from corresponding states to corresponding states, when
the buffers agree at every index the iterations on `B` can visit. -/
theorem run_sim (A B : List Char) (off : Nat) (f : Nat → Nat) (T0 : List Token)
    (hf : ∀ x, f ((x + 1) % (SIZE_MAX + 1)) = (f x + 1) % (SIZE_MAX + 1))
    (hlen : off + strlen B ≤ strlen A) (hint : strlen A ≤ INT_MAX)
    (stB rB : LexState) (h : Run B stB rB) :
    ∀ stA, Sim off f T0 stA stB → ArrayInv stA →
      (∀ j, stB.index ≤ j → j < strlen B → Agree A B off j) →
      ∃ rA, Run A stA rA ∧ Sim off f T0 rA rB := by
  induction h with
  | refl st =>
    intro stA hsim _ _
    exact ⟨stA, Run.refl _, hsim⟩
  | step st st1 r hlt hs _ ih =>
    intro stA hsim harr hag
    have hA : stA.index < strlen A := by
      have := hsim.index
      omega
    obtain ⟨stA1, hsA, hsim1⟩ :=
      step_sim A B off f T0 hf hlen hint stA st st1 hsim hlt harr (hag _ (Nat.le_refl _) hlt) hs
    have hp := (tokenize_step_index_lt B st st1 hlt hs).1
    obtain ⟨rA, hrun, hsimr⟩ := ih stA1 hsim1 (arrayInv_step A stA stA1 harr hA hsA)
      (fun j hj1 hj2 => hag j (by omega) hj2)
    exact ⟨rA, Run.step stA stA1 rA hA hsA hrun, hsimr⟩

theorem map_line_id (t : Token) : map_line (fun x => x) t = t := rfl

theorem map_map_line_id (l : List Token) : l.map (map_line (fun x => x)) = l := by
  induction l with
  | nil => rfl
  | cons t ts ih => rw [List.map_cons, ih, map_line_id]

theorem cstr_append_of_no_nul (s t : List Char) (h : ∀ c ∈ s, c ≠ NUL) :
    cstr (s ++ t) = s ++ cstr t := by
  induction s with
  | nil => rfl
  | cons c s ih =>
    have hc : c ≠ NUL := h c (List.mem_cons_self _ _)
    rw [List.cons_append, cstr_cons_of_ne _ _ hc,
      ih (fun x hx => h x (List.mem_cons_of_mem _ hx))]
    rfl

theorem strlen_append_of_no_nul (s t : List Char) (h : ∀ c ∈ s, c ≠ NUL) :
    strlen (s ++ t) = s.length + strlen t := by
  simp [strlen, cstr_append_of_no_nul s t h]

theorem strlen_of_no_nul (s : List Char) (h : ∀ c ∈ s, c ≠ NUL) : strlen s = s.length := by
  rw [strlen, cstr_eq_self s h]

theorem char_at_append_left (s t : List Char) (j : Nat) (h : j < s.length) :
    char_at (s ++ t) j = char_at s j := by
  simp [char_at, List.getD, List.getElem?_append_left h]

theorem char_at_append_right (s t : List Char) (j : Nat) :
    char_at (s ++ t) (s.length + j) = char_at t j := by
  simp [char_at, List.getD, List.getElem?_append_right]

theorem takeWhile_append_stop (q : Char → Bool) (x : Char) (hx : q x = false)
    (l m : List Char) : (l ++ x :: m).takeWhile q = l.takeWhile q := by
  induction l with
  | nil =>
    rw [List.nil_append, List.takeWhile_cons_of_neg (by rw [hx]; simp)]
    rfl
  | cons c l ih =>
    rw [List.cons_append, List.takeWhile_cons, List.takeWhile_cons, ih]

/-- The buffer `s ++ x :: t`, with `x` no lexeme character, agrees with `s`
at every index of `s`. -/
theorem agree_left (s t : List Char) (x : Char) (hx : lexeme_char x = false) (j : Nat)
    (h : j < s.length) : Agree (s ++ x :: t) s 0 j := by
  constructor
  · rw [Nat.zero_add]
    exact char_at_append_left s _ j h
  · rw [Nat.zero_add, List.drop_append_of_le_length (Nat.le_of_lt h)]
    exact takeWhile_append_stop lexeme_char x hx _ _

/-- The buffer `s ++ t` agrees from the length of `s` on with `t`. -/
theorem agree_right (s t : List Char) (j : Nat) : Agree (s ++ t) t s.length j := by
  constructor
  · exact char_at_append_right s t j
  · rw [List.drop_append]

theorem agree_self (s : List Char) (j : Nat) : Agree s s 0 j := by
  constructor <;> rw [Nat.zero_add]

theorem sim_initial (ln : Nat) (f : Nat → Nat) :
    Sim 0 f [] (initial_state (f ln)) (initial_state ln) := by
  constructor <;> simp [initial_state]

/-! ## Runs entered with another line counter, runs across a space -/

theorem tokenize_scan_array (source : List Char) (ln : Nat) (st : LexState)
    (h : tokenize_scan source ln = .ok st) :
    st.token_count = st.tokens.length ∧ st.capacity = capacity_after st.tokens.length := by
  obtain ⟨_, h2, _, _⟩ := tokenize_scan_inv source ln st h
  exact ⟨h2.count_eq, by rw [← h2.count_eq]; exact h2.capacity_eq⟩

/-- Entered with the line counter mapped by `f`, a map that commutes with
the increment of the counter, the loop of `tokenize` writes the same tokens
with their lines mapped by `f`, and leaves the counter mapped by `f`. -/
theorem tokenize_scan_map (source : List Char) (ln : Nat) (f : Nat → Nat)
    (hf : ∀ x, f ((x + 1) % (SIZE_MAX + 1)) = (f x + 1) % (SIZE_MAX + 1))
    (hlen : strlen source ≤ INT_MAX) (st : LexState) (h : tokenize_scan source ln = .ok st) :
    ∃ st2, tokenize_scan source (f ln) = .ok st2 ∧
      st2.tokens = st.tokens.map (map_line f) ∧ st2.line_number = f st.line_number ∧
      st2.token_count = st.token_count ∧ st2.capacity = st.capacity := by
  obtain ⟨hrun, hidx⟩ := (tokenize_scan_iff_run source ln st hlen).mp h
  obtain ⟨rA, hrunA, hsim⟩ := run_sim source source 0 f [] hf (by omega) hlen _ _ hrun
    (initial_state (f ln)) (sim_initial ln f) (arrayInv_initial _)
    (fun j _ _ => agree_self source j)
  have hidxA : rA.index = strlen source := by
    rw [hsim.index, hidx, Nat.zero_add]
  have hA := (tokenize_scan_iff_run source (f ln) rA hlen).mpr ⟨hrunA, hidxA⟩
  have ht : rA.tokens = st.tokens.map (map_line f) := by
    rw [hsim.tokens, List.nil_append]
  obtain ⟨c1, c2⟩ := tokenize_scan_array source ln st h
  obtain ⟨c3, c4⟩ := tokenize_scan_array source (f ln) rA hA
  refine ⟨rA, hA, ht, hsim.line, ?_, ?_⟩
  · rw [c3, c1, ht, List.length_map]
  · rw [c4, c2, ht, List.length_map]

theorem space_facts : lexeme_char ' ' = false ∧ isspace ' ' = true ∧ ' ' ≠ NUL ∧ ' ' ≠ '\n' := by
  decide

theorem append_space_eq (s1 s2 : List Char) : s1 ++ ' ' :: s2 = (s1 ++ [' ']) ++ s2 := by
  simp

theorem strlen_append_space (s1 s2 : List Char) (hnul : ∀ c ∈ s1, c ≠ NUL) :
    strlen (s1 ++ ' ' :: s2) = s1.length + (strlen s2 + 1) := by
  rw [strlen_append_of_no_nul s1 _ hnul]
  simp [strlen, cstr_cons_of_ne ' ' s2 space_facts.2.2.1]

/-- Across a space, the loop of `tokenize` is compositional: on
`s1 ++ ' ' :: s2`, with no terminator in `s1`, it writes the tokens it
writes on `s1` followed by those it writes on `s2` when entered with a line
counter that `f` maps to the one the run on `s1` leaves, with their lines
mapped by `f`. -/
theorem tokenize_scan_append_space (s1 s2 : List Char) (ln ln2 : Nat) (f : Nat → Nat)
    (hf : ∀ x, f ((x + 1) % (SIZE_MAX + 1)) = (f x + 1) % (SIZE_MAX + 1))
    (st1 st2 : LexState) (hnul : ∀ c ∈ s1, c ≠ NUL)
    (hlen : strlen (s1 ++ ' ' :: s2) ≤ INT_MAX)
    (h1 : tokenize_scan s1 ln = .ok st1) (h2 : tokenize_scan s2 ln2 = .ok st2)
    (hd : st1.line_number = f ln2) :
    ∃ st, tokenize_scan (s1 ++ ' ' :: s2) ln = .ok st ∧
      st.tokens = st1.tokens ++ st2.tokens.map (map_line f) ∧
      st.line_number = f st2.line_number := by
  have hl1 := strlen_of_no_nul s1 hnul
  have hlA := strlen_append_space s1 s2 hnul
  have hlen1 : strlen s1 ≤ INT_MAX := by omega
  have hlen2 : strlen s2 ≤ INT_MAX := by omega
  obtain ⟨hrun1, hidx1⟩ := (tokenize_scan_iff_run s1 ln st1 hlen1).mp h1
  obtain ⟨hrun2, hidx2⟩ := (tokenize_scan_iff_run s2 ln2 st2 hlen2).mp h2
  -- the iterations on `s1`
  obtain ⟨rA, hrunA, hsimA⟩ := run_sim (s1 ++ ' ' :: s2) s1 0 (fun x => x) []
    (fun _ => rfl) (by omega) hlen _ _ hrun1 (initial_state ln) (sim_initial ln (fun x => x))
    (arrayInv_initial _) (fun j _ hj => agree_left s1 s2 ' ' space_facts.1 j (by omega))
  have hiA : rA.index = s1.length := by
    rw [hsimA.index, hidx1, hl1, Nat.zero_add]
  have harrA : ArrayInv rA := hrunA.arrayInv (arrayInv_initial _)
  -- the skip of the space
  have hc : char_at (s1 ++ ' ' :: s2) rA.index = ' ' := by
    rw [hiA]
    have := char_at_append_right s1 (' ' :: s2) 0
    rw [Nat.add_zero] at this
    rw [this]
    rfl
  have hstep := tokenize_step_space (s1 ++ ' ' :: s2) rA (by rw [hc]; exact space_facts.2.1)
  rw [hc, if_neg space_facts.2.2.2] at hstep
  have hltA : rA.index < strlen (s1 ++ ' ' :: s2) := by omega
  have hrunA2 := hrunA.trans (Run.single hltA hstep)
  -- the iterations on `s2`
  have hnul2 : ∀ c ∈ s1 ++ [' '], c ≠ NUL := by
    intro c hc
    rw [List.mem_append, List.mem_singleton] at hc
    rcases hc with hc | hc
    · exact hnul c hc
    · rw [hc]; exact space_facts.2.2.1
  have hoff : (s1 ++ [' ']).length = s1.length + 1 := by simp
  have hsim0 : Sim (s1 ++ [' ']).length f st1.tokens
      { rA with line_number := rA.line_number, index := rA.index + 1 } (initial_state ln2) := by
    constructor
    · show rA.index + 1 = (s1 ++ [' ']).length + 0
      rw [hiA, hoff]
    · show rA.line_number = f ln2
      rw [hsimA.line, hd]
    · show rA.tokens = st1.tokens ++ List.map (map_line f) []
      rw [hsimA.tokens, map_map_line_id]
      simp
  obtain ⟨rB, hrunB, hsimB⟩ := run_sim (s1 ++ ' ' :: s2) s2 (s1 ++ [' ']).length f st1.tokens
    hf (by omega) hlen _ _ hrun2 _ hsim0 (hrunA2.arrayInv (arrayInv_initial _))
    (fun j _ _ => by rw [append_space_eq]; exact agree_right (s1 ++ [' ']) s2 j)
  have hiB : rB.index = strlen (s1 ++ ' ' :: s2) := by
    rw [hsimB.index, hidx2, hlA, hoff]
    omega
  exact ⟨rB, (tokenize_scan_iff_run _ ln rB hlen).mpr ⟨hrunA2.trans hrunB, hiB⟩,
    hsimB.tokens, hsimB.line⟩

/-! ## Characters of the spellings -/

theorem spelling_chars (source : List Char) (st : LexState) (hinv : TokenInv source st) :
    ∀ t ∈ st.tokens, ∀ c ∈ source_spelling t, lexeme_char c = true := by
  intro t ht c hc
  have h1 : c ∈ (st.tokens.map source_spelling).flatten :=
    List.mem_flatten.mpr ⟨source_spelling t, List.mem_map.mpr ⟨t, ht, rfl⟩, hc⟩
  rw [hinv.spellings, List.mem_filter] at h1
  exact h1.2

/-! ## Identifiers joined by spaces -/

theorem identifier_facts (id : List Char) (h : is_identifier id = true) :
    (∀ c ∈ id, identifier_char c = true) ∧ (∀ c ∈ id, c ≠ NUL) ∧ 0 < id.length ∧
    (isalpha (char_at id 0) || char_at id 0 == '_') = true := by
  cases id with
  | nil => simp [is_identifier] at h
  | cons c t =>
    simp only [is_identifier, Bool.and_eq_true, List.all_eq_true] at h
    refine ⟨h.2, ?_, by simp, ?_⟩
    · intro x hx hn
      have := h.2 x hx
      rw [hn, identifier_char_NUL] at this
      cases this
    · simpa [char_at] using h.1

theorem tokenize_scan_nil (ln : Nat) : tokenize_scan [] ln = .ok (initial_state ln) := rfl

/-- On a single identifier shorter than 64 characters that is no keyword,
the loop of `tokenize` writes the Identifier token. -/
theorem tokenize_scan_single_identifier (id : List Char) (ln : Nat)
    (h : is_identifier id = true) (hk : id ∉ keywords) (hshort : id.length < 64) :
    ∃ st, tokenize_scan id ln = .ok st ∧ st.line_number = ln ∧
      st.tokens = [⟨.TOKEN_IDENTIFIER, id, ln⟩] := by
  obtain ⟨hall, hnul, hpos, hhead⟩ := identifier_facts id h
  have hlen := strlen_of_no_nul id hnul
  have hint : strlen id ≤ INT_MAX := by
    rw [hlen]
    unfold INT_MAX
    omega
  have hrun : (id.drop 0).takeWhile identifier_char = id := by
    rw [List.drop_zero, List.takeWhile_eq_self_iff]
    exact hall
  have h0 : (initial_state ln).index = 0 := rfl
  have hstep := step_identifier_defined id (initial_state ln) hhead
    (by rw [h0, hrun]; exact hshort)
    (by rw [h0, hrun, Nat.zero_add, ← hlen]; exact hint) (arrayInv_initial ln)
  rw [h0, hrun] at hstep
  have hcl : classify_keyword_or_identifier id (initial_state ln).line_number
      = ⟨.TOKEN_IDENTIFIER, id, ln⟩ := by
    have := classify_identifier id ln hint (by rw [cstr_eq_self id hnul]; exact hk)
    rw [cstr_eq_self id hnul] at this
    exact this
  rw [hcl] at hstep
  refine ⟨_, (tokenize_scan_iff_run id ln _ hint).mpr
    ⟨Run.single (by rw [h0, hlen]; exact hpos) hstep, ?_⟩, rfl, rfl⟩
  show 0 + id.length = strlen id
  rw [hlen, Nat.zero_add]

theorem intercalate_cons_cons (sep a b : List Char) (l : List (List Char)) :
    List.intercalate sep (a :: b :: l) = a ++ sep ++ List.intercalate sep (b :: l) := by
  simp [List.intercalate, List.intersperse]

/-- On identifiers shorter than 64 characters that are no keywords, joined
by single spaces into a buffer within the range of `int`, the loop of
`tokenize` writes one Identifier token for each, in order. -/
theorem tokenize_scan_identifier_list (ln : Nat) (ids : List (List Char))
    (hid : ∀ id ∈ ids, is_identifier id = true ∧ id ∉ keywords)
    (hshort : ∀ id ∈ ids, id.length < 64)
    (hlen : strlen (List.intercalate [' '] ids) ≤ INT_MAX) :
    ∃ st, tokenize_scan (List.intercalate [' '] ids) ln = .ok st ∧ st.line_number = ln ∧
      st.tokens = ids.map (fun id => ⟨.TOKEN_IDENTIFIER, id, ln⟩) := by
  induction ids with
  | nil => exact ⟨_, tokenize_scan_nil ln, rfl, rfl⟩
  | cons a rest ih =>
    obtain ⟨ha, hka⟩ := hid a (List.mem_cons_self _ _)
    obtain ⟨st1, h1, hl1, ht1⟩ := tokenize_scan_single_identifier a ln ha hka
      (hshort a (List.mem_cons_self _ _))
    have hnul := (identifier_facts a ha).2.1
    cases rest with
    | nil =>
      have he : List.intercalate [' '] [a] = a := by simp [List.intercalate, List.intersperse]
      rw [he]
      exact ⟨st1, h1, hl1, by rw [ht1]; rfl⟩
    | cons b rest2 =>
      have he : List.intercalate [' '] (a :: b :: rest2)
          = a ++ ' ' :: List.intercalate [' '] (b :: rest2) := by
        rw [intercalate_cons_cons]
        simp
      rw [he] at hlen ⊢
      have hlA := strlen_append_space a (List.intercalate [' '] (b :: rest2)) hnul
      obtain ⟨st2, h2, hl2, ht2⟩ := ih (fun id hmem => hid id (List.mem_cons_of_mem _ hmem))
        (fun id hmem => hshort id (List.mem_cons_of_mem _ hmem)) (by omega)
      obtain ⟨st, hst, ht, hl⟩ := tokenize_scan_append_space a _ ln ln (fun x => x)
        (fun _ => rfl) st1 st2 hnul hlen h1 h2 hl1
      refine ⟨st, hst, by rw [hl, hl2], ?_⟩
      rw [ht, ht1, map_map_line_id, ht2]
      rfl

/-! ## Buffers beyond the range of int -/

theorem strlen_replicate (n : Nat) (c : Char) (hc : c ≠ NUL) :
    strlen (List.replicate n c) = n := by
  rw [strlen_of_no_nul _ (fun x hx => by rw [List.eq_of_mem_replicate hx]; exact hc),
    List.length_replicate]

theorem char_at_replicate (n : Nat) (c : Char) (i : Nat) (hi : i < n) :
    char_at (List.replicate n c) i = c := by
  have h : i < (List.replicate n c).length := by rw [List.length_replicate]; exact hi
  unfold char_at
  rw [List.getD_eq_getElem _ _ h]
  exact List.getElem_replicate _ _

/-- A buffer of one repeated character that is neither a digit, a letter
nor an underscore has no digit run and no identifier run. -/
theorem runs_fit_replicate (n : Nat) (c : Char) (hc : c ≠ NUL) (hd : isdigit c = false)
    (ha : (isalpha c || c == '_') = false) : runs_fit (List.replicate n c) := by
  intro i hi
  rw [strlen_replicate n c hc] at hi
  rw [char_at_replicate n c i hi]
  exact ⟨fun h _ => absurd h (by rw [hd]; simp), fun h _ => absurd h (by rw [ha]; simp)⟩

/-- On a buffer whose length, narrowed to `int`, is zero or negative, the
loop of `tokenize` is not entered. -/
theorem tokenize_scan_of_nonpos (source : List Char) (ln : Nat)
    (h : int_of_size_t (strlen source) ≤ 0) :
    tokenize_scan source ln = .ok (initial_state ln) := by
  unfold tokenize_scan
  simp only []
  have h1 : ¬ (((initial_state ln).index : Nat) : Int) < int_of_size_t (strlen source) := by
    simp only [initial_state]
    omega
  cases (int_of_size_t (strlen source)).toNat <;> simp only [tokenize_loop, if_neg h1]

theorem tokenize_of_nonpos (source : List Char) (ln : Nat)
    (h : int_of_size_t (strlen source) ≤ 0) :
    tokenize source ln = .ok (after_eof (initial_state ln)) :=
  tokenize_of_scan source ln _ (tokenize_scan_of_nonpos source ln h)
    (by simp [initial_state])

/-! ## Runs that stay within their buffers -/

/-- A run that stays within its buffers leaves the loop with the count below
the capacity and returns the state after the store of the end marker. -/
theorem tokenize_in_bounds (source : List Char) (ln : Nat) (hb : in_bounds source ln = true) :
    ∃ st, tokenize_scan source ln = .ok st ∧ st.token_count < st.capacity ∧
      tokenize source ln = .ok (after_eof st) := by
  obtain ⟨r, hr⟩ := tokenize_of_in_bounds source ln hb
  obtain ⟨st, hst, hc, rfl⟩ := tokenize_ok source ln r hr
  exact ⟨st, hst, hc, hr⟩

/-- A run that completes its loop and does not write the token array past
its end leaves the loop with the count below the capacity and returns the
state after the store of the end marker. -/
theorem tokenize_of_array_in_bounds (source : List Char) (ln : Nat) (st : LexState)
    (hst : tokenize_scan source ln = .ok st) (ha : array_in_bounds source ln = true) :
    st.token_count < st.capacity ∧ tokenize source ln = .ok (after_eof st) := by
  by_cases hc : st.token_count < st.capacity
  · exact ⟨hc, tokenize_of_scan source ln st hst hc⟩
  · have := tokenize_overflow_of_scan source ln st hst hc
    unfold array_in_bounds at ha
    rw [this] at ha
    cases ha

/-- The run of `tokenize` stays within its buffers on every buffer within the
range of `int` whose digit runs and identifier runs fit their buffers and on
which the end marker is stored within the token array. -/
theorem in_bounds_of_runs_fit (source : List Char) (ln : Nat) (hlen : strlen source ≤ INT_MAX)
    (hfit : runs_fit source) (harr : array_in_bounds source ln = true) :
    in_bounds source ln = true := by
  obtain ⟨r, hr⟩ := tokenize_of_runs_fit source ln hlen hfit harr
  unfold in_bounds
  rw [hr]

theorem create_token_EOF (n : Nat) :
    create_token .TOKEN_EOF "EOF".toList n = ⟨.TOKEN_EOF, "EOF".toList, n⟩ := by
  unfold create_token
  rw [strdup_EOF]

theorem after_eof_tokens (st : LexState) :
    (after_eof st).tokens = st.tokens ++ [⟨.TOKEN_EOF, "EOF".toList, st.line_number⟩] := by
  unfold after_eof
  rw [create_token_EOF]

/-- The token sequence of a run that stays within its buffers: the tokens
written by the loop, none of kind EOF, none with an empty text, the Unknown
ones a lone `&` or `|`, followed by the end marker in the slot
`token_count`, below the capacity. -/
theorem tokenize_in_bounds_tokens (source : List Char) (ln : Nat)
    (hb : in_bounds source ln = true) :
    ∃ r, tokenize source ln = .ok r ∧
      r.tokens.length = r.token_count + 1 ∧ r.token_count < r.capacity ∧
      r.tokens.getLast? = some ⟨.TOKEN_EOF, "EOF".toList, r.line_number⟩ ∧
      (∀ t ∈ r.tokens.dropLast, t.type ≠ .TOKEN_EOF) ∧
      (∀ t ∈ r.tokens, t.value ≠ []) ∧
      (∀ t ∈ r.tokens, t.type = .TOKEN_UNKNOWN → t.value = "&".toList ∨ t.value = "|".toList) := by
  obtain ⟨st, hst, hc, hr⟩ := tokenize_in_bounds source ln hb
  obtain ⟨_, harr, htok, _⟩ := tokenize_scan_inv source ln st hst
  refine ⟨_, hr, ?_, hc, ?_, ?_, ?_, ?_⟩
  · rw [after_eof_tokens, List.length_append, List.length_singleton]
    show st.tokens.length + 1 = st.token_count + 1
    rw [harr.count_eq]
  · rw [after_eof_tokens, List.getLast?_concat]
    rfl
  · rw [after_eof_tokens, List.dropLast_concat]
    exact harr.no_eof
  · intro t ht
    rw [after_eof_tokens, List.mem_append, List.mem_singleton] at ht
    rcases ht with ht | ht
    · exact htok.value_ne t ht
    · rw [ht]
      simp
  · intro t ht hty
    rw [after_eof_tokens, List.mem_append, List.mem_singleton] at ht
    rcases ht with ht | ht
    · exact htok.unknown t ht hty
    · rw [ht] at hty
      cases hty

/-- The call of `classify_delimiter` is guarded: a character before the
terminator that passes the `strchr` test on the delimiter string is one of
the eight delimiter characters, for which the token is a Delimiter. -/
theorem classify_delimiter_guarded (source : List Char) (i ln : Nat) (hi : i < strlen source)
    (hs : strchr delimiter_chars (char_at source i) = true) :
    char_at source i ∈ delimiter_chars ∧
    classify_delimiter (char_at source i) ln = ⟨.TOKEN_DELIMITER, [char_at source i], ln⟩ := by
  rw [strchr_delimiter_chars _ (char_at_ne_nul source i hi)] at hs
  exact ⟨by simpa using hs, classify_delimiter_of_mem _ _ hs⟩

theorem add_mod_commutes (d : Nat) :
    ∀ x, ((x + 1) % (SIZE_MAX + 1) + d) % (SIZE_MAX + 1) =
      ((x + d) % (SIZE_MAX + 1) + 1) % (SIZE_MAX + 1) := by
  intro x
  unfold SIZE_MAX
  omega

theorem map_line_add_mod (d : Nat) (t : Token) (h : t.line_num + d ≤ SIZE_MAX) :
    map_line (fun x => (x + d) % (SIZE_MAX + 1)) t = shift_line d t := by
  unfold map_line shift_line
  simp only []
  rw [Nat.mod_eq_of_lt (by omega)]

theorem fifty_not_a_capacity : ∀ k, fifty_identifiers.length ≠ 10 * 2 ^ k := by
  intro k h
  have h50 : fifty_identifiers.length = 50 := by decide
  rw [h50] at h
  rcases Nat.lt_or_ge k 3 with hk | hk
  · interval_cases k <;> simp at h
  · have : 2 ^ 3 ≤ 2 ^ k := Nat.pow_le_pow_right (by omega) hk
    omega

theorem int_of_size_t_beyond :
    int_of_size_t 2147483648 ≤ 0 ∧ int_of_size_t 2147483649 ≤ 0 ∧
    int_of_size_t 2147483650 ≤ 0 ∧ int_of_size_t 4294967301 = 5 := by decide

theorem strlen_joined_a (n : Nat) :
    strlen (List.intercalate [' '] (List.replicate (n + 1) ['a'])) = 2 * n + 1 := by
  induction n with
  | zero => decide
  | succ m ih =>
    have h1 : List.replicate (m + 1 + 1) ['a'] = ['a'] :: List.replicate (m + 1) ['a'] :=
      List.replicate_succ _ _
    have h2 : List.replicate (m + 1) ['a'] = ['a'] :: List.replicate m ['a'] :=
      List.replicate_succ _ _
    rw [h1]
    rw [h2] at ih ⊢
    rw [intercalate_cons_cons]
    have h3 : ['a'] ++ [' '] ++ List.intercalate [' '] (['a'] :: List.replicate m ['a']) =
        'a' :: ' ' :: List.intercalate [' '] (['a'] :: List.replicate m ['a']) := rfl
    rw [h3]
    unfold strlen at ih ⊢
    rw [cstr_cons_of_ne _ _ (by decide), cstr_cons_of_ne _ _ (by decide)]
    simp only [List.length_cons, ih]
    omega

/-! ## The claims -/

/-- C1, failing input. On `int f(a, b, c);`, ten tokens, the loop of
`tokenize` leaves the array of capacity 10 full, and the statement after the
loop writes the end marker to `tokens[10]`, past the end of the array:
`tokenize` has no defined result, where the claim asks for a token sequence
that ends with the EOF token. -/
theorem tokenize_marker_past_full_array :
    (tokenize_scan "int f(a, b, c);".toList 1).toOption.map
      (fun st => (st.tokens.length, st.token_count, st.capacity)) = some (10, 10, 10) ∧
    tokenize "int f(a, b, c);".toList 1 = .error .heap_overflow :=
  ⟨by decide, by rfl⟩

/-- C2, counterexample. The length of the lexeme is held in an `int`: the
lexeme `break` followed by `2^32` letters `x`, which is no keyword, has the
length `2^32 + 5`, which narrows to 5, and `classify_keyword_or_identifier`
returns the Keyword token `BREAK` for it. -/
theorem classify_keyword_length_wraps :
    cstr ("break".toList ++ List.replicate 4294967296 'x') ∉ keywords ∧
    classify_keyword_or_identifier ("break".toList ++ List.replicate 4294967296 'x') 1
      = ⟨.TOKEN_KEYWORD, "BREAK".toList, 1⟩ := by
  have hlen : (List.replicate 4294967296 'x').length = 4294967296 := List.length_replicate _ _
  have hnul : ∀ c ∈ List.replicate 4294967296 'x', c ≠ NUL := fun c hc => by
    rw [List.eq_of_mem_replicate hc]
    decide
  generalize List.replicate 4294967296 'x' = t at hlen hnul
  have hb : ∀ c ∈ "break".toList, c ≠ NUL := by decide
  have hn : ∀ c ∈ "break".toList ++ t, c ≠ NUL := by
    intro c hc
    rw [List.mem_append] at hc
    rcases hc with hc | hc
    · exact hb c hc
    · exact hnul c hc
  have h5 : "break".toList.length = 5 := rfl
  have hs : strlen ("break".toList ++ t) = 4294967301 := by
    rw [strlen_of_no_nul _ hn, List.length_append, hlen, h5]
  constructor
  · rw [cstr_eq_self _ hn]
    intro hk
    have h6 : ∀ k ∈ keywords, k.length ≤ 6 := by decide
    have := h6 _ hk
    rw [List.length_append, hlen, h5] at this
    omega
  · have c0 : char_at ("break".toList ++ t) 0 = 'b' := by
      rw [char_at_append_left _ _ 0 (by decide)]
      rfl
    have c1 : char_at ("break".toList ++ t) 1 = 'r' := by
      rw [char_at_append_left _ _ 1 (by decide)]
      rfl
    have c2 : char_at ("break".toList ++ t) 2 = 'e' := by
      rw [char_at_append_left _ _ 2 (by decide)]
      rfl
    have c3 : char_at ("break".toList ++ t) 3 = 'a' := by
      rw [char_at_append_left _ _ 3 (by decide)]
      rfl
    have c4 : char_at ("break".toList ++ t) 4 = 'k' := by
      rw [char_at_append_left _ _ 4 (by decide)]
      rfl
    unfold classify_keyword_or_identifier
    simp only [hs, int_of_size_t_beyond.2.2.2, c0, c1, c2, c3, c4, if_true, create_token]
    decide

/-- C2, amended. On lexemes of at most `INT_MAX` characters, the lengths an
`int` holds, `classify_keyword_or_identifier` is an exact, case-sensitive,
full-length keyword matcher.  For every such lexeme (the C string
`cstr lexeme` stored at the pointer) it returns a Keyword token iff the
lexeme is exactly one of `break`, `int`, `if`, `return`, `while`, then with
the text `BREAK`, `INT`, `IF`, `RETURN`, `WHILE` respectively; for every
other such lexeme it returns an Identifier token whose text is the lexeme
unchanged, in particular for `integers`, `iffy`, `in`, `whil` and `While`. -/
theorem classify_keyword_or_identifier_exact (lexeme : List Char) (line_number : Nat)
    (hlen : strlen lexeme ≤ INT_MAX) :
    ((classify_keyword_or_identifier lexeme line_number).type = .TOKEN_KEYWORD ↔
      cstr lexeme ∈ keywords) ∧
    (cstr lexeme = "break".toList → classify_keyword_or_identifier lexeme line_number
      = ⟨.TOKEN_KEYWORD, "BREAK".toList, line_number⟩) ∧
    (cstr lexeme = "int".toList → classify_keyword_or_identifier lexeme line_number
      = ⟨.TOKEN_KEYWORD, "INT".toList, line_number⟩) ∧
    (cstr lexeme = "if".toList → classify_keyword_or_identifier lexeme line_number
      = ⟨.TOKEN_KEYWORD, "IF".toList, line_number⟩) ∧
    (cstr lexeme = "return".toList → classify_keyword_or_identifier lexeme line_number
      = ⟨.TOKEN_KEYWORD, "RETURN".toList, line_number⟩) ∧
    (cstr lexeme = "while".toList → classify_keyword_or_identifier lexeme line_number
      = ⟨.TOKEN_KEYWORD, "WHILE".toList, line_number⟩) ∧
    (cstr lexeme ∉ keywords → classify_keyword_or_identifier lexeme line_number
      = ⟨.TOKEN_IDENTIFIER, cstr lexeme, line_number⟩) ∧
    (∀ l ∈ ["integers".toList, "iffy".toList, "in".toList, "whil".toList, "While".toList],
      classify_keyword_or_identifier l line_number = ⟨.TOKEN_IDENTIFIER, l, line_number⟩) := by
  refine ⟨?_, classify_break _ _, classify_int _ _, classify_if _ _, classify_return _ _,
    classify_while _ _, classify_identifier _ _ hlen, ?_⟩
  · constructor
    · intro hk
      by_contra hn
      rw [classify_identifier _ _ hlen hn] at hk
      simp at hk
    · intro hk
      simp only [keywords, List.mem_cons, List.mem_singleton, List.not_mem_nil, or_false] at hk
      rcases hk with hk | hk | hk | hk | hk
      · rw [classify_break _ _ hk]
      · rw [classify_int _ _ hk]
      · rw [classify_if _ _ hk]
      · rw [classify_return _ _ hk]
      · rw [classify_while _ _ hk]
  · intro l hl
    have hc : cstr l = l ∧ l ∉ keywords ∧ strlen l ≤ INT_MAX := by
      simp only [List.mem_cons, List.mem_singleton, List.not_mem_nil, or_false] at hl
      rcases hl with hl | hl | hl | hl | hl <;> subst hl <;> decide
    have := classify_identifier l line_number hc.2.2 (by rw [hc.1]; exact hc.2.1)
    rw [hc.1] at this
    exact this

/-- C2, witness: the lexemes `while` and `whil`. -/
theorem classify_keyword_or_identifier_exact_witness :
    strlen "while".toList ≤ INT_MAX ∧
    classify_keyword_or_identifier "while".toList 3 = ⟨.TOKEN_KEYWORD, "WHILE".toList, 3⟩ ∧
    classify_keyword_or_identifier "whil".toList 3 = ⟨.TOKEN_IDENTIFIER, "whil".toList, 3⟩ :=
  ⟨by decide,
    (classify_keyword_or_identifier_exact "while".toList 3 (by decide)).2.2.2.2.2.1 rfl,
    (classify_keyword_or_identifier_exact "while".toList 3 (by decide)).2.2.2.2.2.2.2
      "whil".toList (by decide)⟩

/-- C4, counterexample. The length of the buffer is held in an `int`: on a
buffer of `2^31` newline characters `length` is negative, the loop is not
entered, and the end marker carries the line 1, not 1 plus the `2^31`
newline characters of the input. -/
theorem tokenize_line_beyond_int :
    (cstr (List.replicate 2147483648 '\n')).count '\n' = 2147483648 ∧
    (tokenize (List.replicate 2147483648 '\n') 1).toOption.map (fun r => r.tokens) =
      some [⟨.TOKEN_EOF, "EOF".toList, 1⟩] := by
  have hs := strlen_replicate 2147483648 '\n' (by decide)
  constructor
  · rw [cstr_eq_self _ (fun x hx => by rw [List.eq_of_mem_replicate hx]; decide)]
    exact List.count_replicate_self _ _
  · rw [tokenize_of_nonpos _ _ (by rw [hs]; exact int_of_size_t_beyond.1)]
    rfl

/-- C4, amended. Started with the line counter at 1, on every input buffer
of at most `INT_MAX` characters, the lengths the `int` variable `length`
holds, on which the run stays within its buffers, `tokenize` gives every
token the 1-based line on which its lexeme starts: the line of each token is
1 plus the number of newline characters of the input before the index at
which the token starts (the recorded `starts`: strictly increasing, each the
index of a lexeme character of the input at which the source spelling of the
token stands, that of the marker being the length of the input), and the
line of the EndOfInput marker is 1 plus the number of newline characters of
the whole input.  On `"a\nb"` the tokens are Identifier `a` at line 1,
Identifier `b` at line 2 and EOF at line 2. -/
theorem tokenize_line_numbers (source : List Char) :
    (strlen source ≤ INT_MAX → in_bounds source 1 = true →
      ∃ r, tokenize source 1 = .ok r ∧
        List.Forall₂ (fun t s => t.line_num = 1 + newlines_before source s ∧
            (t.type ≠ .TOKEN_EOF → source_spelling t <+: source.drop s))
          r.tokens r.starts ∧
        (∀ s ∈ r.starts.dropLast, s < strlen source ∧ lexeme_char (char_at source s) = true) ∧
        r.starts.Pairwise (fun a b => a < b) ∧
        r.starts.getLast? = some (strlen source) ∧
        r.tokens.getLast? = some ⟨.TOKEN_EOF, "EOF".toList, 1 + (cstr source).count '\n'⟩) ∧
    (tokenize "a\nb".toList 1).toOption.map (fun r => r.tokens) =
      some [⟨.TOKEN_IDENTIFIER, "a".toList, 1⟩, ⟨.TOKEN_IDENTIFIER, "b".toList, 2⟩,
            ⟨.TOKEN_EOF, "EOF".toList, 2⟩] := by
  refine ⟨?_, by decide⟩
  intro hlen hb
  obtain ⟨st, hst, hc, hr⟩ := tokenize_in_bounds source 1 hb
  obtain ⟨hinv, _, _, _⟩ := tokenize_scan_inv source 1 st hst
  have hidx := tokenize_scan_index source 1 st hlen hst
  have hcount := count_le_strlen source
  have hline : ∀ i, i ≤ strlen source → line_at source 1 i = 1 + newlines_before source i := by
    intro i hi
    have := newlines_before_le source i hi
    exact line_at_eq_add source 1 i (by unfold INT_MAX at hlen; unfold SIZE_MAX; omega)
  refine ⟨_, hr, ?_, ?_, ?_, ?_, ?_⟩
  · rw [after_eof_tokens]
    apply List.rel_append
    · exact hinv.token_line.imp
        (fun t s h => ⟨by rw [h.1, hline s (Nat.le_of_lt h.2.1)], fun _ => h.2.2.2⟩)
    · refine List.Forall₂.cons ⟨?_, fun h => absurd rfl h⟩ List.Forall₂.nil
      show st.line_number = _
      rw [hinv.line_eq, hline _ hinv.index_le]
  · show ∀ s ∈ (st.starts ++ [st.index]).dropLast, _
    rw [List.dropLast_concat]
    exact forall₂_right _ _ (fun _ _ h => ⟨h.2.1, h.2.2.1⟩) _ _ hinv.token_line
  · show (st.starts ++ [st.index]).Pairwise (fun a b => a < b)
    rw [List.pairwise_append]
    refine ⟨hinv.starts_sorted, List.pairwise_singleton _ _, ?_⟩
    intro a ha b hb
    rw [List.mem_singleton] at hb
    rw [hb]
    exact hinv.starts_lt a ha
  · show (st.starts ++ [st.index]).getLast? = _
    rw [List.getLast?_concat, hidx]
  · rw [after_eof_tokens, List.getLast?_concat, hinv.line_eq, hline _ hinv.index_le, hidx,
      newlines_before_strlen]

/-- C4, witness: the input `a\nb`. -/
theorem tokenize_line_numbers_witness :
    strlen "a\nb".toList ≤ INT_MAX ∧ in_bounds "a\nb".toList 1 = true ∧
    ∃ r, tokenize "a\nb".toList 1 = .ok r ∧
      List.Forall₂ (fun t s => t.line_num = 1 + newlines_before "a\nb".toList s ∧
          (t.type ≠ .TOKEN_EOF → source_spelling t <+: "a\nb".toList.drop s))
        r.tokens r.starts ∧
      (∀ s ∈ r.starts.dropLast,
        s < strlen "a\nb".toList ∧ lexeme_char (char_at "a\nb".toList s) = true) ∧
      r.starts.Pairwise (fun a b => a < b) ∧
      r.starts.getLast? = some (strlen "a\nb".toList) ∧
      r.tokens.getLast? = some ⟨.TOKEN_EOF, "EOF".toList, 1 + (cstr "a\nb".toList).count '\n'⟩ :=
  ⟨by decide, by decide, (tokenize_line_numbers "a\nb".toList).1 (by decide) (by decide)⟩

/-- C5, failing input. On a run of 32 digits `generate_number` fills its
32-byte buffer and leaves no room for the terminator: it has no defined
result, where the claim asks for the whole run as the token text. -/
theorem generate_number_overflows_at_32_digits :
    generate_number (List.replicate 32 '7') 0 1 = .error .buffer_overflow := by rfl

/-- C6, failing input. On a run of 64 letters the identifier loop of
`tokenize` fills its 64-byte buffer and leaves no room for the terminator:
`tokenize` has no defined result, where the claim asks for one Identifier
token with the whole run as its text. -/
theorem tokenize_overflows_at_64_letters :
    tokenize (List.replicate 64 'a') 1 = .error .buffer_overflow := by rfl

/-- C8, counterexample. The length of the buffer is held in an `int`: on a
buffer of `2^31` characters `@`, all of them unrecognized, `length` is
negative, the loop is not entered, and no diagnostic is emitted. -/
theorem tokenize_diagnostics_beyond_int :
    unrecognized '@' = true ∧ strlen (List.replicate 2147483648 '@') = 2147483648 ∧
    (tokenize (List.replicate 2147483648 '@') 1).toOption.map (fun r => r.diagnostics) =
      some [] := by
  have hs := strlen_replicate 2147483648 '@' (by decide)
  refine ⟨by decide, hs, ?_⟩
  rw [tokenize_of_nonpos _ _ (by rw [hs]; exact int_of_size_t_beyond.1)]
  rfl

/-- C8, amended. Unrecognized characters are skipped with exactly one
diagnostic each and no token.  On every input of at most `INT_MAX`
characters, the lengths the `int` variable `length` holds, on which the run
stays within its buffers, the diagnostics `tokenize` emits are, in source
order, one for each character of the input that is not whitespace, not a
digit, not a letter or underscore, not in the operator set and not in the
delimiter set, each with that character and the value of the line counter
there; an iteration at such a character appends that diagnostic, moves one
character on and leaves the token array as it is.  On `"a @ b"` the tokens
are Identifier `a`, Identifier `b`, EOF and the only diagnostic is for `@`
at line 1. -/
theorem tokenize_diagnostics (source : List Char) (line_number : Nat) :
    (strlen source ≤ INT_MAX → in_bounds source line_number = true →
      ∃ r, tokenize source line_number = .ok r ∧
        r.diagnostics = expected_diagnostics source line_number (strlen source)) ∧
    (∀ st : LexState, st.index < strlen source →
      unrecognized (char_at source st.index) = true →
      tokenize_step source st = .ok { st with
        diagnostics := st.diagnostics ++ [(char_at source st.index, st.line_number)]
        index := st.index + 1 }) ∧
    (tokenize "a @ b".toList 1).toOption.map
        (fun r => (r.tokens.map (fun t => (t.type, t.value)), r.diagnostics)) =
      some ([(.TOKEN_IDENTIFIER, "a".toList), (.TOKEN_IDENTIFIER, "b".toList),
             (.TOKEN_EOF, "EOF".toList)], [('@', 1)]) := by
  refine ⟨?_, fun st hlt hu => tokenize_step_unrecognized source st hlt hu, by decide⟩
  intro hlen hb
  obtain ⟨st, hst, hc, hr⟩ := tokenize_in_bounds source line_number hb
  obtain ⟨hinv, _, _, _⟩ := tokenize_scan_inv source line_number st hst
  have hidx := tokenize_scan_index source line_number st hlen hst
  refine ⟨_, hr, ?_⟩
  show st.diagnostics = _
  rw [hinv.diag_eq, hidx]

/-- C8, witness: the input `a @ b`. -/
theorem tokenize_diagnostics_witness :
    strlen "a @ b".toList ≤ INT_MAX ∧ in_bounds "a @ b".toList 1 = true ∧
    expected_diagnostics "a @ b".toList 1 (strlen "a @ b".toList) = [('@', 1)] ∧
    ∃ r, tokenize "a @ b".toList 1 = .ok r ∧
      r.diagnostics = expected_diagnostics "a @ b".toList 1 (strlen "a @ b".toList) :=
  ⟨by decide, by decide, by decide,
    (tokenize_diagnostics "a @ b".toList 1).1 (by decide) (by decide)⟩

/-- C9. On `"a <= b"` `tokenize` yields exactly the four tokens Identifier
`a`, RelationalOperator `<=`, Identifier `b`, EOF; none of them is a
RelationalOperator `<` or an AssignmentOperator `=`. -/
theorem tokenize_a_le_b :
    (tokenize "a <= b".toList 1).toOption.map (fun r => r.tokens) =
      some [⟨.TOKEN_IDENTIFIER, "a".toList, 1⟩, ⟨.TOKEN_RELATIONAL_OPERATOR, "<=".toList, 1⟩,
            ⟨.TOKEN_IDENTIFIER, "b".toList, 1⟩, ⟨.TOKEN_EOF, "EOF".toList, 1⟩] ∧
    (tokenize "a <= b".toList 1).toOption.map (fun r => r.tokens.any (fun t =>
        (t.type == .TOKEN_RELATIONAL_OPERATOR && t.value == "<".toList) ||
        (t.type == .TOKEN_ASSIGNMENT_OPERATOR && t.value == "=".toList))) = some false := by
  decide

/-- C10. On `"int x = 5;"` `tokenize` yields exactly Keyword `INT`,
Identifier `x`, AssignmentOperator `=`, Number `5`, Delimiter `;`, EOF, in
that order. -/
theorem tokenize_int_x_eq_5 :
    (tokenize "int x = 5;".toList 1).toOption.map (fun r => r.tokens) =
      some [⟨.TOKEN_KEYWORD, "INT".toList, 1⟩, ⟨.TOKEN_IDENTIFIER, "x".toList, 1⟩,
            ⟨.TOKEN_ASSIGNMENT_OPERATOR, "=".toList, 1⟩, ⟨.TOKEN_NUMBER, "5".toList, 1⟩,
            ⟨.TOKEN_DELIMITER, ";".toList, 1⟩, ⟨.TOKEN_EOF, "EOF".toList, 1⟩] := by
  decide

/-- C11, counterexample. The length of the buffer is held in an `int`: on a
buffer of `2^31` semicolons, which has no identifier run and no digit run,
`length` is negative, the loop is not entered and no token comes before
the end marker, while the input without its whitespace and unrecognized
characters is the `2^31` semicolons. -/
theorem tokenize_round_trip_beyond_int :
    runs_fit (List.replicate 2147483648 ';') ∧
    (tokenize (List.replicate 2147483648 ';') 1).toOption.map
      (fun r => (r.tokens.dropLast.map source_spelling).flatten) = some [] ∧
    ((cstr (List.replicate 2147483648 ';')).filter
      (fun c => !isspace c && !unrecognized c)).length = 2147483648 := by
  have hs := strlen_replicate 2147483648 ';' (by decide)
  have hnul : ∀ x ∈ List.replicate 2147483648 ';', x ≠ NUL :=
    fun x hx => by rw [List.eq_of_mem_replicate hx]; decide
  refine ⟨runs_fit_replicate _ _ (by decide) (by decide) (by decide), ?_, ?_⟩
  · rw [tokenize_of_nonpos _ _ (by rw [hs]; exact int_of_size_t_beyond.1)]
    rfl
  · rw [cstr_eq_self _ hnul, List.filter_eq_self.mpr, List.length_replicate]
    intro x hx
    rw [List.eq_of_mem_replicate hx]
    decide

/-- C11, amended. Round trip: for every input of at most `INT_MAX`
characters, the lengths the `int` variable `length` holds, in which every
identifier run is shorter than 64 characters and every digit run shorter
than 32, and on which the store of the end marker is within the token array,
`tokenize` returns, and putting together in order the texts of all tokens
before the EndOfInput marker, each Keyword text replaced by its lowercase
source spelling, gives the input with every whitespace character and every
unrecognized character removed. -/
theorem tokenize_round_trip (source : List Char) (line_number : Nat)
    (hlen : strlen source ≤ INT_MAX) (hfit : runs_fit source)
    (harr : array_in_bounds source line_number = true) :
    ∃ r, tokenize source line_number = .ok r ∧
      (r.tokens.dropLast.map source_spelling).flatten =
        (cstr source).filter (fun c => !isspace c && !unrecognized c) := by
  obtain ⟨st, hst⟩ := tokenize_scan_total source line_number hlen hfit
  obtain ⟨_, hr⟩ := tokenize_of_array_in_bounds source line_number st hst harr
  obtain ⟨_, _, hinv, _⟩ := tokenize_scan_inv source line_number st hst
  have hidx := tokenize_scan_index source line_number st hlen hst
  refine ⟨_, hr, ?_⟩
  rw [after_eof_tokens, List.dropLast_concat, hinv.spellings, hidx, ← cstr_eq_take]
  congr 1
  funext c
  exact lexeme_char_eq c

/-- C11, witness: the input `int x1 = 42; @`. -/
theorem tokenize_round_trip_witness :
    strlen "int x1 = 42; @".toList ≤ INT_MAX ∧ runs_fit "int x1 = 42; @".toList ∧
    array_in_bounds "int x1 = 42; @".toList 1 = true ∧
    ∃ r, tokenize "int x1 = 42; @".toList 1 = .ok r ∧
      (r.tokens.dropLast.map source_spelling).flatten =
        (cstr "int x1 = 42; @".toList).filter (fun c => !isspace c && !unrecognized c) :=
  ⟨by decide, by decide, by decide,
    tokenize_round_trip "int x1 = 42; @".toList 1 (by decide) (by decide) (by decide)⟩

/-- C12, counterexample. The length of the buffer is held in an `int`: the
`2^30 + 1` identifiers `a`, joined by single spaces, make a buffer of
`2^31 + 1` characters, for which `length` is negative; the loop is not
entered and the token sequence is the end marker alone, with no Identifier
token. -/
theorem tokenize_identifiers_beyond_int :
    (∀ id ∈ List.replicate 1073741825 "a".toList, is_identifier id = true ∧ id ∉ keywords) ∧
    (tokenize (List.intercalate " ".toList (List.replicate 1073741825 "a".toList)) 1).toOption.map
      (fun r => r.tokens) = some [⟨.TOKEN_EOF, "EOF".toList, 1⟩] := by
  constructor
  · intro id hid
    rw [List.eq_of_mem_replicate hid]
    decide
  · have hs := strlen_joined_a 1073741824
    have e1 : " ".toList = [' '] := rfl
    have e2 : "a".toList = ['a'] := rfl
    have e3 : (1073741825 : Nat) = 1073741824 + 1 := rfl
    rw [e1, e2, e3,
      tokenize_of_nonpos _ _ (by rw [hs]; exact int_of_size_t_beyond.2.1)]
    rfl

/-- C12, amended. Growth preserves order and content.  For every list of
identifiers that are no keywords, each shorter than 64 characters, that make
a buffer of at most `INT_MAX` characters when joined by single spaces, and
whose number is none of the capacities 10, 20, 40, ... the array takes,
tokenizing them joined by single spaces yields exactly one Identifier token
for each, with the identifiers as texts in the same order, followed by the
EndOfInput marker; `token_count` is their number, below the capacity, which
is the one the doublings reach after that many stores: no token is lost,
duplicated or reordered by the doublings of the capacity. -/
theorem tokenize_identifiers (ids : List (List Char)) (line_number : Nat)
    (hid : ∀ id ∈ ids, is_identifier id = true ∧ id ∉ keywords)
    (hshort : ∀ id ∈ ids, id.length < 64)
    (hlen : strlen (List.intercalate " ".toList ids) ≤ INT_MAX)
    (hn : ∀ k, ids.length ≠ 10 * 2 ^ k) :
    ∃ r, tokenize (List.intercalate " ".toList ids) line_number = .ok r ∧
      r.tokens = ids.map (fun id => ⟨.TOKEN_IDENTIFIER, id, line_number⟩) ++
        [⟨.TOKEN_EOF, "EOF".toList, line_number⟩] ∧
      r.token_count = ids.length ∧ r.capacity = capacity_after ids.length ∧
      r.token_count < r.capacity := by
  have hsp : " ".toList = [' '] := rfl
  rw [hsp] at hlen ⊢
  obtain ⟨st, hst, hl, ht⟩ := tokenize_scan_identifier_list line_number ids hid hshort hlen
  obtain ⟨c1, c2⟩ := tokenize_scan_array _ _ st hst
  have hlt : st.tokens.length = ids.length := by rw [ht, List.length_map]
  rw [hlt] at c1 c2
  have hcap : st.token_count < st.capacity := by
    rw [c1, c2]
    have h1 := (capacity_after_ge ids.length).1
    have h2 : capacity_after ids.length ≠ ids.length := by
      intro h
      obtain ⟨k, hk⟩ := (capacity_after_eq_iff ids.length).mp h
      exact hn k hk
    omega
  refine ⟨_, tokenize_of_scan _ _ st hst hcap, ?_, c1, c2, hcap⟩
  rw [after_eof_tokens, ht, hl]

set_option maxRecDepth 100000 in
/-- C12, witness: fifty identifiers, more than the initial capacity 10, which
is doubled three times, to 80. -/
theorem tokenize_identifiers_witness :
    (∀ id ∈ fifty_identifiers, is_identifier id = true ∧ id ∉ keywords) ∧
    (∀ id ∈ fifty_identifiers, id.length < 64) ∧
    strlen (List.intercalate " ".toList fifty_identifiers) ≤ INT_MAX ∧
    fifty_identifiers.length = 50 ∧ capacity_after 50 = 80 ∧
    ∃ r, tokenize (List.intercalate " ".toList fifty_identifiers) 1 = .ok r ∧
      r.tokens = fifty_identifiers.map (fun id => ⟨.TOKEN_IDENTIFIER, id, 1⟩) ++
        [⟨.TOKEN_EOF, "EOF".toList, 1⟩] ∧
      r.token_count = fifty_identifiers.length ∧
      r.capacity = capacity_after fifty_identifiers.length ∧
      r.token_count < r.capacity :=
  ⟨by decide, by decide, by decide, by decide, by decide,
    tokenize_identifiers fifty_identifiers 1 (by decide) (by decide) (by decide)
      fifty_not_a_capacity⟩

/-- C15, counterexample. For the NUL character, which is no delimiter, the
text of the Unknown token is empty and not the one-character string: the
array `unknown` holds two terminators. -/
theorem classify_delimiter_NUL :
    NUL ∉ delimiter_chars ∧
    classify_delimiter NUL 1 = ⟨.TOKEN_UNKNOWN, [], 1⟩ ∧
    classify_delimiter NUL 1 ≠ ⟨.TOKEN_UNKNOWN, [NUL], 1⟩ := by decide

/-- C15, amended. `classify_delimiter` is a pure table lookup: for every
character `c` and line `n`, if `c` is one of `; , ( ) { } [ ]` it returns a
Delimiter token whose text is the one-character string `c` and whose line is
`n`; for every other character except NUL it returns an Unknown token whose
text is the one-character string `c` and whose line is `n`; for NUL the
Unknown token has the empty text and the line `n`. -/
theorem classify_delimiter_table (c : Char) (n : Nat) :
    (c ∈ delimiter_chars → classify_delimiter c n = ⟨.TOKEN_DELIMITER, [c], n⟩) ∧
    (c ∉ delimiter_chars → c ≠ NUL → classify_delimiter c n = ⟨.TOKEN_UNKNOWN, [c], n⟩) ∧
    (c = NUL → classify_delimiter c n = ⟨.TOKEN_UNKNOWN, [], n⟩) := by
  refine ⟨?_, ?_, ?_⟩
  · intro h
    simp only [delimiter_chars, String.toList, List.mem_cons, List.mem_singleton,
      List.not_mem_nil, or_false] at h
    rcases h with h | h | h | h | h | h | h | h <;> subst h <;>
      simp [classify_delimiter, create_token, strdup, cstr, NUL, List.takeWhile_cons]
  · intro h hn
    simp only [delimiter_chars, String.toList, List.mem_cons, List.mem_singleton,
      List.not_mem_nil, or_false, not_or] at h
    obtain ⟨h1, h2, h3, h4, h5, h6, h7, h8⟩ := h
    simp [classify_delimiter, h1, h2, h3, h4, h5, h6, h7, h8, create_token, strdup, cstr,
      List.takeWhile_cons, hn]
  · intro h
    subst h
    simp [classify_delimiter, create_token, strdup, cstr, NUL, List.takeWhile_cons]

/-- C15, witness: the delimiter `[`, the character `@` and NUL. -/
theorem classify_delimiter_table_witness :
    '[' ∈ delimiter_chars ∧ classify_delimiter '[' 4 = ⟨.TOKEN_DELIMITER, ['['], 4⟩ ∧
    '@' ∉ delimiter_chars ∧ '@' ≠ NUL ∧ classify_delimiter '@' 4 = ⟨.TOKEN_UNKNOWN, ['@'], 4⟩ ∧
    classify_delimiter NUL 4 = ⟨.TOKEN_UNKNOWN, [], 4⟩ :=
  ⟨by decide, (classify_delimiter_table '[' 4).1 (by decide), by decide, by decide,
    (classify_delimiter_table '@' 4).2.1 (by decide) (by decide),
    (classify_delimiter_table NUL 4).2.2 rfl⟩

/-- C16, failing input. With ten tokens the array, of capacity 10, is full
when the loop ends, `token_count` and the capacity both being 10, and
the end marker is stored at index 10 of it, past its end. -/
theorem eof_store_past_capacity :
    (tokenize_scan "a a a a a a a a a a".toList 1).toOption.map
      (fun st => (st.token_count, st.capacity)) = some (10, 10) ∧
    tokenize "a a a a a a a a a a".toList 1 = .error .heap_overflow :=
  ⟨by decide, by rfl⟩

/-- C19, counterexample. The line counter is a `size_t` and wraps: entered
with the counter at `SIZE_MAX`, `tokenize` stamps the identifier of `\na`
and the end marker with the line 0, not `SIZE_MAX + 1`, and leaves the
counter at 0.  And the length of the buffer is held in an `int`: on a buffer
of `2^31 + 1` newline characters `length` is negative, the loop is not
entered and the counter is left at 1, not at 1 plus the number of newline
characters. -/
theorem line_counter_wraps :
    (tokenize "\na".toList SIZE_MAX).toOption.map
      (fun r => (r.tokens.map (fun t => t.line_num), r.line_number)) = some ([0, 0], 0) ∧
    (cstr (List.replicate 2147483649 '\n')).count '\n' = 2147483649 ∧
    (tokenize (List.replicate 2147483649 '\n') 1).toOption.map (fun r => r.line_number) =
      some 1 := by
  have hs := strlen_replicate 2147483649 '\n' (by decide)
  refine ⟨by decide, ?_, ?_⟩
  · rw [cstr_eq_self _ (fun x hx => by rw [List.eq_of_mem_replicate hx]; decide)]
    exact List.count_replicate_self _ _
  · rw [tokenize_of_nonpos _ _ (by rw [hs]; exact int_of_size_t_beyond.2.1)]
    rfl

/-- C19, amended. `tokenize` never resets the line counter.  Entered with
the counter at `n` on an input of at most `INT_MAX` characters, the lengths
the `int` variable `length` holds, on which the run stays within its buffers
and `n` plus twice the number `k` of newline characters of the input is at
most `SIZE_MAX`, so that the counter does not wrap in two calls, it stamps
every token with `n` plus the number of newline characters before the index
at which the token starts, and leaves the counter at `n + k`; hence a second
call on the same input, entered with the counter the first one left, returns
the same kinds and texts with every line `k` higher than in the first
call. -/
theorem line_counter_never_reset (source : List Char) (n : Nat)
    (hlen : strlen source ≤ INT_MAX)
    (hwrap : n + 2 * (cstr source).count '\n' ≤ SIZE_MAX)
    (hb : in_bounds source n = true) :
    ∃ r1, tokenize source n = .ok r1 ∧
      List.Forall₂ (fun t s => t.line_num = n + newlines_before source s)
        r1.tokens r1.starts ∧
      r1.line_number = n + (cstr source).count '\n' ∧
      ∃ r2, tokenize source r1.line_number = .ok r2 ∧
        r2.tokens = r1.tokens.map (shift_line ((cstr source).count '\n')) ∧
        r2.tokens.map (fun t => (t.type, t.value)) = r1.tokens.map (fun t => (t.type, t.value)) ∧
        r2.line_number = r1.line_number + (cstr source).count '\n' := by
  obtain ⟨st, hst, hc, hr⟩ := tokenize_in_bounds source n hb
  obtain ⟨hinv, _, _, _⟩ := tokenize_scan_inv source n st hst
  obtain ⟨hlines, hexact⟩ := tokenize_scan_lines source n st (by omega) hst
  have hidx := tokenize_scan_index source n st hlen hst
  have hline : st.line_number = n + (cstr source).count '\n' := by
    rw [hexact, hidx, newlines_before_strlen]
  have hat : ∀ i, i ≤ strlen source → line_at source n i = n + newlines_before source i := by
    intro i hi
    have := newlines_before_le source i hi
    exact line_at_eq_add source n i (by omega)
  -- the second call
  have hf := add_mod_commutes ((cstr source).count '\n')
  obtain ⟨st2, hst2, ht2, hl2, hc2, hcap2⟩ := tokenize_scan_map source n
    (fun x => (x + (cstr source).count '\n') % (SIZE_MAX + 1)) hf hlen st hst
  have hfn : (n + (cstr source).count '\n') % (SIZE_MAX + 1) = n + (cstr source).count '\n' :=
    Nat.mod_eq_of_lt (by omega)
  simp only [hfn] at hst2
  have hmap : ∀ t ∈ st.tokens,
      map_line (fun x => (x + (cstr source).count '\n') % (SIZE_MAX + 1)) t =
        shift_line ((cstr source).count '\n') t := by
    intro t ht
    have := hlines.lines_le t ht
    exact map_line_add_mod _ t (by omega)
  have hl2' : st2.line_number = st.line_number + (cstr source).count '\n' := by
    rw [hl2]
    exact Nat.mod_eq_of_lt (by omega)
  have ht2' : (after_eof st2).tokens =
      (after_eof st).tokens.map (shift_line ((cstr source).count '\n')) := by
    rw [after_eof_tokens, after_eof_tokens, ht2, List.map_append, List.map_congr_left hmap, hl2']
    rfl
  refine ⟨_, hr, ?_, hline, ?_⟩
  · rw [after_eof_tokens]
    apply List.rel_append
    · exact hinv.token_line.imp (fun t s h => by rw [h.1, hat s (Nat.le_of_lt h.2.1)])
    · refine List.Forall₂.cons ?_ List.Forall₂.nil
      show st.line_number = _
      rw [hexact]
  · refine ⟨after_eof st2, ?_, ht2', ?_, hl2'⟩
    · show tokenize source st.line_number = _
      rw [hline]
      exact tokenize_of_scan source _ st2 hst2 (by rw [hc2, hcap2]; exact hc)
    · rw [ht2', List.map_map]
      rfl

/-- C19, witness: the input `a\n1 <\nb`, with two newlines, entered at line
5; the second call is entered at line 7. -/
theorem line_counter_never_reset_witness :
    strlen "a\n1 <\nb".toList ≤ INT_MAX ∧
    5 + 2 * (cstr "a\n1 <\nb".toList).count '\n' ≤ SIZE_MAX ∧
    in_bounds "a\n1 <\nb".toList 5 = true ∧
    (tokenize "a\n1 <\nb".toList 5).toOption.map
      (fun r => (r.tokens.map (fun t => t.line_num), r.line_number)) =
      some ([5, 6, 6, 7, 7], 7) ∧
    (tokenize "a\n1 <\nb".toList 7).toOption.map
      (fun r => (r.tokens.map (fun t => t.line_num), r.line_number)) =
      some ([7, 8, 8, 9, 9], 9) ∧
    ∃ r1, tokenize "a\n1 <\nb".toList 5 = .ok r1 ∧
      List.Forall₂ (fun t s => t.line_num = 5 + newlines_before "a\n1 <\nb".toList s)
        r1.tokens r1.starts ∧
      r1.line_number = 5 + (cstr "a\n1 <\nb".toList).count '\n' ∧
      ∃ r2, tokenize "a\n1 <\nb".toList r1.line_number = .ok r2 ∧
        r2.tokens = r1.tokens.map (shift_line ((cstr "a\n1 <\nb".toList).count '\n')) ∧
        r2.tokens.map (fun t => (t.type, t.value)) = r1.tokens.map (fun t => (t.type, t.value)) ∧
        r2.line_number = r1.line_number + (cstr "a\n1 <\nb".toList).count '\n' :=
  ⟨by decide, by decide, by decide, by decide, by decide,
    line_counter_never_reset "a\n1 <\nb".toList 5 (by decide) (by decide) (by decide)⟩

/-- C20, counterexample. The length of the buffer is held in an `int`: with
`s1` the input `;` and `s2` a buffer of `2^31` spaces, which have no
identifier run and no digit run, `tokenize` returns the Delimiter token
before the end marker on `s1`, and on `s1 ++ " " ++ s2`, for which `length`
is negative, no token before the end marker. -/
theorem tokenize_compositional_beyond_int :
    runs_fit ";".toList ∧ runs_fit (List.replicate 2147483648 ' ') ∧
    (tokenize ";".toList 1).toOption.map (fun r => r.tokens.dropLast) =
      some [⟨.TOKEN_DELIMITER, ";".toList, 1⟩] ∧
    (tokenize (List.replicate 2147483648 ' ') 1).toOption.map (fun r => r.tokens.dropLast) =
      some [] ∧
    (tokenize (";".toList ++ " ".toList ++ List.replicate 2147483648 ' ') 1).toOption.map
      (fun r => r.tokens.dropLast) = some [] := by
  have hs := strlen_replicate 2147483648 ' ' (by decide)
  have hnul : ∀ x ∈ ";".toList ++ " ".toList ++ List.replicate 2147483648 ' ', x ≠ NUL := by
    intro x hx
    rw [List.mem_append] at hx
    rcases hx with hx | hx
    · have h2 : ∀ y ∈ ";".toList ++ " ".toList, y ≠ NUL := by decide
      exact h2 x hx
    · rw [List.eq_of_mem_replicate hx]
      decide
  have hs2 : strlen (";".toList ++ " ".toList ++ List.replicate 2147483648 ' ') = 2147483650 := by
    rw [strlen_of_no_nul _ hnul, List.length_append, List.length_replicate]
    rfl
  refine ⟨by decide, runs_fit_replicate _ _ (by decide) (by decide) (by decide), by decide,
    ?_, ?_⟩
  · rw [tokenize_of_nonpos _ _ (by rw [hs]; exact int_of_size_t_beyond.1)]
    rfl
  · rw [tokenize_of_nonpos _ _ (by rw [hs2]; exact int_of_size_t_beyond.2.2.1)]
    rfl

/-- C20, amended. Tokenization is compositional across whitespace.  For all
inputs `s1` (a string, so without terminator inside) and `s2` whose
identifier runs are shorter than 64 characters and digit runs shorter than
32, such that `s1 ++ " " ++ s2` has at most `INT_MAX` characters, the
lengths the `int` variable `length` holds, and on which the store of the end
marker is within the token array in each of the three runs, `tokenize`
returns on `s1`, on `s2` and on `s1 ++ " " ++ s2`, all entered with the line
counter at 1, and the tokens before the EndOfInput marker of the third run
are those of the first followed by those of the second with each line
increased by the number of newline characters of `s1`; no lexeme of the
third run holds a whitespace character. -/
theorem tokenize_compositional (s1 s2 : List Char) (hnul : ∀ c ∈ s1, c ≠ NUL)
    (hlen : strlen (s1 ++ " ".toList ++ s2) ≤ INT_MAX)
    (hf1 : runs_fit s1) (hf2 : runs_fit s2)
    (ha1 : array_in_bounds s1 1 = true) (ha2 : array_in_bounds s2 1 = true)
    (ha : array_in_bounds (s1 ++ " ".toList ++ s2) 1 = true) :
    ∃ r r1 r2, tokenize (s1 ++ " ".toList ++ s2) 1 = .ok r ∧
      tokenize s1 1 = .ok r1 ∧ tokenize s2 1 = .ok r2 ∧
      r.tokens.dropLast =
        r1.tokens.dropLast ++ r2.tokens.dropLast.map (shift_line (s1.count '\n')) ∧
      ∀ t ∈ r.tokens.dropLast, ∀ c ∈ source_spelling t, isspace c = false := by
  have heq : s1 ++ " ".toList ++ s2 = s1 ++ ' ' :: s2 := by simp
  rw [heq] at hlen ha ⊢
  have hlA := strlen_append_space s1 s2 hnul
  have hl1 := strlen_of_no_nul s1 hnul
  have hlen1 : strlen s1 ≤ INT_MAX := by omega
  have hlen2 : strlen s2 ≤ INT_MAX := by omega
  have hint : INT_MAX = 2147483647 := rfl
  have hsize : SIZE_MAX = 18446744073709551615 := rfl
  obtain ⟨st1, hst1⟩ := tokenize_scan_total s1 1 hlen1 hf1
  obtain ⟨st2, hst2⟩ := tokenize_scan_total s2 1 hlen2 hf2
  have hc1 := count_le_strlen s1
  have hc2 := count_le_strlen s2
  have hcs1 : (cstr s1).count '\n' = s1.count '\n' := by rw [cstr_eq_self s1 hnul]
  obtain ⟨_, hx1⟩ := tokenize_scan_lines s1 1 st1 (by omega) hst1
  obtain ⟨hlines2, hx2⟩ := tokenize_scan_lines s2 1 st2 (by omega) hst2
  have hidx1 := tokenize_scan_index s1 1 st1 hlen1 hst1
  have hidx2 := tokenize_scan_index s2 1 st2 hlen2 hst2
  have hline1 : st1.line_number = 1 + s1.count '\n' := by
    rw [hx1, hidx1, newlines_before_strlen, hcs1]
  have hline2 : st2.line_number ≤ 1 + strlen s2 := by
    rw [hx2, hidx2, newlines_before_strlen]
    omega
  obtain ⟨st, hst, ht, _⟩ := tokenize_scan_append_space s1 s2 1 1
    (fun x => (x + s1.count '\n') % (SIZE_MAX + 1)) (add_mod_commutes (s1.count '\n'))
    st1 st2 hnul hlen hst1 hst2
    (by rw [hline1]; exact (Nat.mod_eq_of_lt (by omega)).symm)
  have hmap : ∀ t ∈ st2.tokens,
      map_line (fun x => (x + s1.count '\n') % (SIZE_MAX + 1)) t =
        shift_line (s1.count '\n') t := by
    intro t ht
    have := hlines2.lines_le t ht
    exact map_line_add_mod _ t (by omega)
  obtain ⟨_, hr1⟩ := tokenize_of_array_in_bounds s1 1 st1 hst1 ha1
  obtain ⟨_, hr2⟩ := tokenize_of_array_in_bounds s2 1 st2 hst2 ha2
  obtain ⟨_, hr⟩ := tokenize_of_array_in_bounds _ 1 st hst ha
  refine ⟨_, _, _, hr, hr1, hr2, ?_, ?_⟩
  · rw [after_eof_tokens, after_eof_tokens, after_eof_tokens, List.dropLast_concat,
      List.dropLast_concat, List.dropLast_concat, ht, List.map_congr_left hmap]
  · obtain ⟨_, _, hinv, _⟩ := tokenize_scan_inv _ 1 st hst
    rw [after_eof_tokens, List.dropLast_concat]
    intro t ht1 c hc
    exact lexeme_char_not_space c (spelling_chars _ st hinv t ht1 c hc)

/-- C20, witness: the inputs `a\n<= 1` and `b2 &&`. -/
theorem tokenize_compositional_witness :
    (∀ c ∈ "a\n<= 1".toList, c ≠ NUL) ∧
    strlen ("a\n<= 1".toList ++ " ".toList ++ "b2 &&".toList) ≤ INT_MAX ∧
    runs_fit "a\n<= 1".toList ∧ runs_fit "b2 &&".toList ∧
    array_in_bounds "a\n<= 1".toList 1 = true ∧ array_in_bounds "b2 &&".toList 1 = true ∧
    array_in_bounds ("a\n<= 1".toList ++ " ".toList ++ "b2 &&".toList) 1 = true ∧
    ∃ r r1 r2, tokenize ("a\n<= 1".toList ++ " ".toList ++ "b2 &&".toList) 1 = .ok r ∧
      tokenize "a\n<= 1".toList 1 = .ok r1 ∧ tokenize "b2 &&".toList 1 = .ok r2 ∧
      r.tokens.dropLast =
        r1.tokens.dropLast ++
          r2.tokens.dropLast.map (shift_line ("a\n<= 1".toList.count '\n')) ∧
      ∀ t ∈ r.tokens.dropLast, ∀ c ∈ source_spelling t, isspace c = false :=
  ⟨by decide, by decide, by decide, by decide, by decide, by decide, by decide,
    tokenize_compositional "a\n<= 1".toList "b2 &&".toList (by decide) (by decide) (by decide)
      (by decide) (by decide) (by decide) (by decide)⟩

end SimpliCty
